import Mathlib

/-!
Verification of `idaes/core/util/dyn_utils.py` (index algebra, hierarchy
navigation, and bulk value propagation).

Shallow embedding conventions:
* Pyomo index values are modelled by `PyVal`: either a scalar (a Python
  object, here an `Option Int` so that Python's `None` is representable)
  or a flat tuple of such scalars.  Nested tuples — which Pyomo rejects
  as indices — are outside the model.
* A Pyomo `Set` is modelled by `PyoSet`: an object identity (`id`, the
  CPython `id()`), a dimension (`dimen`), a name, and an element list.
  All membership logic of the source is identity (`is`) based and is
  modelled by comparison of `id` fields.
* A component's `index_set()` is either a plain set (`single`) or a
  `_SetProduct` with a `set_tuple` of factors (`prod`).
* Python exceptions are modelled with `Except String`; functions that
  mutate state thread an explicit store and exceptions carry the store
  at raise time.
-/

/-- Equality of `Except` results is decidable; used to settle concrete
evaluations of the embedded functions by `decide`. -/
instance {ε α : Type} [DecidableEq ε] [DecidableEq α] : DecidableEq (Except ε α) :=
  fun x y =>
    match x, y with
    | .ok a, .ok b =>
      if h : a = b then .isTrue (by rw [h])
      else .isFalse (by intro hc; cases hc; exact h rfl)
    | .error a, .error b =>
      if h : a = b then .isTrue (by rw [h])
      else .isFalse (by intro hc; cases hc; exact h rfl)
    | .ok _, .error _ => .isFalse (by intro hc; cases hc)
    | .error _, .ok _ => .isFalse (by intro hc; cases hc)

/-- A Python scalar index value: an int or `None`. -/
abbrev Atom := Option Int

/-- A Python value used as a (partial) index: a scalar or a flat tuple. -/
inductive PyVal where
  | atom : Atom → PyVal
  | tup : List Atom → PyVal
  deriving DecidableEq, Repr

namespace PyVal

/-- `if type(index) is not tuple: index = (index,)` — view a value as a
flat coordinate list. -/
def flat : PyVal → List Atom
  | .atom a => [a]
  | .tup l => l

end PyVal

/-- A Pyomo `Set` object: identity, dimension, name and elements. -/
structure PyoSet where
  sid : Nat
  dimen : Nat
  sname : String
  elems : List PyVal
  deriving DecidableEq, Repr

/-- A component's indexing structure: a plain `Set` or a `_SetProduct`
(which has a `set_tuple` of factor sets). -/
inductive IndexStructure where
  | single : PyoSet → IndexStructure
  | prod : List PyoSet → IndexStructure
  deriving DecidableEq, Repr

namespace IndexStructure

/-- The factor list: `subsets()` / `set_tuple` for a product, and the set
itself for a plain set. -/
def factors : IndexStructure → List PyoSet
  | .single s => [s]
  | .prod fs => fs

/-- `index_set().dimen`. -/
def dim : IndexStructure → Nat
  | .single s => s.dimen
  | .prod fs => (fs.map (·.dimen)).sum

end IndexStructure

/-- Cartesian-product enumeration of a factor list, in Pyomo iteration
order (leftmost factor outermost), with each factor element flattened
into the tuple. -/
def prodTuples : List PyoSet → List (List Atom)
  | [] => [[]]
  | f :: rest => f.elems.flatMap (fun e => (prodTuples rest).map (fun t => e.flat ++ t))

/-- Iterating a component's index set (elements of a plain set are the
set's own elements; elements of a product are flattened tuples). -/
def IndexStructure.elemsList : IndexStructure → List PyVal
  | .single s => s.elems
  | .prod fs => (prodTuples fs).map .tup

/-- A possibly indexed Pyomo component, as far as indexing is concerned:
`none` models an unindexed (scalar) component. -/
structure Comp where
  cname : String
  indexStructure : Option IndexStructure
  deriving DecidableEq, Repr

namespace Comp

/-- `comp.is_indexed()`. -/
def is_indexed (c : Comp) : Bool := c.indexStructure.isSome

/-- `comp.dim()` — the dimension of the indexing set (0 for scalar). -/
def dim (c : Comp) : Nat :=
  match c.indexStructure with
  | none => 0
  | some s => s.dim

end Comp

/-- Embedding of `is_explicitly_indexed_by(comp, *sets)`
(`dyn_utils.py` lines 29-68). -/
def is_explicitly_indexed_by (comp : Comp) (sets : List PyoSet) : Except String Bool :=
  if !comp.is_indexed then .ok false
  else if sets.length == 0 then .error "Must provide at least one set"
  else
    let s_dim := sets.map (·.dimen)
    let total_s_dim := s_dim.sum
    let c_dim := comp.dim
    if c_dim < total_s_dim then
      -- Cannot be indexed as such if dimension is too low
      .ok false
    else
      match sets with
      | [s0] =>
        if s0.dimen == c_dim then
          -- the only way the index_set is one of the sets provided:
          -- identity check `comp.index_set() is sets[0]`
          .ok (match comp.indexStructure with
               | some (.single s) => s.sid == s0.sid
               | _ => false)
        else
          -- falls into the `c_dim >= total_s_dim` membership branch
          match comp.indexStructure with
          | some (.prod fs) => .ok (sets.all (fun s => fs.any (·.sid == s.sid)))
          | _ => .ok false          -- no `set_tuple` attribute
      | _ =>
        match comp.indexStructure with
        | some (.prod fs) => .ok (sets.all (fun s => fs.any (·.sid == s.sid)))
        | _ => .ok false            -- no `set_tuple` attribute

/-- Embedding of `get_location_of_coordinate_set`'s scanning loop
(`dyn_utils.py` lines 410-430): threads `(found, loc, i)` through the
factor list.  Returns the final `loc` (which stays `None` when `subset`
never occurs) or the duplicate-occurrence error. -/
def locScan (subset : PyoSet) : List PyoSet → Bool → Option Nat → Nat →
    Except String (Option Nat)
  | [], _, loc, _ => .ok loc
  | s :: rest, found, loc, i =>
    if s.sid == subset.sid then
      if found then
        .error ("Cannot get the location of " ++ s.sname ++
                " because it appears multiple times")
      else locScan subset rest true (some i) (i + 1)
    else locScan subset rest found loc (i + s.dimen)

/-- Embedding of `get_location_of_coordinate_set(setprod, subset)`
(`dyn_utils.py` lines 391-430).  The Python function returns `loc`,
which is `None` when `subset` does not occur among the factors; hence
the `Option Nat` result. -/
def get_location_of_coordinate_set (setprod : IndexStructure) (subset : PyoSet) :
    Except String (Option Nat) :=
  if subset.dimen != 1 then
    .error ("Cannot get the location of " ++ subset.sname ++
            " because it is multi-dimensional")
  else
    locScan subset setprod.factors false none 0

/-- Embedding of the `location` / `other_ind_sets` construction of
`get_index_set_except` (`dyn_utils.py` lines 150-163): enumerate the
`set_tuple`; a factor found (by identity) among `sets` contributes
`location[ind_loc] = s_loc` (first match wins, as the Python inner loop
breaks); any other factor is appended to `other_ind_sets`. -/
def buildLocAux (sets : List PyoSet) : List PyoSet → Nat →
    List (Nat × Nat) × List PyoSet
  | [], _ => ([], [])
  | f :: rest, pos =>
    let r := buildLocAux sets rest (pos + 1)
    match sets.findIdx? (fun s => f.sid == s.sid) with
    | some j => ((pos, j) :: r.1, r.2)
    | none => (r.1, f :: r.2)

/-- Insert a pair into a key-sorted association list, keeping it sorted. -/
def insertSorted (p : Nat × Nat) : List (Nat × Nat) → List (Nat × Nat)
  | [] => [p]
  | q :: rest => if p.1 ≤ q.1 then p :: q :: rest else q :: insertSorted p rest

/-- Model of iterating a dict in `sorted(loc.keys())` order: sort the
(distinct-keyed) association list by key. -/
def sortByKey (l : List (Nat × Nat)) : List (Nat × Nat) :=
  l.foldr insertSorted []

/-- The insertion loop of `_complete_index` (`dyn_utils.py` lines
228-233): for each location pair `(i, j)` in key order, splice the
(flattened) value `newvals[j]` into the partial index at position `i`. -/
def insertVals : List (Nat × Nat) → List Atom → List PyVal →
    Except String (List Atom)
  | [], ix, _ => .ok ix
  | (i, j) :: rest, ix, newvals =>
    match newvals.get? j with
    | none => .error "IndexError: list index out of range"
    | some nv => insertVals rest (ix.take i ++ nv.flat ++ ix.drop i) newvals

/-- Embedding of `_complete_index(loc, index, *newvals)`
(`dyn_utils.py` lines 205-233). -/
def _complete_index (loc : List (Nat × Nat)) (index : PyVal)
    (newvals : List PyVal) : Except String PyVal :=
  if loc.length != newvals.length then
    .error "Wrong number of values to complete index"
  else
    (insertVals (sortByKey loc) index.flat newvals).map .tup

/-- The `set_except` entry of the dictionary returned by
`get_index_set_except`: either the literal Python list `[None]`
(the trivial case) or a Pyomo set / set product. -/
inductive SetExcept where
  | trivialSE : SetExcept
  | se : IndexStructure → SetExcept
  deriving DecidableEq, Repr

namespace SetExcept

/-- Iterating `set_except` (the trivial `[None]` yields Python `None`). -/
def elemsList : SetExcept → List PyVal
  | .trivialSE => [.atom none]
  | .se s => s.elemsList

/-- The dimension of the projection (`[None]` is zero-dimensional). -/
def sdim : SetExcept → Nat
  | .trivialSE => 0
  | .se s => s.dim

end SetExcept

/-- The `index_getter` closure returned by `get_index_set_except`: the
trivial-case reordering lambda (lines 184-186) or the wrapper around
`_complete_index` (lines 197-198); both close over `location`. -/
inductive Getter where
  | reorder : List (Nat × Nat) → Getter
  | completer : List (Nat × Nat) → Getter
  deriving DecidableEq, Repr

/-- The dictionary returned by `get_index_set_except`. -/
structure IndexInfo where
  set_except : SetExcept
  getter : Getter
  deriving DecidableEq, Repr

/-- Applying the `index_getter` closure to a partial index and new
values.  The trivial-case lambda is
`newvals[0] if len(newvals) <= 1 else tuple([newvals[location[i]] for i in location])`;
a non-scalar entry in the reordering tuple would create a nested tuple
(never a valid Pyomo index), which is outside the model. -/
def applyGetter : Getter → PyVal → List PyVal → Except String PyVal
  | .reorder loc, _, newvals =>
    if newvals.length ≤ 1 then
      match newvals with
      | [] => .error "IndexError: list index out of range"
      | v :: _ => .ok v
    else
      match loc.mapM (fun p => newvals.get? p.2) with
      | none => .error "IndexError: list index out of range"
      | some vs =>
        match vs.mapM (fun v => match v with | .atom a => some a | .tup _ => none) with
        | none => .error "nested index tuple: outside the model"
        | some atoms => .ok (.tup atoms)
  | .completer loc, incomplete, newvals => _complete_index loc incomplete newvals

/-- Embedding of `get_index_set_except(comp, *sets)`
(`dyn_utils.py` lines 110-202). -/
def get_index_set_except (comp : Comp) (sets : List PyoSet) :
    Except String IndexInfo := do
  let total_s_dim := (sets.map (·.dimen)).sum
  let b ← is_explicitly_indexed_by comp sets
  if !b then
    .error (comp.cname ++ " is not indexed by at least one of " ++
            String.intercalate ", " (sets.map (·.sname)))
  else
    match comp.indexStructure with
    | none =>
      -- unreachable: `is_explicitly_indexed_by` returned true, so comp is indexed
      .error "unreachable: unindexed component"
    | some istr => do
      let locOthers ←
        match istr with
        | .prod set_tuple =>
          if sets.all
              (fun s => (set_tuple.filter (fun f => f.sid == s.sid)).length == 1) then
            Except.ok (buildLocAux sets set_tuple 0)
          else
            Except.error "Cannot omit sets that appear multiple times"
        | .single _ =>
          -- no `set_tuple` attribute: a SimpleSet, so `location = {0: 0}`
          Except.ok ([((0 : Nat), (0 : Nat))], ([] : List PyoSet))
      if comp.dim == total_s_dim then
        -- the trivial set_except `[None]` and the reordering index_getter
        .ok { set_except := .trivialSE, getter := .reorder locOthers.1 }
      else
        match locOthers.2 with
        | [o] => .ok { set_except := .se (.single o), getter := .completer locOthers.1 }
        | _ :: _ => .ok { set_except := .se (.prod locOthers.2), getter := .completer locOthers.1 }
        | [] => .error "Did not expect this to happen"

/-- A component data object (a `VarData` / `BlockData`): the component it
belongs to (`parent_component()`) and its own index (`.index()`). -/
structure CompData where
  parentComp : Comp
  index : PyVal
  deriving DecidableEq, Repr

/-- Embedding of `get_index_of_set(comp, wrt)` (`dyn_utils.py` lines
433-454).  `index[loc]` with `loc = None` is a Python `TypeError`, and
an out-of-range position an `IndexError`; both are modelled as errors. -/
def get_index_of_set (comp : CompData) (wrt : PyoSet) : Except String Atom := do
  let b ← is_explicitly_indexed_by comp.parentComp [wrt]
  if !b then
    .error ("Component " ++ comp.parentComp.cname ++
            " is not explicitly indexed by set " ++ wrt.sname)
  else
    match comp.parentComp.indexStructure with
    | none => .error "unreachable: explicitly indexed component is indexed"
    | some istr => do
      let loc ← get_location_of_coordinate_set istr wrt
      match loc with
      | none => .error "TypeError: tuple indices must be integers, not NoneType"
      | some l =>
        match comp.index.flat.get? l with
        | none => .error "IndexError: tuple index out of range"
        | some a => .ok a

/-- The ancestor loop of `get_implicit_index_of_set` (`dyn_utils.py`
lines 476-486): walk the parent blocks bottom-up, threading the `val`
and `found` state. -/
def implicitScan (wrt : PyoSet) : List CompData → Option Atom → Bool →
    Except String (Option Atom)
  | [], val, _ => .ok val
  | blk :: rest, val, found => do
    let b ← is_explicitly_indexed_by blk.parentComp [wrt]
    if b then
      if found then
        .error ("Cannot get the index of set " ++ wrt.sname ++
                " because it appears multiple times in the hierarchy")
      else do
        let v ← get_index_of_set blk wrt
        implicitScan wrt rest (some v) true
    else implicitScan wrt rest val found

/-- Embedding of `get_implicit_index_of_set(comp, wrt)` (`dyn_utils.py`
lines 457-490).  `ancestors` is the chain of parent block data objects,
bottom-up.  Note that the ancestor walk runs even when the component's
own parent is explicitly indexed by `wrt`. -/
def get_implicit_index_of_set (comp : CompData) (ancestors : List CompData)
    (wrt : PyoSet) : Except String (Option Atom) := do
  let b ← is_explicitly_indexed_by comp.parentComp [wrt]
  if b then do
    let v ← get_index_of_set comp wrt
    implicitScan wrt ancestors (some v) true
  else
    implicitScan wrt ancestors none false

section SmokeTests

/-- Two one-dimensional sets used in small sanity checks. -/
def setA : PyoSet := ⟨1, 1, "A", [.atom (some 10), .atom (some 20)]⟩

def setT : PyoSet := ⟨2, 1, "T", [.atom (some 0), .atom (some 1), .atom (some 2)]⟩

example :
    is_explicitly_indexed_by ⟨"v", some (.prod [setA, setT])⟩ [setT] = .ok true := by
  decide

example :
    is_explicitly_indexed_by ⟨"v", some (.single setA)⟩ [setA] = .ok true := by
  decide

example :
    get_location_of_coordinate_set (.prod [setA, setT]) setT = .ok (some 1) := by
  decide

example :
    (get_index_set_except ⟨"v", some (.prod [setA, setT])⟩ [setT]).map
      (fun i => i.set_except.elemsList) = .ok [.atom (some 10), .atom (some 20)] := by
  decide

example :
    (get_index_set_except ⟨"v", some (.prod [setA, setT])⟩ [setT]).map
      (fun i => applyGetter i.getter (.atom (some 10)) [.atom (some 0)]) =
    .ok (.ok (.tup [some 10, some 0])) := by
  decide

end SmokeTests

/-- No factor of `fs` is (identically) the searched set. -/
def noOcc (sid : Nat) (fs : List PyoSet) : Prop := ∀ f ∈ fs, f.sid ≠ sid

instance (sid : Nat) (fs : List PyoSet) : Decidable (noOcc sid fs) := by
  unfold noOcc; infer_instance

theorem locScan_noOcc (subset : PyoSet) (fs : List PyoSet) (found : Bool)
    (loc : Option Nat) (i : Nat) (h : noOcc subset.sid fs) :
    locScan subset fs found loc i = .ok loc := by
  induction fs generalizing i with
  | nil => rfl
  | cons f rest ih =>
    have hf : (f.sid == subset.sid) = false := by
      simpa using h f (by simp)
    simp only [locScan, hf, Bool.false_eq_true, if_false]
    exact ih _ (fun g hg => h g (by simp [hg]))

theorem locScan_found_err (subset : PyoSet) (fs : List PyoSet)
    (loc : Option Nat) (i : Nat) (h : ∃ f ∈ fs, f.sid = subset.sid) :
    ∃ m, locScan subset fs true loc i = .error m := by
  induction fs generalizing i loc with
  | nil => simp at h
  | cons f rest ih =>
    by_cases hf : f.sid = subset.sid
    · have hb : (f.sid == subset.sid) = true := by simpa using hf
      exact ⟨"Cannot get the location of " ++ f.sname ++
             " because it appears multiple times", by simp [locScan, hb]⟩
    · have hb : (f.sid == subset.sid) = false := by simpa using hf
      simp only [locScan, hb, Bool.false_eq_true, if_false]
      rcases h with ⟨g, hg, hgs⟩
      rcases List.mem_cons.mp hg with hg | hg
      · exact absurd hgs (hg ▸ hf)
      · exact ih loc _ ⟨g, hg, hgs⟩

theorem locScan_skip (subset : PyoSet) (pre rest : List PyoSet) (found : Bool)
    (loc : Option Nat) (i : Nat) (h : noOcc subset.sid pre) :
    locScan subset (pre ++ rest) found loc i =
      locScan subset rest found loc (i + (pre.map (·.dimen)).sum) := by
  induction pre generalizing i with
  | nil => simp
  | cons f pre' ih =>
    have hf : (f.sid == subset.sid) = false := by
      simpa using h f (by simp)
    simp only [List.cons_append, locScan, hf, Bool.false_eq_true, if_false,
               List.append_eq]
    rw [ih _ (fun g hg => h g (by simp [hg]))]
    simp [Nat.add_assoc]

/-- C7, amended: `get_location_of_coordinate_set` raises when the subset
is not one-dimensional or occurs more than once among the product's
factors; when the subset occurs exactly once it returns the sum of the
dimensions of the preceding factors; but when the subset does not occur
at all it silently returns an absent result (`None`) instead of
raising. -/
theorem get_location_of_coordinate_set_spec
    (setprod : IndexStructure) (subset : PyoSet) :
    (subset.dimen ≠ 1 →
      get_location_of_coordinate_set setprod subset =
        .error ("Cannot get the location of " ++ subset.sname ++
                " because it is multi-dimensional")) ∧
    (subset.dimen = 1 → ∀ pre f post,
      setprod.factors = pre ++ f :: post → f.sid = subset.sid →
      noOcc subset.sid pre → noOcc subset.sid post →
      get_location_of_coordinate_set setprod subset =
        .ok (some ((pre.map (·.dimen)).sum))) ∧
    (subset.dimen = 1 → noOcc subset.sid setprod.factors →
      get_location_of_coordinate_set setprod subset = .ok none) ∧
    (subset.dimen = 1 → ∀ pre f mid g post,
      setprod.factors = pre ++ f :: mid ++ g :: post →
      f.sid = subset.sid → g.sid = subset.sid →
      ∃ m, get_location_of_coordinate_set setprod subset = .error m) := by
  have hne : subset.dimen = 1 → (subset.dimen != 1) = false := by
    intro h; simp [h]
  refine ⟨fun h => ?_, fun h1 pre f post hfac hf hpre hpost => ?_,
          fun h1 hno => ?_, fun h1 pre f mid g post hfac hf hg => ?_⟩
  · unfold get_location_of_coordinate_set
    have : (subset.dimen != 1) = true := by simpa using h
    simp [this]
  · unfold get_location_of_coordinate_set
    rw [hne h1]
    simp only [Bool.false_eq_true, if_false]
    rw [hfac, locScan_skip subset pre _ false none 0 hpre]
    have hfb : (f.sid == subset.sid) = true := by simpa using hf
    simp only [locScan, hfb, if_true, Bool.true_eq_false]
    simpa using locScan_noOcc subset post true _ _ hpost
  · unfold get_location_of_coordinate_set
    rw [hne h1]
    simp only [Bool.false_eq_true, if_false]
    exact locScan_noOcc subset _ false none 0 hno
  · unfold get_location_of_coordinate_set
    rw [hne h1]
    simp only [Bool.false_eq_true, if_false]
    rw [hfac]
    -- scan the prefix: either it errors already or reaches `f` unfound
    have key : ∀ (pre' : List PyoSet) (found : Bool) (loc : Option Nat) (i : Nat),
        ∃ m, locScan subset (pre' ++ f :: mid ++ g :: post) found loc i = .error m := by
      intro pre'
      induction pre' with
      | nil =>
        intro found loc i
        have hfb : (f.sid == subset.sid) = true := by simpa using hf
        cases found with
        | true =>
          exact locScan_found_err subset _ loc i ⟨f, by simp, hf⟩
        | false =>
          simp only [List.nil_append, locScan, hfb, if_true, Bool.false_eq_true]
          exact locScan_found_err subset _ _ _ ⟨g, by simp, hg⟩
      | cons p pre'' ih =>
        intro found loc i
        by_cases hp : p.sid = subset.sid
        · have hpb : (p.sid == subset.sid) = true := by simpa using hp
          cases found with
          | true =>
            exact ⟨"Cannot get the location of " ++ p.sname ++
                   " because it appears multiple times", by simp [locScan, hpb]⟩
          | false =>
            simp only [List.cons_append, locScan, hpb, if_true, Bool.false_eq_true]
            exact ih true (some i) (i + 1)
        · have hpb : (p.sid == subset.sid) = false := by simpa using hp
          simp only [List.cons_append, locScan, hpb, Bool.false_eq_true, if_false]
          exact ih found loc (i + p.dimen)
    exact key pre false none 0

theorem expl_dim_too_low (comp : Comp) (sets : List PyoSet) (hne : sets ≠ [])
    (hlt : comp.dim < (sets.map (·.dimen)).sum) :
    is_explicitly_indexed_by comp sets = .ok false := by
  unfold is_explicitly_indexed_by
  cases hc : comp.is_indexed with
  | false => simp [hc]
  | true =>
    have hlen : (sets.length == 0) = false := by
      simpa using fun h => hne (List.length_eq_zero.mp h)
    simp [hc, hlen, hlt]

theorem expl_single_full_dim (comp : Comp) (s0 : PyoSet)
    (hidx : comp.is_indexed = true) (hdim : s0.dimen = comp.dim)
    (hinj : ∀ istr, comp.indexStructure = some istr →
      ∀ f ∈ istr.factors, f.sid = s0.sid → f = s0) :
    is_explicitly_indexed_by comp [s0] =
      .ok (decide (comp.indexStructure = some (.single s0))) := by
  unfold is_explicitly_indexed_by
  have hnlt : ¬ comp.dim < (([s0] : List PyoSet).map (·.dimen)).sum := by
    simp [hdim]
  simp only [hidx, Bool.not_true, Bool.false_eq_true, if_false,
             List.length_cons, List.length_nil]
  rw [if_neg (by simp)]
  rw [if_neg hnlt]
  have hd : (s0.dimen == comp.dim) = true := by simpa using hdim
  simp only [hd, if_true]
  match hstr : comp.indexStructure with
  | none => simp [Comp.is_indexed, hstr] at hidx
  | some (.prod fs) => simp
  | some (.single s) =>
    by_cases hs : s.sid = s0.sid
    · have : s = s0 := hinj _ hstr s (by simp [IndexStructure.factors]) hs
      subst this
      simp
    · have hb : (s.sid == s0.sid) = false := by simpa using hs
      have : ¬ (IndexStructure.single s = IndexStructure.single s0) := by
        intro h; cases h; exact hs rfl
      simp [hb, this]

theorem expl_membership (comp : Comp) (sets : List PyoSet)
    (istr : IndexStructure) (hstr : comp.indexStructure = some istr)
    (hne : sets ≠ []) (hdims : ∀ s ∈ sets, 1 ≤ s.dimen)
    (hinj : ∀ s ∈ sets, ∀ f ∈ istr.factors, f.sid = s.sid → f = s)
    (hle : (sets.map (·.dimen)).sum ≤ comp.dim)
    (hnsingle : ∀ s0, sets = [s0] → s0.dimen ≠ comp.dim) :
    is_explicitly_indexed_by comp sets =
      .ok (sets.all (fun s => istr.factors.any (fun f => f.sid == s.sid))) := by
  have hidx : comp.is_indexed = true := by simp [Comp.is_indexed, hstr]
  unfold is_explicitly_indexed_by
  have hlen : (sets.length == 0) = false := by
    simpa using fun h => hne (List.length_eq_zero.mp h)
  simp only [hidx, Bool.not_true, Bool.false_eq_true, if_false, hlen]
  rw [if_neg (Nat.not_lt.mpr hle)]
  match hsets : sets with
  | [s0] =>
    have hd : (s0.dimen == comp.dim) = false := by
      simpa using hnsingle s0 rfl
    simp only [hd, Bool.false_eq_true, if_false]
    match hstr2 : comp.indexStructure with
    | none => simp [Comp.is_indexed, hstr2] at hidx
    | some (.prod fs) =>
      have : istr = .prod fs := by
        rw [hstr] at hstr2; exact Option.some.inj hstr2
      subst this
      simp [IndexStructure.factors]
    | some (.single s) =>
      have : istr = .single s := by
        rw [hstr] at hstr2; exact Option.some.inj hstr2
      subst this
      -- the code returns false (no set_tuple); show the membership value
      -- is also false: otherwise s = s0 and s0 would have full dimension
      have hmem : (s.sid == s0.sid) = false := by
        by_contra hcon
        have hsid : s.sid = s0.sid := by
          have := Bool.not_eq_false (s.sid == s0.sid) |>.mp hcon
          simpa using this
        have heq : s = s0 :=
          hinj s0 (by simp) s (by simp [IndexStructure.factors]) hsid
        have : s0.dimen = comp.dim := by
          simp [Comp.dim, hstr, IndexStructure.dim, ← heq]
        exact hnsingle s0 rfl this
      simp [IndexStructure.factors, hmem]
  | s0 :: s1 :: rest =>
    simp only []
    match hstr2 : comp.indexStructure with
    | none => simp [Comp.is_indexed, hstr2] at hidx
    | some (.prod fs) =>
      have : istr = .prod fs := by
        rw [hstr] at hstr2; exact Option.some.inj hstr2
      subst this
      simp [IndexStructure.factors]
    | some (.single s) =>
      have : istr = .single s := by
        rw [hstr] at hstr2; exact Option.some.inj hstr2
      subst this
      -- the code returns false; the membership value must be false too,
      -- else every requested set is s and the total dimension exceeds s's
      have hmem : ((s0 :: s1 :: rest).all
          (fun t => (IndexStructure.single s).factors.any (fun f => f.sid == t.sid))) = false := by
        by_contra hcon
        have hall := Bool.not_eq_false _ |>.mp hcon
        rw [List.all_eq_true] at hall
        have h0 : s = s0 := by
          have := hall s0 (by simp)
          simp [IndexStructure.factors] at this
          exact hinj s0 (by simp) s (by simp [IndexStructure.factors]) this
        have h1 : s = s1 := by
          have := hall s1 (by simp)
          simp [IndexStructure.factors] at this
          exact hinj s1 (by simp) s (by simp [IndexStructure.factors]) this
        have hcd : comp.dim = s.dimen := by
          simp [Comp.dim, hstr, IndexStructure.dim]
        have hsum : s0.dimen + s1.dimen ≤ (((s0 :: s1 :: rest)).map (·.dimen)).sum := by
          simp only [List.map_cons, List.sum_cons]
          omega
        have h1le : 1 ≤ s1.dimen := hdims s1 (by simp)
        have hd0 : s0.dimen = s.dimen := by rw [h0]
        have hd1 : s1.dimen = s.dimen := by rw [h1]
        omega
      rw [hmem]
  | [] => exact absurd rfl hne

theorem expl_occurs_once (comp : Comp) (S : PyoSet) (istr : IndexStructure)
    (pre post : List PyoSet) (hstr : comp.indexStructure = some istr)
    (hprod2 : ∀ fs, istr = .prod fs → 2 ≤ fs.length)
    (hdims : ∀ f ∈ istr.factors, 1 ≤ f.dimen)
    (hfac : istr.factors = pre ++ S :: post)
    (_hpre : noOcc S.sid pre) (_hpost : noOcc S.sid post) :
    is_explicitly_indexed_by comp [S] = .ok true := by
  have hidx : comp.is_indexed = true := by simp [Comp.is_indexed, hstr]
  rcases istr with s | fs
  · -- SimpleSet: the factor list [s] forces pre = post = [] and s = S
    have hsS : s = S := by
      have h : [s] = pre ++ S :: post := by
        simpa [IndexStructure.factors] using hfac
      rcases pre with _ | ⟨a, pre'⟩
      · simp only [List.nil_append] at h
        injection h with h1 h2
      · have := congrArg List.length h
        simp [List.length_append] at this
    subst hsS
    unfold is_explicitly_indexed_by
    have hdim : comp.dim = s.dimen := by
      simp [Comp.dim, hstr, IndexStructure.dim]
    have hnlt : ¬ comp.dim < (([s] : List PyoSet).map (·.dimen)).sum := by
      simp [hdim]
    simp only [hidx, Bool.not_true, Bool.false_eq_true, if_false]
    rw [if_neg (by simp)]
    rw [if_neg hnlt]
    have hd : (s.dimen == comp.dim) = true := by simp [hdim]
    simp [hd, hstr]
  · -- set product: S strictly below full dimension, membership branch
    have hfs : fs = pre ++ S :: post := by
      simpa [IndexStructure.factors] using hfac
    have hlen2 : 2 ≤ fs.length := hprod2 fs rfl
    have hcomp : comp.dim = (fs.map (·.dimen)).sum := by
      simp [Comp.dim, hstr, IndexStructure.dim]
    have hSin : S ∈ fs := by rw [hfs]; simp
    have hlt : S.dimen < (fs.map (·.dimen)).sum := by
      rcases pre with _ | ⟨q, pre'⟩
      · rcases post with _ | ⟨p, post'⟩
        · rw [hfs] at hlen2; simp at hlen2
        · have hp : 1 ≤ p.dimen := by
            apply hdims p
            rw [hfac]; simp
          rw [hfs]; simp; omega
      · have hq : 1 ≤ q.dimen := by
          apply hdims q
          rw [hfac]; simp
        rw [hfs]; simp; omega
    unfold is_explicitly_indexed_by
    simp only [hidx, Bool.not_true, Bool.false_eq_true, if_false]
    rw [if_neg (by simp)]
    rw [if_neg (by simp; omega)]
    have hd : (S.dimen == comp.dim) = false := by
      simp; omega
    simp only [hd, Bool.false_eq_true, if_false, hstr]
    have hany : (fs.any (fun f => f.sid == S.sid)) = true := by
      rw [List.any_eq_true]
      exact ⟨S, hSin, by simp⟩
    simp [hany]

/-- C6: `is_explicitly_indexed_by` returns false when the entity's index
dimension is below the sum of the requested dimensions; for a single
requested set of full dimension it performs an identity comparison with
the entity's own index set; otherwise it returns whether every
requested set occurs by identity among the entity's product factors;
and in particular it returns true for any set occurring exactly once
among the factors, regardless of ancestor indexing (the function never
consults ancestors). -/
theorem is_explicitly_indexed_by_claim (comp : Comp) :
    (∀ sets : List PyoSet, sets ≠ [] →
      comp.dim < (sets.map (·.dimen)).sum →
      is_explicitly_indexed_by comp sets = .ok false) ∧
    (∀ s0 : PyoSet, comp.is_indexed = true → s0.dimen = comp.dim →
      (∀ istr, comp.indexStructure = some istr →
        ∀ f ∈ istr.factors, f.sid = s0.sid → f = s0) →
      is_explicitly_indexed_by comp [s0] =
        .ok (decide (comp.indexStructure = some (.single s0)))) ∧
    (∀ (sets : List PyoSet) (istr : IndexStructure),
      comp.indexStructure = some istr → sets ≠ [] →
      (∀ s ∈ sets, 1 ≤ s.dimen) →
      (∀ s ∈ sets, ∀ f ∈ istr.factors, f.sid = s.sid → f = s) →
      (sets.map (·.dimen)).sum ≤ comp.dim →
      (∀ s0, sets = [s0] → s0.dimen ≠ comp.dim) →
      is_explicitly_indexed_by comp sets =
        .ok (sets.all (fun s => istr.factors.any (fun f => f.sid == s.sid)))) ∧
    (∀ (S : PyoSet) (istr : IndexStructure) (pre post : List PyoSet),
      comp.indexStructure = some istr →
      (∀ fs, istr = .prod fs → 2 ≤ fs.length) →
      (∀ f ∈ istr.factors, 1 ≤ f.dimen) →
      istr.factors = pre ++ S :: post →
      noOcc S.sid pre → noOcc S.sid post →
      is_explicitly_indexed_by comp [S] = .ok true) :=
  ⟨fun sets hne hlt => expl_dim_too_low comp sets hne hlt,
   fun s0 hidx hdim hinj => expl_single_full_dim comp s0 hidx hdim hinj,
   fun sets istr hstr hne hdims hinj hle hns =>
     expl_membership comp sets istr hstr hne hdims hinj hle hns,
   fun S istr pre post hstr hp2 hdims hfac hpre hpost =>
     expl_occurs_once comp S istr pre post hstr hp2 hdims hfac hpre hpost⟩

/-- Witness for C6 at concrete inputs: a variable indexed by the product
A × T is explicitly indexed by T, and too many dimensions give false. -/
theorem is_explicitly_indexed_by_claim_witness :
    is_explicitly_indexed_by ⟨"v", some (.prod [setA, setT])⟩ [setT] = .ok true ∧
    is_explicitly_indexed_by ⟨"w", some (.single setA)⟩ [setA, setT] = .ok false := by
  constructor
  · exact (is_explicitly_indexed_by_claim ⟨"v", some (.prod [setA, setT])⟩).2.2.2
      setT (.prod [setA, setT]) [setA] [] rfl
      (by intro fs h; cases h; decide) (by decide) rfl (by decide) (by decide)
  · exact (is_explicitly_indexed_by_claim ⟨"w", some (.single setA)⟩).1
      [setA, setT] (by decide) (by decide)

/-- Whether a factor is one of the excluded sets (by identity), i.e. the
test of the inner loop at `dyn_utils.py` lines 157-161. -/
def exclIdx (sets : List PyoSet) (f : PyoSet) : Option Nat :=
  sets.findIdx? (fun s => f.sid == s.sid)

/-- Specification-side description of what a correct completer must
produce: walk the factor list; an excluded factor contributes the
supplied value for its set, any other factor consumes its coordinates
from the projection element. -/
def interleave : List PyoSet → List PyoSet → List PyVal → List Atom → List Atom
  | [], _, _, _ => []
  | f :: fs', sets, vals, proj =>
    match exclIdx sets f with
    | some j => (vals.getD j (.atom none)).flat ++ interleave fs' sets vals proj
    | none => proj.take f.dimen ++ interleave fs' sets vals (proj.drop f.dimen)

/-- The predicate "this full index carries the supplied value for every
excluded set at that set's coordinates". -/
def hasVals : List PyoSet → List PyoSet → List PyVal → List Atom → Bool
  | [], _, _, coords => coords.isEmpty
  | f :: fs', sets, vals, coords =>
    (match exclIdx sets f with
     | some j => decide (coords.take f.dimen = (vals.getD j (.atom none)).flat)
     | none => true)
    && hasVals fs' sets vals (coords.drop f.dimen)

/-- The scalar content of a `PyVal` (meaningful for atoms only). -/
def atomOf : PyVal → Atom
  | .atom a => a
  | .tup _ => none

theorem buildLocAux_others (sets fs : List PyoSet) (pos : Nat) :
    (buildLocAux sets fs pos).2 = fs.filter (fun f => (exclIdx sets f).isNone) := by
  induction fs generalizing pos with
  | nil => rfl
  | cons f fs' ih =>
    simp only [buildLocAux, exclIdx] at *
    cases h : sets.findIdx? (fun s => f.sid == s.sid) with
    | some j => simp [h, ih]
    | none => simp [h, ih]

theorem buildLocAux_length (sets fs : List PyoSet) (pos : Nat) :
    (buildLocAux sets fs pos).1.length =
      fs.countP (fun f => (exclIdx sets f).isSome) := by
  induction fs generalizing pos with
  | nil => rfl
  | cons f fs' ih =>
    simp only [buildLocAux, exclIdx] at *
    cases h : sets.findIdx? (fun s => f.sid == s.sid) with
    | some j => simp [h, ih, List.countP_cons]
    | none => simp [h, ih, List.countP_cons]

theorem buildLocAux_keys_ge (sets fs : List PyoSet) (pos : Nat) :
    ∀ p ∈ (buildLocAux sets fs pos).1, pos ≤ p.1 := by
  induction fs generalizing pos with
  | nil => intro p hp; simp [buildLocAux] at hp
  | cons f fs' ih =>
    intro p hp
    simp only [buildLocAux] at hp
    cases h : exclIdx sets f with
    | some j =>
      rw [exclIdx] at h
      rw [h] at hp
      rcases List.mem_cons.mp hp with rfl | hp
      · exact Nat.le_refl _
      · exact Nat.le_of_succ_le (ih (pos + 1) p hp)
    | none =>
      rw [exclIdx] at h
      rw [h] at hp
      exact Nat.le_of_succ_le (ih (pos + 1) p hp)

theorem buildLocAux_keys_sorted (sets fs : List PyoSet) (pos : Nat) :
    (buildLocAux sets fs pos).1.Pairwise (fun a b => a.1 < b.1) := by
  induction fs generalizing pos with
  | nil => simp [buildLocAux]
  | cons f fs' ih =>
    simp only [buildLocAux]
    cases h : exclIdx sets f with
    | some j =>
      rw [exclIdx] at h
      rw [h]
      refine List.pairwise_cons.mpr ⟨?_, ih (pos + 1)⟩
      intro p hp
      exact Nat.lt_of_succ_le (buildLocAux_keys_ge sets fs' (pos + 1) p hp)
    | none =>
      rw [exclIdx] at h
      rw [h]
      exact ih (pos + 1)

theorem sortByKey_eq_self (l : List (Nat × Nat))
    (h : l.Pairwise (fun a b => a.1 < b.1)) : sortByKey l = l := by
  induction l with
  | nil => rfl
  | cons a l ih =>
    rcases List.pairwise_cons.mp h with ⟨ha, hl⟩
    show insertSorted a (sortByKey l) = a :: l
    rw [ih hl]
    cases l with
    | nil => rfl
    | cons b l' =>
      show (if a.1 ≤ b.1 then a :: b :: l' else b :: insertSorted a l') = _
      rw [if_pos (Nat.le_of_lt (ha b (by simp)))]

theorem insertVals_interleave (sets : List PyoSet) (vals : List PyVal)
    (hlen : vals.length = sets.length) :
    ∀ (fs : List PyoSet) (pos : Nat) (pref proj : List Atom),
    pref.length = pos →
    (∀ f ∈ fs, f.dimen = 1) →
    (∀ f ∈ fs, ∀ j, exclIdx sets f = some j →
        ∃ a, vals.getD j (.atom none) = .atom a) →
    proj.length = (fs.filter (fun f => (exclIdx sets f).isNone)).length →
    insertVals (buildLocAux sets fs pos).1 (pref ++ proj) vals
      = .ok (pref ++ interleave fs sets vals proj) := by
  intro fs
  induction fs with
  | nil =>
    intro pos pref proj _ _ _ hproj
    have hp : proj = [] := List.length_eq_zero.mp (by simpa using hproj)
    simp [buildLocAux, insertVals, interleave, hp]
  | cons f fs' ih =>
    intro pos pref proj hpos h1 hv hproj
    simp only [buildLocAux]
    cases hex : exclIdx sets f with
    | some j =>
      have hexf : List.findIdx? (fun s => f.sid == s.sid) sets = some j := hex
      rw [hexf]
      have hj : j < vals.length := by
        rw [hlen]
        exact (List.findIdx?_eq_some_iff_getElem.mp hexf).1
      obtain ⟨a, ha⟩ := hv f (by simp) j hex
      have hgd : vals.getD j (.atom none) = vals[j] := by
        simp [List.getD_eq_getElem?_getD, List.getElem?_eq_getElem hj]
      have hget : vals.get? j = some (PyVal.atom a) := by
        rw [List.get?_eq_getElem?, List.getElem?_eq_getElem hj, ← hgd, ha]
      simp only [insertVals, hget]
      rw [show (pref ++ proj).take pos = pref from hpos ▸ List.take_left pref proj]
      rw [show (pref ++ proj).drop pos = proj from hpos ▸ List.drop_left pref proj]
      have hrec := ih (pos + 1) (pref ++ PyVal.flat (.atom a)) proj
        (by simp [PyVal.flat, hpos])
        (fun g hg => h1 g (by simp [hg]))
        (fun g hg => hv g (by simp [hg]))
        (by
          have : (exclIdx sets f).isNone = false := by simp [hex]
          simpa [this] using hproj)
      rw [hrec]
      simp only [interleave, hex, ha]
      simp [PyVal.flat, List.append_assoc]
    | none =>
      have hexf : List.findIdx? (fun s => f.sid == s.sid) sets = none := hex
      rw [hexf]
      simp only []
      have hd1 : f.dimen = 1 := h1 f (by simp)
      have hisn : (exclIdx sets f).isNone = true := by simp [hex]
      match hpp : proj with
      | [] =>
        simp only [List.filter_cons, hisn, if_true, List.length_cons,
                   List.length_nil] at hproj
        omega
      | c :: proj' =>
        have hplen' : proj'.length =
            (List.filter (fun g => (exclIdx sets g).isNone) fs').length := by
          simp only [List.filter_cons, hisn, if_true, List.length_cons] at hproj
          omega
        have hrec := ih (pos + 1) (pref ++ [c]) proj'
          (by simp [hpos])
          (fun g hg => h1 g (by simp [hg]))
          (fun g hg => hv g (by simp [hg]))
          hplen'
        rw [show pref ++ c :: proj' = (pref ++ [c]) ++ proj' by simp]
        rw [hrec]
        simp only [interleave, hex, hd1]
        simp

theorem complete_index_eq_interleave (sets : List PyoSet) (vals : List PyVal)
    (fs : List PyoSet) (projV : PyVal)
    (hlen : vals.length = sets.length)
    (h1 : ∀ f ∈ fs, f.dimen = 1)
    (hv : ∀ f ∈ fs, ∀ j, exclIdx sets f = some j →
        ∃ a, vals.getD j (.atom none) = .atom a)
    (hproj : projV.flat.length = (fs.filter (fun f => (exclIdx sets f).isNone)).length)
    (hloclen : (buildLocAux sets fs 0).1.length = vals.length) :
    _complete_index (buildLocAux sets fs 0).1 projV vals =
      .ok (.tup (interleave fs sets vals projV.flat)) := by
  unfold _complete_index
  rw [if_neg (by simp [hloclen])]
  rw [sortByKey_eq_self _ (buildLocAux_keys_sorted sets fs 0)]
  have := insertVals_interleave sets vals hlen fs 0 [] projV.flat rfl h1 hv hproj
  simp only [List.nil_append] at this
  rw [this]
  rfl

theorem countP_or_disjoint (p q : α → Bool) (l : List α)
    (h : ∀ a ∈ l, ¬(p a = true ∧ q a = true)) :
    l.countP (fun a => p a || q a) = l.countP p + l.countP q := by
  induction l with
  | nil => simp
  | cons a l ih =>
    have hrec := ih (fun b hb => h b (by simp [hb]))
    by_cases hp : p a = true
    · have hq : q a = false := by
        cases hqv : q a with
        | false => rfl
        | true => exact absurd ⟨hp, hqv⟩ (h a (by simp))
      simp [List.countP_cons, hp, hq, hrec]
      omega
    · have hp' : p a = false := by simpa using hp
      cases hq : q a with
      | false => simp [List.countP_cons, hp', hq, hrec]
      | true =>
        simp [List.countP_cons, hp', hq, hrec]
        omega

theorem exclIdx_cons (s0 : PyoSet) (sets' : List PyoSet) (f : PyoSet) :
    exclIdx (s0 :: sets') f =
      if f.sid == s0.sid then some 0 else (exclIdx sets' f).map (· + 1) := by
  simp only [exclIdx, List.findIdx?_cons]
  cases h : (f.sid == s0.sid) with
  | true => simp [h]
  | false => simp [h, List.findIdx?_succ]

theorem exclIdx_isSome_iff (sets : List PyoSet) (f : PyoSet) :
    (exclIdx sets f).isSome = true ↔ ∃ s ∈ sets, f.sid = s.sid := by
  induction sets with
  | nil => simp [exclIdx]
  | cons s0 sets' ih =>
    rw [exclIdx_cons]
    by_cases h : f.sid = s0.sid
    · simp [h]
    · have hb : (f.sid == s0.sid) = false := by simpa using h
      have hm : ((exclIdx sets' f).map (· + 1)).isSome = (exclIdx sets' f).isSome := by
        cases exclIdx sets' f <;> rfl
      simp only [hb, Bool.false_eq_true, if_false, hm]
      rw [ih]
      constructor
      · rintro ⟨s, hs, hss⟩; exact ⟨s, by simp [hs], hss⟩
      · rintro ⟨s, hs, hss⟩
        rcases List.mem_cons.mp hs with rfl | hs
        · exact absurd hss h
        · exact ⟨s, hs, hss⟩

theorem filter_length_one (p : α → Bool) (l : List α)
    (h : (l.filter p).length = 1) :
    ∃ a, l.filter p = [a] ∧ a ∈ l ∧ p a = true := by
  obtain ⟨a, ha⟩ := List.length_eq_one.mp h
  have hmem : a ∈ l.filter p := by simp [ha]
  exact ⟨a, ha, (List.mem_filter.mp hmem).1, (List.mem_filter.mp hmem).2⟩

theorem countP_excl (fs : List PyoSet) (sets : List PyoSet)
    (honce : ∀ s ∈ sets, (fs.filter (fun f => f.sid == s.sid)).length = 1)
    (hdisj : sets.Pairwise (fun a b => a.sid ≠ b.sid)) :
    fs.countP (fun f => (exclIdx sets f).isSome) = sets.length := by
  induction sets with
  | nil => simp [exclIdx]
  | cons s0 sets' ih =>
    rcases List.pairwise_cons.mp hdisj with ⟨hd0, hdisj'⟩
    have hpt : ∀ f : PyoSet, (exclIdx (s0 :: sets') f).isSome =
        ((f.sid == s0.sid) || (exclIdx sets' f).isSome) := by
      intro f
      rw [exclIdx_cons]
      by_cases h : f.sid = s0.sid
      · simp [h]
      · have hb : (f.sid == s0.sid) = false := by simpa using h
        simp [hb]
    rw [List.countP_congr (fun f _ => by rw [hpt f])]
    rw [countP_or_disjoint _ _ _ ?disj]
    case disj =>
      intro f _ ⟨h1, h2⟩
      obtain ⟨s, hs, hss⟩ := (exclIdx_isSome_iff sets' f).mp h2
      have : f.sid = s0.sid := by simpa using h1
      exact hd0 s hs (this ▸ hss.symm ▸ rfl)
    have h0 : fs.countP (fun f => f.sid == s0.sid) = 1 := by
      rw [List.countP_eq_length_filter]
      exact honce s0 (by simp)
    rw [h0, ih (fun s hs => honce s (by simp [hs])) hdisj']
    simp [Nat.add_comm]

theorem sum_map_or_disjoint (p q : α → Bool) (g : α → Nat) (l : List α)
    (h : ∀ a ∈ l, ¬(p a = true ∧ q a = true)) :
    ((l.filter (fun a => p a || q a)).map g).sum =
      ((l.filter p).map g).sum + ((l.filter q).map g).sum := by
  induction l with
  | nil => simp
  | cons a l ih =>
    have hrec := ih (fun b hb => h b (by simp [hb]))
    by_cases hp : p a = true
    · have hq : q a = false := by
        cases hqv : q a with
        | false => rfl
        | true => exact absurd ⟨hp, hqv⟩ (h a (by simp))
      simp [List.filter_cons, hp, hq, hrec]
      omega
    · have hp' : p a = false := by simpa using hp
      cases hq : q a with
      | false => simp [List.filter_cons, hp', hq, hrec]
      | true =>
        simp [List.filter_cons, hp', hq, hrec]
        omega

theorem sum_excl (fs : List PyoSet) (sets : List PyoSet)
    (honce : ∀ s ∈ sets, (fs.filter (fun f => f.sid == s.sid)).length = 1)
    (hdisj : sets.Pairwise (fun a b => a.sid ≠ b.sid))
    (hinj : ∀ s ∈ sets, ∀ f ∈ fs, f.sid = s.sid → f = s) :
    ((fs.filter (fun f => (exclIdx sets f).isSome)).map (·.dimen)).sum =
      (sets.map (·.dimen)).sum := by
  induction sets with
  | nil => simp [exclIdx]
  | cons s0 sets' ih =>
    rcases List.pairwise_cons.mp hdisj with ⟨hd0, hdisj'⟩
    have hpt : ∀ f ∈ fs, ((exclIdx (s0 :: sets') f).isSome : Bool) =
        ((f.sid == s0.sid) || (exclIdx sets' f).isSome) := by
      intro f _
      rw [exclIdx_cons]
      by_cases h : f.sid = s0.sid
      · simp [h]
      · have hb : (f.sid == s0.sid) = false := by simpa using h
        simp [hb]
    rw [List.filter_congr hpt]
    rw [sum_map_or_disjoint _ _ _ _ ?disj2]
    case disj2 =>
      intro f _ ⟨h1, h2⟩
      obtain ⟨s, hs, hss⟩ := (exclIdx_isSome_iff sets' f).mp h2
      have : f.sid = s0.sid := by simpa using h1
      exact hd0 s hs (this ▸ hss.symm ▸ rfl)
    obtain ⟨a, hfa, haf, hap⟩ := filter_length_one _ _ (honce s0 (by simp))
    have has0 : a = s0 := hinj s0 (by simp) a haf (by simpa using hap)
    rw [hfa, has0]
    rw [ih (fun s hs => honce s (by simp [hs])) hdisj'
      (fun s hs f hf => hinj s (by simp [hs]) f hf)]
    simp

theorem sum_partition (p : α → Bool) (g : α → Nat) (l : List α) :
    ((l.filter p).map g).sum + ((l.filter (fun a => !(p a))).map g).sum =
      (l.map g).sum := by
  induction l with
  | nil => simp
  | cons a l ih =>
    cases h : p a with
    | true => simp [List.filter_cons, h, ← ih]; omega
    | false => simp [List.filter_cons, h, ← ih]; omega

theorem flatMap_congr {α β : Type} (l : List α) (f g : α → List β)
    (h : ∀ a ∈ l, f a = g a) : l.flatMap f = l.flatMap g := by
  induction l with
  | nil => rfl
  | cons a l ih =>
    simp only [List.flatMap_cons, h a (by simp),
               ih (fun b hb => h b (by simp [hb]))]

theorem flatMap_count_zero {α β : Type} [DecidableEq α] (l : List α) (v : α)
    (M : List β) (h : l.count v = 0) :
    (l.flatMap fun e => if e = v then M else []) = [] := by
  induction l with
  | nil => rfl
  | cons a l ih =>
    rw [List.count_cons] at h
    have ha : ¬ a = v := by
      intro hav
      simp [hav] at h
    have hl : l.count v = 0 := by
      by_cases hav : (a == v) = true
      · exact absurd (by simpa using hav) ha
      · simpa [hav] using h
    simp [List.flatMap_cons, ha, ih hl]

theorem flatMap_count_one {α β : Type} [DecidableEq α] (l : List α) (v : α)
    (M : List β) (h : l.count v = 1) :
    (l.flatMap fun e => if e = v then M else []) = M := by
  induction l with
  | nil => simp at h
  | cons a l ih =>
    rw [List.count_cons] at h
    by_cases hav : a = v
    · have hl : l.count v = 0 := by simp [hav] at h; omega
      simp [List.flatMap_cons, hav, flatMap_count_zero l v M hl]
    · have hl : l.count v = 1 := by
        have : (a == v) = false := by simpa using hav
        simpa [this] using h
      simp [List.flatMap_cons, hav, ih hl]

theorem interleave_map_eq_filter (sets : List PyoSet) (vals : List PyVal) :
    ∀ fs : List PyoSet,
    (∀ f ∈ fs, f.dimen = 1) →
    (∀ f ∈ fs, ∀ e ∈ f.elems, ∃ a, e = .atom a) →
    (∀ f ∈ fs, ∀ j, exclIdx sets f = some j →
        ∃ a, vals.getD j (.atom none) = .atom a) →
    (∀ f ∈ fs, ∀ j, exclIdx sets f = some j →
        f.elems.count (vals.getD j (.atom none)) = 1) →
    (prodTuples (fs.filter (fun f => (exclIdx sets f).isNone))).map
        (fun t => interleave fs sets vals t)
      = (prodTuples fs).filter (fun t => hasVals fs sets vals t) := by
  intro fs
  induction fs with
  | nil =>
    intro _ _ _ _
    simp [prodTuples, interleave, hasVals]
  | cons f fs' ih =>
    intro h1 hsc hv hcount
    have ih' := ih (fun g hg => h1 g (by simp [hg]))
      (fun g hg => hsc g (by simp [hg]))
      (fun g hg => hv g (by simp [hg]))
      (fun g hg => hcount g (by simp [hg]))
    have hd1 : f.dimen = 1 := h1 f (by simp)
    cases hex : exclIdx sets f with
    | some j =>
      obtain ⟨b, hb⟩ := hv f (by simp) j hex
      have hc1 : f.elems.count (vals.getD j (.atom none)) = 1 :=
        hcount f (by simp) j hex
      -- the excluded head does not contribute to the projection
      have hfneg : ((fun g => (exclIdx sets g).isNone) f) = false := by
        simp [hex]
      rw [List.filter_cons_of_neg (by simp [hex])]
      -- unfold the interleave step on the left
      have hstep : ∀ t, interleave (f :: fs') sets vals t =
          (vals.getD j (.atom none)).flat ++ interleave fs' sets vals t := by
        intro t
        simp only [interleave, hex]
      rw [List.map_congr_left (fun t _ => hstep t)]
      -- unfold the product and the filter on the right
      show _ = ((f.elems.flatMap
          (fun e => (prodTuples fs').map (fun t => e.flat ++ t)))).filter
            (fun t => hasVals (f :: fs') sets vals t)
      rw [List.filter_flatMap]
      have hpt : ∀ e ∈ f.elems,
          ((prodTuples fs').map (fun t => e.flat ++ t)).filter
              (fun t => hasVals (f :: fs') sets vals t) =
            if e = vals.getD j (.atom none) then
              ((prodTuples fs').filter (fun t => hasVals fs' sets vals t)).map
                (fun t => (vals.getD j (.atom none)).flat ++ t)
            else [] := by
        intro e he
        obtain ⟨a, ha⟩ := hsc f (by simp) e he
        rw [List.filter_map]
        have hpred : ∀ t, ((fun t => hasVals (f :: fs') sets vals t) ∘
            (fun t => e.flat ++ t)) t =
              (decide (e = vals.getD j (.atom none)) &&
                hasVals fs' sets vals t) := by
          intro t
          simp only [Function.comp_apply, hasVals, hex, hd1]
          rw [ha, hb]
          simp only [PyVal.flat, List.singleton_append, List.take_succ_cons,
                     List.take_zero, List.drop_succ_cons, List.drop_zero]
          have : ([a] = [b]) ↔ (PyVal.atom a = PyVal.atom b) := by
            constructor
            · intro h; injection h with h1 _; rw [h1]
            · intro h; injection h with h1; rw [h1]
          rw [decide_eq_decide.mpr this]
        rw [List.filter_congr (fun t _ => hpred t)]
        by_cases hev : e = vals.getD j (.atom none)
        · rw [if_pos hev]
          have hdt : (decide (e = vals.getD j (.atom none))) = true := by
            rw [decide_eq_true_eq]; exact hev
          rw [List.filter_congr (fun t _ => by rw [hdt, Bool.true_and])]
          rw [hev]
        · rw [if_neg hev]
          have hdf : (decide (e = vals.getD j (.atom none))) = false := by
            rw [decide_eq_false_iff_not]; exact hev
          rw [List.filter_congr (fun t _ => by rw [hdf, Bool.false_and])]
          rw [show List.filter (fun _ => false) (prodTuples fs') = [] from by simp]
          rfl
      rw [flatMap_congr _ _ _ hpt]
      rw [flatMap_count_one _ _ _ hc1]
      rw [← ih']
      rw [List.map_map]
      rfl
    | none =>
      -- the head factor stays in the projection
      rw [List.filter_cons_of_pos (by simp [hex])]
      show (prodTuples (f :: _)).map _ = _
      rw [show prodTuples (f :: fs'.filter (fun g => (exclIdx sets g).isNone)) =
            f.elems.flatMap (fun e =>
              (prodTuples (fs'.filter (fun g => (exclIdx sets g).isNone))).map
                (fun t => e.flat ++ t)) from rfl]
      rw [List.map_flatMap]
      show _ = ((f.elems.flatMap
          (fun e => (prodTuples fs').map (fun t => e.flat ++ t)))).filter
            (fun t => hasVals (f :: fs') sets vals t)
      rw [List.filter_flatMap]
      refine flatMap_congr _ _ _ ?_
      intro e he
      obtain ⟨a, ha⟩ := hsc f (by simp) e he
      have hstep : ∀ t, interleave (f :: fs') sets vals (e.flat ++ t) =
          e.flat ++ interleave fs' sets vals t := by
        intro t
        simp only [interleave, hex, hd1]
        rw [ha]
        simp only [PyVal.flat]
        rw [List.take_left' (by simp), List.drop_left' (by simp)]
      have hpred : ∀ t, ((fun t => hasVals (f :: fs') sets vals t) ∘
          (fun t => e.flat ++ t)) t = hasVals fs' sets vals t := by
        intro t
        simp only [Function.comp_apply, hasVals, hex, hd1]
        rw [ha]
        simp only [PyVal.flat]
        rw [List.drop_left' (by simp)]
        simp
      rw [List.map_map]
      rw [List.map_congr_left (fun t _ => by
        show ((fun t => interleave (f :: fs') sets vals t) ∘
          (fun t => e.flat ++ t)) t = e.flat ++ interleave fs' sets vals t
        simp only [Function.comp_apply]
        exact hstep t)]
      rw [List.filter_map]
      rw [List.filter_congr (fun t _ => hpred t)]
      rw [← ih']
      rw [List.map_map]
      rfl

theorem expl_true_of_once (comp : Comp) (sets : List PyoSet)
    (istr : IndexStructure) (hstr : comp.indexStructure = some istr)
    (hprod2 : ∀ fs, istr = .prod fs → 2 ≤ fs.length)
    (hdims : ∀ f ∈ istr.factors, 1 ≤ f.dimen)
    (hne : sets ≠ [])
    (hdisj : sets.Pairwise (fun a b => a.sid ≠ b.sid))
    (honce : ∀ s ∈ sets, (istr.factors.filter (fun f => f.sid == s.sid)).length = 1)
    (hinj : ∀ s ∈ sets, ∀ f ∈ istr.factors, f.sid = s.sid → f = s) :
    is_explicitly_indexed_by comp sets = .ok true := by
  have hidx : comp.is_indexed = true := by simp [Comp.is_indexed, hstr]
  rcases histr : istr with s | fs
  · -- SimpleSet: every requested set must be s itself, so sets = [s]
    subst histr
    have hall : ∀ t ∈ sets, t = s := by
      intro t ht
      obtain ⟨a, hfa, haf, hap⟩ := filter_length_one _ _ (honce t ht)
      have : a = t := hinj t ht a haf (by simpa using hap)
      have hamem : a ∈ (IndexStructure.single s).factors := haf
      simp [IndexStructure.factors] at hamem
      rw [← this, hamem]
    match hsets : sets with
    | [] => exact absurd rfl hne
    | [s0] =>
      have hs0 : s0 = s := hall s0 (by simp [hsets])
      subst hs0
      rw [expl_single_full_dim comp s0 hidx
        (by simp [Comp.dim, hstr, IndexStructure.dim])
        (by
          intro istr' h' f hf hsid
          rw [hstr] at h'
          cases Option.some.inj h'
          simp [IndexStructure.factors] at hf
          subst hf; rfl)]
      simp [hstr]
    | s0 :: s1 :: rest =>
      have h0 : s0 = s := hall s0 (by simp [hsets])
      have h1 : s1 = s := hall s1 (by simp [hsets])
      rcases List.pairwise_cons.mp hdisj with ⟨hd0, _⟩
      exact absurd (by rw [h0, h1]) (hd0 s1 (by simp))
  · -- set product
    subst histr
    have hfac : (IndexStructure.prod fs).factors = fs := rfl
    have hexcl : ((fs.filter (fun f => (exclIdx sets f).isSome)).map (·.dimen)).sum
        = (sets.map (·.dimen)).sum := by
      have := sum_excl fs sets (by simpa [hfac] using honce) hdisj
        (fun s hs f hf => hinj s hs f (by simpa [hfac] using hf))
      simpa using this
    have hpart := sum_partition (fun f => (exclIdx sets f).isSome) (·.dimen) fs
    have hcd : comp.dim = (fs.map (·.dimen)).sum := by
      simp [Comp.dim, hstr, IndexStructure.dim]
    have htot : (sets.map (·.dimen)).sum ≤ comp.dim := by
      rw [hcd, ← hpart, hexcl]
      omega
    have hnsing : ∀ s0, sets = [s0] → s0.dimen ≠ comp.dim := by
      intro s0 hs0 hcontra
      -- all of comp's dimension is carried by the single excluded factor,
      -- so no other factor can exist, contradicting 2 ≤ fs.length
      have hcnt : fs.countP (fun f => (exclIdx sets f).isSome) = sets.length :=
        countP_excl fs sets (by simpa [hfac] using honce) hdisj
      have hos : ((fs.filter (fun f => !((exclIdx sets f).isSome))).map (·.dimen)).sum = 0 := by
        have : (sets.map (·.dimen)).sum = comp.dim := by
          rw [hs0]; simpa using hcontra
        omega
      have hoth : fs.filter (fun f => !((exclIdx sets f).isSome)) = [] := by
        by_contra hcon
        match hh : fs.filter (fun f => !((exclIdx sets f).isSome)) with
        | [] => exact hcon hh
        | g :: gs =>
          have hg : g ∈ fs := (List.mem_filter.mp (by rw [hh]; simp)).1
          have : 1 ≤ g.dimen := hdims g (by simpa [hfac] using hg)
          rw [hh] at hos
          simp at hos
          omega
      have hallsome : ∀ f ∈ fs, (exclIdx sets f).isSome = true := by
        intro f hf
        have hnn : ¬ exclIdx sets f = none := by
          simpa using List.filter_eq_nil_iff.mp hoth f hf
        rw [Option.isSome_iff_ne_none]
        exact hnn
      have hcl : fs.countP (fun f => (exclIdx sets f).isSome) = fs.length :=
        List.countP_eq_length.mpr hallsome
      have h2 := hprod2 fs rfl
      rw [hcnt, hs0] at hcl
      simp at hcl
      omega
    have hsetsdim : ∀ s ∈ sets, 1 ≤ s.dimen := by
      intro s hs
      obtain ⟨a, hfa, haf, hap⟩ := filter_length_one _ _ (honce s hs)
      have has : a = s := hinj s hs a haf (by simpa using hap)
      rw [← has]
      exact hdims a haf
    rw [expl_membership comp sets (.prod fs) hstr hne hsetsdim hinj htot hnsing]
    have hall : (sets.all (fun s => (IndexStructure.prod fs).factors.any
        (fun f => f.sid == s.sid))) = true := by
      rw [List.all_eq_true]
      intro s hs
      obtain ⟨a, _, haf, hap⟩ := filter_length_one _ _ (honce s hs)
      rw [List.any_eq_true]
      exact ⟨a, by simpa [hfac] using haf, hap⟩
    rw [hall]

theorem flatMap_sing {α β : Type} (l : List α) (f : α → List β) :
    (l.flatMap fun a => [f a]) = l.map f := by
  induction l with
  | nil => rfl
  | cons a l ih => simp [List.flatMap_cons, ih]

theorem prodTuples_singleton (o : PyoSet) :
    prodTuples [o] = o.elems.map (·.flat) := by
  show (o.elems.flatMap fun e => (prodTuples []).map (fun t => e.flat ++ t)) = _
  simp only [prodTuples, List.map_cons, List.map_nil, List.append_nil]
  exact flatMap_sing o.elems (·.flat)

theorem prodTuples_mem_length (gs : List PyoSet)
    (h1 : ∀ g ∈ gs, g.dimen = 1) (hsc : ∀ g ∈ gs, ∀ e ∈ g.elems, ∃ a, e = .atom a) :
    ∀ t ∈ prodTuples gs, t.length = gs.length := by
  induction gs with
  | nil => intro t ht; simp [prodTuples] at ht; simp [ht]
  | cons g gs' ih =>
    intro t ht
    simp only [prodTuples, List.mem_flatMap, List.mem_map] at ht
    obtain ⟨e, he, t', ht', rfl⟩ := ht
    obtain ⟨a, rfl⟩ := hsc g (by simp) e he
    have := ih (fun g hg => h1 g (by simp [hg]))
      (fun g hg => hsc g (by simp [hg])) t' ht'
    simp [PyVal.flat, this]

theorem count_one_filter {α : Type} [DecidableEq α] (l : List α) (v : α)
    (h : l.count v = 1) : l.filter (fun e => e == v) = [v] := by
  have hlen : (l.filter (fun e => e == v)).length = 1 := by
    rw [← List.countP_eq_length_filter]
    exact h
  obtain ⟨a, hfa, _, hap⟩ := filter_length_one _ _ hlen
  have : a = v := by simpa using hap
  rw [hfa, this]

theorem getD_atom (vals : List PyVal) (j : Nat)
    (hsc : ∀ v ∈ vals, ∃ a, v = .atom a) (hj : j < vals.length) :
    ∃ a, vals.getD j (.atom none) = .atom a := by
  have : vals.getD j (.atom none) = vals[j] := by
    simp [List.getD_eq_getElem?_getD, List.getElem?_eq_getElem hj]
  rw [this]
  exact hsc vals[j] (List.getElem_mem hj)

theorem exclIdx_sid (sets : List PyoSet) (f : PyoSet) (j : Nat)
    (h : exclIdx sets f = some j) :
    ∃ hj : j < sets.length, f.sid = (sets.get ⟨j, hj⟩).sid := by
  obtain ⟨hj, hp, _⟩ := List.findIdx?_eq_some_iff_getElem.mp h
  exact ⟨hj, by simpa using hp⟩

theorem mapM_get_all (loc : List (Nat × Nat)) (vals : List PyVal)
    (h : ∀ p ∈ loc, p.2 < vals.length) :
    loc.mapM (fun p => vals.get? p.2) =
      some (loc.map (fun p => vals.getD p.2 (.atom none))) := by
  induction loc with
  | nil => rfl
  | cons p loc' ih =>
    have hp := h p (by simp)
    have hgd : vals.getD p.2 (.atom none) = vals[p.2] := by
      simp [List.getD_eq_getElem?_getD, List.getElem?_eq_getElem hp]
    have hget : vals.get? p.2 = some (vals.getD p.2 (.atom none)) := by
      rw [hgd, List.get?_eq_getElem?, List.getElem?_eq_getElem hp]
    rw [List.mapM_cons, hget, ih (fun q hq => h q (by simp [hq]))]
    rfl

theorem mapM_atoms (vs : List PyVal)
    (h : ∀ v ∈ vs, ∃ a, v = .atom a) :
    vs.mapM (fun v => match v with | .atom a => some a | .tup _ => none) =
      some (vs.map atomOf) := by
  induction vs with
  | nil => rfl
  | cons v vs' ih =>
    obtain ⟨a, rfl⟩ := h v (by simp)
    rw [List.mapM_cons]
    rw [ih (fun w hw => h w (by simp [hw]))]
    rfl

theorem interleave_nil_all_excl (sets : List PyoSet) (vals : List PyVal) :
    ∀ (fs : List PyoSet) (pos : Nat),
    (∀ f ∈ fs, (exclIdx sets f).isSome = true) →
    (∀ f ∈ fs, ∀ j, exclIdx sets f = some j →
        ∃ a, vals.getD j (.atom none) = .atom a) →
    interleave fs sets vals [] =
      (buildLocAux sets fs pos).1.map
        (fun p => atomOf (vals.getD p.2 (.atom none))) := by
  intro fs
  induction fs with
  | nil => intro pos _ _; rfl
  | cons f fs' ih =>
    intro pos hall hsc
    cases hex : exclIdx sets f with
    | none =>
      have hcontra := hall f (by simp)
      rw [hex] at hcontra
      simp at hcontra
    | some j =>
      obtain ⟨a, ha⟩ := hsc f (by simp) j hex
      have hexf : List.findIdx? (fun s => f.sid == s.sid) sets = some j := hex
      simp only [interleave, hex, buildLocAux, hexf, List.map_cons]
      rw [ha]
      simp only [PyVal.flat, atomOf, List.singleton_append]
      rw [ih (pos + 1) (fun g hg => hall g (by simp [hg]))
        (fun g hg => hsc g (by simp [hg]))]
      rfl

theorem buildLoc_snd_lt (sets fs : List PyoSet) (pos : Nat) :
    ∀ p ∈ (buildLocAux sets fs pos).1, p.2 < sets.length := by
  induction fs generalizing pos with
  | nil => intro p hp; simp [buildLocAux] at hp
  | cons f fs' ih =>
    intro p hp
    simp only [buildLocAux] at hp
    cases h : exclIdx sets f with
    | some j =>
      have hexf : List.findIdx? (fun s => f.sid == s.sid) sets = some j := h
      rw [hexf] at hp
      rcases List.mem_cons.mp hp with rfl | hp
      · exact (List.findIdx?_eq_some_iff_getElem.mp hexf).1
      · exact ih (pos + 1) p hp
    | none =>
      have hexf : List.findIdx? (fun s => f.sid == s.sid) sets = none := h
      rw [hexf] at hp
      exact ih (pos + 1) p hp

theorem elemsList_filter_tup (fs : List PyoSet) (p : List Atom → Bool) :
    ((prodTuples fs).map PyVal.tup).filter (fun ix => p ix.flat) =
      ((prodTuples fs).filter p).map PyVal.tup := by
  rw [List.filter_map]
  rfl

theorem gise_unfold (comp : Comp) (sets : List PyoSet) (fs : List PyoSet)
    (hstr : comp.indexStructure = some (.prod fs))
    (hexpl : is_explicitly_indexed_by comp sets = .ok true)
    (hall : sets.all
      (fun s => (fs.filter (fun f => f.sid == s.sid)).length == 1) = true) :
    get_index_set_except comp sets =
      if comp.dim == (sets.map (·.dimen)).sum then
        .ok ⟨.trivialSE, .reorder (buildLocAux sets fs 0).1⟩
      else
        match (buildLocAux sets fs 0).2 with
        | [o] => .ok ⟨.se (.single o), .completer (buildLocAux sets fs 0).1⟩
        | _ :: _ => .ok ⟨.se (.prod (buildLocAux sets fs 0).2),
                         .completer (buildLocAux sets fs 0).1⟩
        | [] => .error "Did not expect this to happen" := by
  unfold get_index_set_except
  rw [hexpl, hstr]
  simp only [hall]
  rfl

theorem completer_map (sets : List PyoSet) (vals : List PyVal)
    (fs : List PyoSet) (L : List PyVal)
    (hlen : vals.length = sets.length)
    (h1 : ∀ f ∈ fs, f.dimen = 1)
    (hsc : ∀ f ∈ fs, ∀ e ∈ f.elems, ∃ a, e = .atom a)
    (hv : ∀ f ∈ fs, ∀ j, exclIdx sets f = some j →
        ∃ a, vals.getD j (.atom none) = .atom a)
    (hcount : ∀ f ∈ fs, ∀ j, exclIdx sets f = some j →
        f.elems.count (vals.getD j (.atom none)) = 1)
    (hloclen : (buildLocAux sets fs 0).1.length = vals.length)
    (hLflat : L.map PyVal.flat =
      prodTuples (fs.filter (fun f => (exclIdx sets f).isNone))) :
    L.map (fun e => applyGetter (.completer (buildLocAux sets fs 0).1) e vals) =
      (((prodTuples fs).map PyVal.tup).filter
        (fun ix => hasVals fs sets vals ix.flat)).map .ok := by
  have hothers1 : ∀ g ∈ fs.filter (fun f => (exclIdx sets f).isNone), g.dimen = 1 :=
    fun g hg => h1 g (List.mem_filter.mp hg).1
  have hotherssc : ∀ g ∈ fs.filter (fun f => (exclIdx sets f).isNone),
      ∀ e ∈ g.elems, ∃ a, e = .atom a :=
    fun g hg => hsc g (List.mem_filter.mp hg).1
  have hstep : ∀ e ∈ L,
      applyGetter (.completer (buildLocAux sets fs 0).1) e vals =
        .ok (.tup (interleave fs sets vals e.flat)) := by
    intro e he
    have hproj : e.flat.length =
        (fs.filter (fun f => (exclIdx sets f).isNone)).length := by
      have hmem : e.flat ∈ prodTuples (fs.filter (fun f => (exclIdx sets f).isNone)) := by
        rw [← hLflat]
        exact List.mem_map_of_mem _ he
      exact prodTuples_mem_length _ hothers1 hotherssc e.flat hmem
    exact complete_index_eq_interleave sets vals fs e hlen h1 hv hproj hloclen
  rw [List.map_congr_left hstep]
  have hm : L.map (fun e =>
        (Except.ok (PyVal.tup (interleave fs sets vals e.flat)) : Except String PyVal)) =
      (L.map PyVal.flat).map (fun t =>
        (Except.ok (PyVal.tup (interleave fs sets vals t)) : Except String PyVal)) := by
    rw [List.map_map]
    rfl
  rw [hm, hLflat]
  rw [elemsList_filter_tup]
  rw [← interleave_map_eq_filter sets vals fs h1 hsc hv hcount]
  rw [List.map_map, List.map_map]
  rfl

theorem gise_prod (comp : Comp) (sets : List PyoSet) (vals : List PyVal)
    (fs : List PyoSet)
    (hstr : comp.indexStructure = some (.prod fs))
    (hprod2 : 2 ≤ fs.length)
    (hne : sets ≠ [])
    (hdisj : sets.Pairwise (fun a b => a.sid ≠ b.sid))
    (honce : ∀ s ∈ sets, (fs.filter (fun f => f.sid == s.sid)).length = 1)
    (hinj : ∀ s ∈ sets, ∀ f ∈ fs, f.sid = s.sid → f = s)
    (h1 : ∀ f ∈ fs, f.dimen = 1)
    (hsc : ∀ f ∈ fs, ∀ e ∈ f.elems, ∃ a, e = .atom a)
    (hvlen : vals.length = sets.length)
    (hvalsc : ∀ v ∈ vals, ∃ a, v = .atom a)
    (hvcount : ∀ j, (hj : j < sets.length) →
        ((sets.get ⟨j, hj⟩).elems.count (vals.getD j (.atom none))) = 1) :
    ∃ info, get_index_set_except comp sets = .ok info ∧
      info.set_except.sdim = comp.dim - (sets.map (·.dimen)).sum ∧
      info.set_except.elemsList.map (fun e => applyGetter info.getter e vals) =
        (((prodTuples fs).map PyVal.tup).filter
          (fun ix => hasVals fs sets vals ix.flat)).map .ok := by
  have hexpl := expl_true_of_once comp sets (.prod fs) hstr
      (by intro gs h; cases h; exact hprod2)
      (by intro f hf; rw [h1 f hf])
      hne hdisj honce hinj
  have hall : sets.all
      (fun s => (fs.filter (fun f => f.sid == s.sid)).length == 1) = true := by
    rw [List.all_eq_true]
    intro s hs
    simpa using honce s hs
  have hu := gise_unfold comp sets fs hstr hexpl hall
  have hcd : comp.dim = (fs.map (·.dimen)).sum := by
    simp [Comp.dim, hstr, IndexStructure.dim]
  have hsumex : ((fs.filter (fun f => (exclIdx sets f).isSome)).map (·.dimen)).sum
      = (sets.map (·.dimen)).sum := sum_excl fs sets honce hdisj hinj
  have hpart := sum_partition (fun f => (exclIdx sets f).isSome) (·.dimen) fs
  have hfneq : fs.filter (fun f => !((exclIdx sets f).isSome)) =
      fs.filter (fun f => (exclIdx sets f).isNone) := by
    apply List.filter_congr
    intro f _
    cases exclIdx sets f <;> rfl
  rw [hfneq, hsumex] at hpart
  -- hpart : sets_sum + others_sum = fs_sum
  have hothers := buildLocAux_others sets fs 0
  have hv : ∀ f ∈ fs, ∀ j, exclIdx sets f = some j →
      ∃ a, vals.getD j (.atom none) = .atom a := by
    intro f _ j hex
    obtain ⟨hj, _⟩ := exclIdx_sid sets f j hex
    exact getD_atom vals j hvalsc (by rw [hvlen]; exact hj)
  have hcount : ∀ f ∈ fs, ∀ j, exclIdx sets f = some j →
      f.elems.count (vals.getD j (.atom none)) = 1 := by
    intro f hf j hex
    obtain ⟨hj, hsid⟩ := exclIdx_sid sets f j hex
    have hfeq : f = sets.get ⟨j, hj⟩ :=
      hinj (sets.get ⟨j, hj⟩) (List.get_mem sets j hj) f hf hsid
    rw [hfeq]
    exact hvcount j hj
  have hloclen : (buildLocAux sets fs 0).1.length = vals.length := by
    rw [buildLocAux_length, countP_excl fs sets honce hdisj, hvlen]
  by_cases htriv : comp.dim = (sets.map (·.dimen)).sum
  · -- trivial case: set_except is [None], getter is the reordering lambda
    have hbeq : (comp.dim == (sets.map (·.dimen)).sum) = true := by
      simpa using htriv
    refine ⟨⟨.trivialSE, .reorder (buildLocAux sets fs 0).1⟩, ?_, ?_, ?_⟩
    · rw [hu, if_pos hbeq]
    · simp [SetExcept.sdim, htriv]
    · -- all factors are excluded, the filter keeps exactly one tuple
      have hos0 : ((fs.filter (fun f => (exclIdx sets f).isNone)).map (·.dimen)).sum = 0 := by
        omega
      have hothers0 : fs.filter (fun f => (exclIdx sets f).isNone) = [] := by
        match hh : fs.filter (fun f => (exclIdx sets f).isNone) with
        | [] => rfl
        | g :: gs =>
          have hg : g ∈ fs := (List.mem_filter.mp (by rw [hh]; simp)).1
          have hgd := h1 g hg
          rw [hh] at hos0
          simp at hos0
          omega
      have hallsome : ∀ f ∈ fs, (exclIdx sets f).isSome = true := by
        intro f hf
        have hnn := List.filter_eq_nil_iff.mp hothers0 f hf
        rw [Option.isSome_iff_ne_none]
        intro hno
        exact hnn (by simp [hno])
      have hk2 : 2 ≤ vals.length := by
        rw [hvlen]
        match hss : sets with
        | [] => exact absurd hss hne
        | [s0] =>
          exfalso
          obtain ⟨a, _, haf, hap⟩ := filter_length_one _ _ (honce s0 (by rw [hss]; simp))
          have has : a = s0 := hinj s0 (by rw [hss]; simp) a haf (by simpa using hap)
          have hs0d : s0.dimen = 1 := has ▸ h1 a haf
          have hfs2 : 2 ≤ (fs.map (·.dimen)).sum := by
            match hfs : fs with
            | [] => rw [hfs] at hprod2; simp at hprod2
            | [f1] => rw [hfs] at hprod2; simp at hprod2
            | f1 :: f2 :: rest =>
              have hd1 : f1.dimen = 1 := h1 f1 (by rw [hfs]; simp)
              have hd2 : f2.dimen = 1 := h1 f2 (by rw [hfs]; simp)
              simp [hd1, hd2]
              omega
          rw [hss] at htriv
          simp [hs0d] at htriv
          omega
        | s0 :: s1 :: rest => simp
      -- evaluate the reordering getter
      have hlt : ∀ p ∈ (buildLocAux sets fs 0).1, p.2 < vals.length :=
        fun p hp => hvlen ▸ buildLoc_snd_lt sets fs 0 p hp
      have hm1 := mapM_get_all (buildLocAux sets fs 0).1 vals hlt
      have hpicked : ∀ v ∈ (buildLocAux sets fs 0).1.map
          (fun p => vals.getD p.2 (.atom none)), ∃ a, v = .atom a := by
        intro v hv'
        rw [List.mem_map] at hv'
        obtain ⟨p, hp, rfl⟩ := hv'
        exact getD_atom vals p.2 hvalsc (hlt p hp)
      have hm2 := mapM_atoms _ hpicked
      have hgval : applyGetter (.reorder (buildLocAux sets fs 0).1) (.atom none) vals =
          .ok (.tup ((buildLocAux sets fs 0).1.map
            (fun p => atomOf (vals.getD p.2 (.atom none))))) := by
        simp only [applyGetter]
        rw [if_neg (by omega), hm1]
        simp only []
        rw [hm2]
        simp only []
        rw [List.map_map]
        rfl
      have hint := interleave_nil_all_excl sets vals fs 0 hallsome hv
      have hB := interleave_map_eq_filter sets vals fs h1 hsc hv hcount
      rw [hothers0] at hB
      -- hB : [interleave fs sets vals []] = filter hasVals (prodTuples fs)
      simp only [prodTuples, List.map_cons, List.map_nil] at hB
      show [applyGetter (.reorder (buildLocAux sets fs 0).1) (.atom none) vals] = _
      rw [hgval, elemsList_filter_tup, ← hB, ← hint]
      rfl
  · -- non-trivial case: a genuine projection and the completer
    have hbne : (comp.dim == (sets.map (·.dimen)).sum) = false := by
      simpa using htriv
    have hospos : 1 ≤ ((fs.filter (fun f => (exclIdx sets f).isNone)).map (·.dimen)).sum := by
      omega
    have hone : fs.filter (fun f => (exclIdx sets f).isNone) ≠ [] := by
      intro h
      rw [h] at hospos
      simp at hospos
    have hsdim : ((fs.filter (fun f => (exclIdx sets f).isNone)).map (·.dimen)).sum =
        comp.dim - (sets.map (·.dimen)).sum := by
      omega
    rw [hu, if_neg (by simp [hbne])]
    rw [hothers]
    match hoth : fs.filter (fun f => (exclIdx sets f).isNone) with
    | [] => exact absurd hoth hone
    | [o] =>
      refine ⟨_, rfl, ?_, ?_⟩
      · show o.dimen = _
        rw [← hsdim, hoth]
        simp
      · show o.elems.map _ = _
        apply completer_map sets vals fs o.elems hvlen h1 hsc hv hcount hloclen
        rw [hoth, prodTuples_singleton]
    | o1 :: o2 :: orest =>
      refine ⟨_, rfl, ?_, ?_⟩
      · show ((o1 :: o2 :: orest).map (·.dimen)).sum = _
        rw [← hsdim, hoth]
      · show ((prodTuples (o1 :: o2 :: orest)).map PyVal.tup).map _ = _
        apply completer_map sets vals fs _ hvlen h1 hsc hv hcount hloclen
        rw [List.map_map, hoth]
        have : ∀ t ∈ prodTuples (o1 :: o2 :: orest),
            (PyVal.flat ∘ PyVal.tup) t = t := fun t _ => rfl
        rw [List.map_congr_left this]
        simp

theorem gise_unfold_single (comp : Comp) (sets : List PyoSet) (s : PyoSet)
    (hstr : comp.indexStructure = some (.single s))
    (hexpl : is_explicitly_indexed_by comp sets = .ok true) :
    get_index_set_except comp sets =
      if comp.dim == (sets.map (·.dimen)).sum then
        .ok ⟨.trivialSE, .reorder [(0, 0)]⟩
      else .error "Did not expect this to happen" := by
  unfold get_index_set_except
  rw [hexpl, hstr]
  rfl

theorem gise_single (comp : Comp) (sets : List PyoSet) (vals : List PyVal)
    (s : PyoSet)
    (hstr : comp.indexStructure = some (.single s))
    (hne : sets ≠ [])
    (hdisj : sets.Pairwise (fun a b => a.sid ≠ b.sid))
    (honce : ∀ t ∈ sets, (([s] : List PyoSet).filter
        (fun f => f.sid == t.sid)).length = 1)
    (hinj : ∀ t ∈ sets, ∀ f ∈ ([s] : List PyoSet), f.sid = t.sid → f = t)
    (h1 : ∀ f ∈ ([s] : List PyoSet), f.dimen = 1)
    (hsc : ∀ f ∈ ([s] : List PyoSet), ∀ e ∈ f.elems, ∃ a, e = .atom a)
    (hvlen : vals.length = sets.length)
    (hvalsc : ∀ v ∈ vals, ∃ a, v = .atom a)
    (hvcount : ∀ j, (hj : j < sets.length) →
        ((sets.get ⟨j, hj⟩).elems.count (vals.getD j (.atom none))) = 1) :
    ∃ info, get_index_set_except comp sets = .ok info ∧
      info.set_except.sdim = comp.dim - (sets.map (·.dimen)).sum ∧
      info.set_except.elemsList.map (fun e => applyGetter info.getter e vals) =
        (s.elems.filter (fun ix => hasVals [s] sets vals ix.flat)).map .ok := by
  -- every requested set is s itself, and they are pairwise distinct: sets = [s]
  have hall : ∀ t ∈ sets, t = s := by
    intro t ht
    obtain ⟨a, _, haf, hap⟩ := filter_length_one _ _ (honce t ht)
    have ha : a = t := hinj t ht a haf (by simpa using hap)
    simp at haf
    rw [← ha, haf]
  have hsets : sets = [s] := by
    match hss : sets with
    | [] => exact absurd rfl hne
    | [t] => rw [hall t (by simp)]
    | t0 :: t1 :: rest =>
      exfalso
      have h0 : t0 = s := hall t0 (by simp)
      have h1' : t1 = s := hall t1 (by simp)
      rcases List.pairwise_cons.mp hdisj with ⟨hd0, _⟩
      exact hd0 t1 (by simp) (by rw [h0, h1'])
  subst hsets
  have hs1 : s.dimen = 1 := h1 s (by simp)
  have hcd : comp.dim = s.dimen := by
    simp [Comp.dim, hstr, IndexStructure.dim]
  have hexpl := expl_true_of_once comp [s] (.single s) hstr
      (by intro gs h; cases h)
      (by intro f hf; rw [h1 f hf])
      (by simp) (by simp) honce hinj
  have htriv : (comp.dim == (([s] : List PyoSet).map (·.dimen)).sum) = true := by
    simp [hcd]
  refine ⟨⟨.trivialSE, .reorder [(0, 0)]⟩, ?_, ?_, ?_⟩
  · rw [gise_unfold_single comp [s] s hstr hexpl, if_pos htriv]
  · simp [SetExcept.sdim, hcd, hs1]
  · have hv1 : vals.length = 1 := by rw [hvlen]; rfl
    obtain ⟨v, hvv⟩ := List.length_eq_one.mp hv1
    subst hvv
    obtain ⟨b, hb⟩ := hvalsc v (by simp)
    have hLHS : applyGetter (.reorder [(0, 0)]) (.atom none) [v] = .ok v := by
      simp only [applyGetter]
      rw [if_pos (by simp)]
    have hcnt : s.elems.count v = 1 := by
      have := hvcount 0 (by simp)
      simpa using this
    have hpred : ∀ e ∈ s.elems,
        (hasVals [s] [s] [v] e.flat) = (e == v) := by
      intro e he
      obtain ⟨a, ha⟩ := hsc s (by simp) e he
      subst ha
      subst hb
      have hfi : exclIdx [s] s = some 0 := by
        simp [exclIdx]
      rw [Bool.eq_iff_iff]
      simp [hasVals, hfi, hs1, PyVal.flat]
    have hfilter : s.elems.filter (fun ix => hasVals [s] [s] [v] ix.flat) = [v] := by
      rw [List.filter_congr hpred]
      exact count_one_filter s.elems v hcnt
    show [applyGetter (.reorder [(0, 0)]) (.atom none) [v]] = _
    rw [hLHS]
    show _ = (s.elems.filter (fun ix => hasVals [s] [s] [v] ix.flat)).map Except.ok
    rw [hfilter]
    rfl

/-- C2, amended: for an entity explicitly indexed by pairwise-distinct
sets, each occurring exactly once among its product factors, and with
every factor of the index product one-dimensional, `get_index_set_except`
returns a projection whose dimension is the entity's dimension minus the
total dimension of the omitted sets, and — holding one member value per
omitted set fixed — applying the returned `index_getter` to every element
of `set_except` produces exactly the elements of the entity's full index
product that carry those values (no duplicates, no omissions; the lists
even coincide, in enumeration order).  The unamended claim fails when a
multi-dimensional factor precedes an omitted set, since `_complete_index`
inserts values at the factor position instead of the coordinate offset. -/
theorem get_index_set_except_bijection
    (comp : Comp) (sets : List PyoSet) (vals : List PyVal)
    (istr : IndexStructure)
    (hstr : comp.indexStructure = some istr)
    (hprod2 : ∀ fs, istr = .prod fs → 2 ≤ fs.length)
    (hne : sets ≠ [])
    (hdisj : sets.Pairwise (fun a b => a.sid ≠ b.sid))
    (honce : ∀ s ∈ sets, (istr.factors.filter (fun f => f.sid == s.sid)).length = 1)
    (hinj : ∀ s ∈ sets, ∀ f ∈ istr.factors, f.sid = s.sid → f = s)
    (h1 : ∀ f ∈ istr.factors, f.dimen = 1)
    (hsc : ∀ f ∈ istr.factors, ∀ e ∈ f.elems, ∃ a, e = .atom a)
    (hvlen : vals.length = sets.length)
    (hvalsc : ∀ v ∈ vals, ∃ a, v = .atom a)
    (hvcount : ∀ j, (hj : j < sets.length) →
        ((sets.get ⟨j, hj⟩).elems.count (vals.getD j (.atom none))) = 1) :
    ∃ info, get_index_set_except comp sets = .ok info ∧
      info.set_except.sdim = comp.dim - (sets.map (·.dimen)).sum ∧
      info.set_except.elemsList.map (fun e => applyGetter info.getter e vals) =
        (istr.elemsList.filter
          (fun ix => hasVals istr.factors sets vals ix.flat)).map .ok := by
  rcases istr with s | fs
  · exact gise_single comp sets vals s hstr hne hdisj honce hinj h1 hsc
      hvlen hvalsc hvcount
  · exact gise_prod comp sets vals fs hstr (hprod2 fs rfl) hne hdisj honce hinj
      h1 hsc hvlen hvalsc hvcount

/-- Witness for the amended C2 theorem at a concrete component indexed
by A × T, omitting T with value 0. -/
theorem get_index_set_except_bijection_witness :
    ∃ info, get_index_set_except ⟨"v", some (.prod [setA, setT])⟩ [setT] = .ok info ∧
      info.set_except.sdim =
        Comp.dim ⟨"v", some (.prod [setA, setT])⟩ -
          (([setT] : List PyoSet).map (·.dimen)).sum ∧
      info.set_except.elemsList.map
        (fun e => applyGetter info.getter e [.atom (some 0)]) =
      ((IndexStructure.prod [setA, setT]).elemsList.filter
        (fun ix => hasVals (IndexStructure.prod [setA, setT]).factors [setT]
          [.atom (some 0)] ix.flat)).map .ok :=
  get_index_set_except_bijection ⟨"v", some (.prod [setA, setT])⟩ [setT]
    [.atom (some 0)] (.prod [setA, setT]) rfl
    (fun fs h => by cases h; decide)
    (by decide) (by decide) (by decide) (by decide) (by decide)
    (by
      intro f hf e hee
      simp [IndexStructure.factors] at hf
      rcases hf with rfl | rfl
      · simp [setA] at hee
        rcases hee with rfl | rfl <;> exact ⟨_, rfl⟩
      · simp [setT] at hee
        rcases hee with rfl | rfl | rfl <;> exact ⟨_, rfl⟩)
    (by decide)
    (by
      intro v hv
      simp at hv
      subst hv
      exact ⟨_, rfl⟩)
    (fun j hj => by
      have hj0 : j = 0 := by
        simp at hj
        omega
      subst hj0
      show ((setT).elems.count ([PyVal.atom (some 0)].getD 0 (.atom none))) = 1
      decide)

/-- A two-dimensional set with a single element (1, 2). -/
def setA2 : PyoSet := ⟨7, 2, "A2", [.tup [some 1, some 2]]⟩

/-- A one-dimensional set with the single element 0. -/
def setT1 : PyoSet := ⟨8, 1, "T1", [.atom (some 0)]⟩

/-- C2 counterexample: for a component indexed by the two-dimensional A2
times the one-dimensional T1, omitting T1 with value 0, the completer
returns the index (1, 0, 2) — obtained by inserting the value at factor
position 1 instead of coordinate offset 2 — while the full index product
contains only (1, 2, 0).  The claimed bijection onto the full product
therefore fails (the single produced index is not even a member). -/
theorem get_index_set_except_multidim_counterexample :
    get_index_set_except ⟨"w", some (.prod [setA2, setT1])⟩ [setT1] =
      .ok ⟨.se (.single setA2), .completer [(1, 0)]⟩ ∧
    applyGetter (.completer [(1, 0)]) (.tup [some 1, some 2]) [.atom (some 0)] =
      .ok (.tup [some 1, some 0, some 2]) ∧
    (IndexStructure.prod [setA2, setT1]).elemsList =
      [.tup [some 1, some 2, some 0]] := by
  decide

theorem sum_ones (l : List PyoSet) (h : ∀ f ∈ l, f.dimen = 1) :
    (l.map (·.dimen)).sum = l.length := by
  induction l with
  | nil => rfl
  | cons f l ih =>
    simp only [List.map_cons, List.sum_cons, List.length_cons,
               h f (by simp), ih (fun g hg => h g (by simp [hg]))]
    omega

theorem get_location_once (setprod : IndexStructure) (S : PyoSet)
    (pre post : List PyoSet) (h1 : S.dimen = 1)
    (hfac : setprod.factors = pre ++ S :: post)
    (hpre : noOcc S.sid pre) (hpost : noOcc S.sid post) :
    get_location_of_coordinate_set setprod S =
      .ok (some ((pre.map (·.dimen)).sum)) := by
  unfold get_location_of_coordinate_set
  rw [if_neg (by simp [h1])]
  rw [hfac, locScan_skip S pre _ false none 0 hpre]
  have hfb : (S.sid == S.sid) = true := by simp
  simp only [locScan, hfb, if_true, Bool.true_eq_false]
  simpa using locScan_noOcc S post true _ _ hpost

theorem interleave_get_pre (sets : List PyoSet) (vals : List PyVal) :
    ∀ (pre : List PyoSet) (S : PyoSet) (post : List PyoSet)
      (proj : List Atom) (j : Nat) (b : Atom),
    (∀ f ∈ pre, f.dimen = 1) →
    (∀ f ∈ pre, ∀ jj, exclIdx sets f = some jj →
        ∃ a, vals.getD jj (.atom none) = .atom a) →
    proj.length = ((pre ++ S :: post).filter
        (fun f => (exclIdx sets f).isNone)).length →
    exclIdx sets S = some j →
    vals.getD j (.atom none) = .atom b →
    (interleave (pre ++ S :: post) sets vals proj).get? pre.length = some b := by
  intro pre
  induction pre with
  | nil =>
    intro S post proj j b _ _ _ hSx hb
    simp only [List.nil_append, interleave, hSx]
    rw [hb]
    simp [PyVal.flat]
  | cons f pre' ih =>
    intro S post proj j b h1p hvp hproj hSx hb
    cases hex : exclIdx sets f with
    | some jf =>
      obtain ⟨a, ha⟩ := hvp f (by simp) jf hex
      simp only [List.cons_append, interleave, hex]
      rw [ha]
      simp only [PyVal.flat, List.singleton_append, List.length_cons,
                 List.get?_cons_succ]
      apply ih S post proj j b
        (fun g hg => h1p g (by simp [hg]))
        (fun g hg => hvp g (by simp [hg]))
        (by
          have hno : ((exclIdx sets f).isNone) = false := by simp [hex]
          simpa [List.filter_cons, hno] using hproj)
        hSx hb
    | none =>
      have hd1 : f.dimen = 1 := h1p f (by simp)
      have hisn : ((exclIdx sets f).isNone) = true := by simp [hex]
      have hplen : 1 ≤ proj.length := by
        rw [hproj]
        simp [List.filter_cons, hisn]
      match hpp : proj with
      | [] => simp at hplen
      | c :: proj' =>
        simp only [List.cons_append, interleave, hex, hd1, List.take_succ_cons,
                   List.take_zero, List.drop_succ_cons, List.drop_zero,
                   List.singleton_append, List.length_cons, List.get?_cons_succ]
        apply ih S post proj' j b
          (fun g hg => h1p g (by simp [hg]))
          (fun g hg => hvp g (by simp [hg]))
          (by
            have hpr := hproj
            have hfc : List.filter (fun g => (exclIdx sets g).isNone)
                  (f :: (pre' ++ S :: post)) =
                f :: List.filter (fun g => (exclIdx sets g).isNone)
                  (pre' ++ S :: post) := by
              rw [List.filter_cons]
              simp [hisn]
            rw [List.cons_append, hfc] at hpr
            simp only [List.length_cons] at hpr
            omega)
          hSx hb

/-- C5, amended: provided every factor of the product is one-dimensional,
the completer places each supplied value at the offset its set occupies
in the full product, interleaved with the projection coordinates at
their original offsets (the `interleave` equation below), and
`get_location_of_coordinate_set` applied to the completed index recovers
exactly the value supplied for S at the computed offset.  Without the
1-dimensionality restriction the claim fails: `_complete_index` inserts
values at factor positions, not coordinate offsets. -/
theorem complete_index_location_recovers
    (sets : List PyoSet) (vals : List PyVal)
    (fs pre post : List PyoSet) (S : PyoSet)
    (j : Nat) (b : Atom) (projV : PyVal)
    (hfs : fs = pre ++ S :: post)
    (hpre : noOcc S.sid pre) (hpost : noOcc S.sid post)
    (hS1 : S.dimen = 1)
    (h1 : ∀ f ∈ fs, f.dimen = 1)
    (hv : ∀ f ∈ fs, ∀ jj, exclIdx sets f = some jj →
        ∃ a, vals.getD jj (.atom none) = .atom a)
    (hvlen : vals.length = sets.length)
    (hloclen : (buildLocAux sets fs 0).1.length = vals.length)
    (hproj : projV.flat.length =
        (fs.filter (fun f => (exclIdx sets f).isNone)).length)
    (hSx : exclIdx sets S = some j)
    (hb : vals.getD j (.atom none) = .atom b) :
    _complete_index (buildLocAux sets fs 0).1 projV vals =
        .ok (.tup (interleave fs sets vals projV.flat)) ∧
    get_location_of_coordinate_set (.prod fs) S =
        .ok (some ((pre.map (·.dimen)).sum)) ∧
    (interleave fs sets vals projV.flat).get? ((pre.map (·.dimen)).sum) =
        some b := by
  refine ⟨complete_index_eq_interleave sets vals fs projV hvlen h1 hv hproj hloclen,
          get_location_once (.prod fs) S pre post hS1 (by simpa using hfs) hpre hpost,
          ?_⟩
  have hpre1 : ∀ f ∈ pre, f.dimen = 1 := by
    intro g hg
    exact h1 g (by rw [hfs]; simp [hg])
  rw [sum_ones pre hpre1, hfs]
  exact interleave_get_pre sets vals pre S post projV.flat j b hpre1
    (fun g hg jj hex => hv g (by rw [hfs]; simp [hg]) jj hex)
    (by rw [← hfs]; exact hproj)
    hSx hb

/-- Witness for the amended C5 theorem: component indexed by A × T,
omitting T with value 0, projection element 10. -/
theorem complete_index_location_recovers_witness :
    _complete_index (buildLocAux [setT] [setA, setT] 0).1 (.atom (some 10))
        [.atom (some 0)] =
      .ok (.tup (interleave [setA, setT] [setT] [.atom (some 0)]
        (PyVal.atom (some 10)).flat)) ∧
    get_location_of_coordinate_set (.prod [setA, setT]) setT =
      .ok (some ((([setA] : List PyoSet).map (·.dimen)).sum)) ∧
    (interleave [setA, setT] [setT] [.atom (some 0)]
        (PyVal.atom (some 10)).flat).get?
      ((([setA] : List PyoSet).map (·.dimen)).sum) = some (some 0) :=
  complete_index_location_recovers [setT] [.atom (some 0)] [setA, setT]
    [setA] [] setT 0 (some 0) (.atom (some 10)) rfl (by decide) (by decide)
    (by decide) (by decide)
    (by
      intro f hf jj hex
      have h2 : f = setA ∨ f = setT := by simpa using hf
      rcases h2 with rfl | rfl
      · have hnone : exclIdx [setT] setA = none := by decide
        rw [hnone] at hex
        cases hex
      · have h0 : exclIdx [setT] setT = some 0 := by decide
        rw [h0] at hex
        cases hex
        exact ⟨some 0, rfl⟩)
    rfl (by decide) (by decide) (by decide) rfl

/-- C5 counterexample: in the product A2 × T1 with A2 two-dimensional,
the location computed for T1 is offset 2, but the index completed with
value 0 for T1 is (1, 0, 2) — extracting at offset 2 recovers 2, not the
supplied 0. -/
theorem complete_index_location_counterexample :
    get_location_of_coordinate_set (.prod [setA2, setT1]) setT1 = .ok (some 2) ∧
    _complete_index [(1, 0)] (.tup [some 1, some 2]) [.atom (some 0)] =
      .ok (.tup [some 1, some 0, some 2]) ∧
    ([some 1, some 0, some 2] : List Atom).get? 2 = some (some 2) ∧
    ¬ (([some 1, some 0, some 2] : List Atom).get? 2 = some (some 0)) := by
  decide

theorem implicitScan_all_false (wrt : PyoSet) (l : List CompData)
    (val : Option Atom) (found : Bool)
    (h : ∀ a ∈ l, is_explicitly_indexed_by a.parentComp [wrt] = .ok false) :
    implicitScan wrt l val found = .ok val := by
  induction l with
  | nil => rfl
  | cons a rest ih =>
    simp only [implicitScan]
    rw [h a (by simp)]
    show implicitScan wrt rest val found = .ok val
    exact ih (fun b hb => h b (by simp [hb]))

theorem implicitScan_found_err (wrt : PyoSet) (l : List CompData)
    (val : Option Atom)
    (hwf : ∀ a ∈ l, ∃ bb, is_explicitly_indexed_by a.parentComp [wrt] = .ok bb)
    (hex : ∃ a ∈ l, is_explicitly_indexed_by a.parentComp [wrt] = .ok true) :
    ∃ m, implicitScan wrt l val true = .error m := by
  induction l generalizing val with
  | nil => simp at hex
  | cons a rest ih =>
    obtain ⟨bb, hbb⟩ := hwf a (by simp)
    cases bb with
    | true =>
      refine ⟨"Cannot get the index of set " ++ wrt.sname ++
              " because it appears multiple times in the hierarchy", ?_⟩
      simp only [implicitScan]
      rw [hbb]
      rfl
    | false =>
      simp only [implicitScan]
      rw [hbb]
      show ∃ m, implicitScan wrt rest val true = Except.error m
      apply ih val (fun b hb => hwf b (by simp [hb]))
      rcases hex with ⟨a', ha', hta'⟩
      rcases List.mem_cons.mp ha' with rfl | ha'
      · rw [hbb] at hta'
        cases hta'
      · exact ⟨a', ha', hta'⟩

theorem implicitScan_one_true (wrt : PyoSet) (l1 : List CompData)
    (a : CompData) (l2 : List CompData) (val : Option Atom) (w : Atom)
    (h1 : ∀ x ∈ l1, is_explicitly_indexed_by x.parentComp [wrt] = .ok false)
    (h2 : ∀ x ∈ l2, is_explicitly_indexed_by x.parentComp [wrt] = .ok false)
    (ha : is_explicitly_indexed_by a.parentComp [wrt] = .ok true)
    (hget : get_index_of_set a wrt = .ok w) :
    implicitScan wrt (l1 ++ a :: l2) val false = .ok (some w) := by
  induction l1 generalizing val with
  | nil =>
    simp only [List.nil_append, implicitScan]
    rw [ha]
    show (do
      let v ← get_index_of_set a wrt
      implicitScan wrt l2 (some v) true) = Except.ok (some w)
    rw [hget]
    show implicitScan wrt l2 (some w) true = Except.ok (some w)
    exact implicitScan_all_false wrt l2 (some w) true h2
  | cons x l1' ih =>
    simp only [List.cons_append, implicitScan]
    rw [h1 x (by simp)]
    show implicitScan wrt (l1' ++ a :: l2) val false = Except.ok (some w)
    exact ih val (fun y hy => h1 y (by simp [hy]))

theorem implicitScan_second_true (wrt : PyoSet) (l1 : List CompData)
    (a : CompData) (l2 : List CompData)
    (h1 : ∀ x ∈ l1, is_explicitly_indexed_by x.parentComp [wrt] = .ok false)
    (ha : is_explicitly_indexed_by a.parentComp [wrt] = .ok true)
    (hwf2 : ∀ x ∈ l2,
      ∃ bb, is_explicitly_indexed_by x.parentComp [wrt] = .ok bb)
    (hex : ∃ x ∈ l2, is_explicitly_indexed_by x.parentComp [wrt] = .ok true) :
    ∀ val, ∃ m, implicitScan wrt (l1 ++ a :: l2) val false = .error m := by
  induction l1 with
  | nil =>
    intro val
    simp only [List.nil_append, implicitScan]
    rw [ha]
    cases hg : get_index_of_set a wrt with
    | error m => exact ⟨m, rfl⟩
    | ok v =>
      obtain ⟨m, hm⟩ := implicitScan_found_err wrt l2 (some v) hwf2 hex
      exact ⟨m, hm⟩
  | cons x l1' ih =>
    intro val
    simp only [List.cons_append, implicitScan]
    rw [h1 x (by simp)]
    show ∃ m, implicitScan wrt (l1' ++ a :: l2) val false = Except.error m
    exact ih (fun y hy => h1 y (by simp [hy])) val

/-- C8, amended: `get_implicit_index_of_set` consults the ancestors even
when the owning entity is explicitly indexed by the set.  It returns the
record's own coordinate only when no ancestor also carries the set; it
raises whenever the set is explicitly carried at more than one level of
the hierarchy (the owning entity counting as a level — both when the
entity carries it and some ancestor also does, and when the entity does
not carry it but two or more ancestors do); when exactly one ancestor
carries the set and the entity does not, it returns that ancestor's
coordinate; and when no level carries it, it returns the absent
result. -/
theorem get_implicit_index_of_set_spec (comp : CompData)
    (ancestors : List CompData) (wrt : PyoSet)
    (hwf : ∀ a ∈ ancestors,
      ∃ bb, is_explicitly_indexed_by a.parentComp [wrt] = .ok bb) :
    (is_explicitly_indexed_by comp.parentComp [wrt] = .ok true →
      (∀ a ∈ ancestors, is_explicitly_indexed_by a.parentComp [wrt] = .ok false) →
      ∀ v, get_index_of_set comp wrt = .ok v →
      get_implicit_index_of_set comp ancestors wrt = .ok (some v)) ∧
    (is_explicitly_indexed_by comp.parentComp [wrt] = .ok true →
      (∃ a ∈ ancestors, is_explicitly_indexed_by a.parentComp [wrt] = .ok true) →
      ∃ m, get_implicit_index_of_set comp ancestors wrt = .error m) ∧
    (is_explicitly_indexed_by comp.parentComp [wrt] = .ok false →
      ∀ l1 a l2 w, ancestors = l1 ++ a :: l2 →
      (∀ x ∈ l1, is_explicitly_indexed_by x.parentComp [wrt] = .ok false) →
      (∀ x ∈ l2, is_explicitly_indexed_by x.parentComp [wrt] = .ok false) →
      is_explicitly_indexed_by a.parentComp [wrt] = .ok true →
      get_index_of_set a wrt = .ok w →
      get_implicit_index_of_set comp ancestors wrt = .ok (some w)) ∧
    (is_explicitly_indexed_by comp.parentComp [wrt] = .ok false →
      ∀ l1 a l2, ancestors = l1 ++ a :: l2 →
      (∀ x ∈ l1, is_explicitly_indexed_by x.parentComp [wrt] = .ok false) →
      is_explicitly_indexed_by a.parentComp [wrt] = .ok true →
      (∃ x ∈ l2, is_explicitly_indexed_by x.parentComp [wrt] = .ok true) →
      ∃ m, get_implicit_index_of_set comp ancestors wrt = .error m) ∧
    (is_explicitly_indexed_by comp.parentComp [wrt] = .ok false →
      (∀ a ∈ ancestors, is_explicitly_indexed_by a.parentComp [wrt] = .ok false) →
      get_implicit_index_of_set comp ancestors wrt = .ok none) := by
  refine ⟨?_, ?_, ?_, ?_, ?_⟩
  · intro hc hall v hv
    unfold get_implicit_index_of_set
    rw [hc]
    show (do
      let v ← get_index_of_set comp wrt
      implicitScan wrt ancestors (some v) true) = Except.ok (some v)
    rw [hv]
    show implicitScan wrt ancestors (some v) true = Except.ok (some v)
    exact implicitScan_all_false wrt ancestors (some v) true hall
  · intro hc hexists
    unfold get_implicit_index_of_set
    rw [hc]
    cases hg : get_index_of_set comp wrt with
    | error m =>
      refine ⟨m, ?_⟩
      show (do
        let v ← (Except.error m : Except String Atom)
        implicitScan wrt ancestors (some v) true) = Except.error m
      rfl
    | ok v =>
      obtain ⟨m, hm⟩ := implicitScan_found_err wrt ancestors (some v) hwf hexists
      refine ⟨m, ?_⟩
      show (do
        let u ← (Except.ok v : Except String Atom)
        implicitScan wrt ancestors (some u) true) = Except.error m
      exact hm
  · intro hc l1 a l2 w hanc h1 h2 ha hget
    unfold get_implicit_index_of_set
    rw [hc]
    show implicitScan wrt ancestors none false = Except.ok (some w)
    rw [hanc]
    exact implicitScan_one_true wrt l1 a l2 none w h1 h2 ha hget
  · intro hc l1 a l2 hanc h1 ha hex
    subst hanc
    have hwf2 : ∀ x ∈ l2,
        ∃ bb, is_explicitly_indexed_by x.parentComp [wrt] = .ok bb :=
      fun x hx => hwf x (by simp [hx])
    obtain ⟨m, hm⟩ := implicitScan_second_true wrt l1 a l2 h1 ha hwf2 hex none
    refine ⟨m, ?_⟩
    unfold get_implicit_index_of_set
    rw [hc]
    show implicitScan wrt (l1 ++ a :: l2) none false = Except.error m
    exact hm
  · intro hc hall
    unfold get_implicit_index_of_set
    rw [hc]
    show implicitScan wrt ancestors none false = Except.ok none
    exact implicitScan_all_false wrt ancestors none false hall

/-- C8 counterexample: a record whose owning entity is explicitly indexed
by A, with one ancestor block also explicitly indexed by A: the function
raises instead of returning the record's own coordinate, and the
ancestors are consulted even though the owning entity carries the set. -/
theorem get_implicit_index_raises_counterexample :
    get_implicit_index_of_set ⟨⟨"v", some (.single setA)⟩, .atom (some 10)⟩
      [⟨⟨"b", some (.single setA)⟩, .atom (some 20)⟩] setA =
      .error ("Cannot get the index of set A because it appears multiple " ++
              "times in the hierarchy") := by
  decide

/-- Witness for the amended C8 theorem: with no ancestor carrying A, the
record's own coordinate is returned; with none carrying it at all, the
absent result is returned. -/
theorem get_implicit_index_of_set_spec_witness :
    get_implicit_index_of_set ⟨⟨"v", some (.single setA)⟩, .atom (some 10)⟩
      [⟨⟨"b", none⟩, .atom none⟩] setA = .ok (some (some 10)) ∧
    get_implicit_index_of_set ⟨⟨"w", none⟩, .atom none⟩
      [⟨⟨"b", none⟩, .atom none⟩] setA = .ok none := by
  constructor
  · exact (get_implicit_index_of_set_spec
        ⟨⟨"v", some (.single setA)⟩, .atom (some 10)⟩
        [⟨⟨"b", none⟩, .atom none⟩] setA
        (by intro a ha; simp at ha; subst ha; exact ⟨false, by decide⟩)).1
      (by decide) (by intro a ha; simp at ha; subst ha; decide)
      (some 10) (by decide)
  · exact (get_implicit_index_of_set_spec ⟨⟨"w", none⟩, .atom none⟩
        [⟨⟨"b", none⟩, .atom none⟩] setA
        (by intro a ha; simp at ha; subst ha; exact ⟨false, by decide⟩)).2.2.2.2
      (by decide) (by intro a ha; simp at ha; subst ha; decide)

/-- An ancestor entry recorded while walking up from a component: the
block data's identity (`id()`), its parent component's `local_name` and
its own `index()`. -/
structure SrcAnc where
  bid : Nat
  localName : String
  index : PyVal
  deriving DecidableEq, Repr

/-- The upward walk of `path_from_block` (`dyn_utils.py` lines 555-568):
`chain` is the component's parent-block chain, bottom-up.  Each step not
(identically) equal to `blk` is pre-pended to the route; when the top of
the tree is reached the loop silently breaks after recording it. -/
def pfbWalk : List SrcAnc → Nat → List (String × PyVal)
  | [], _ => []
  | a :: rest, blk =>
    if a.bid == blk then []
    else pfbWalk rest blk ++ [(a.localName, a.index)]

/-- Embedding of `path_from_block(comp, blk, include_comp)`
(`dyn_utils.py` lines 540-578).  `compIndex = none` models a component
with no `index` attribute, whose recorded index is Python `None`. -/
def path_from_block (chain : List SrcAnc) (blk : Nat) (include_comp : Bool)
    (compLocalName : String) (compIndex : Option PyVal) :
    List (String × PyVal) :=
  let route := pfbWalk chain blk
  if include_comp then
    route ++ [(compLocalName, match compIndex with
                              | some i => i
                              | none => .atom none)]
  else route

/-- A node of the mirrored target hierarchy: an indexed component mapping
indices to data objects, or a (block) data object mapping attribute
names to components. -/
inductive TObj where
  | comp : List (PyVal × TObj) → TObj
  | data : List (String × TObj) → TObj

/-- `getattr(obj, name)`: attribute lookup on a block data object;
anything else raises AttributeError. -/
def getattrT (o : TObj) (name : String) : Except String TObj :=
  match o with
  | .data attrs =>
    match attrs.find? (fun p => p.1 == name) with
    | some p => .ok p.2
    | none => .error "AttributeError: no such attribute"
  | .comp _ => .error "AttributeError: no such attribute"

/-- `obj[index]`: index lookup on an indexed component; a missing index
raises KeyError, and indexing a data object raises TypeError (which the
source never catches). -/
def getitemT (o : TObj) (idx : PyVal) : Except String TObj :=
  match o with
  | .comp datas =>
    match datas.find? (fun p => p.1 == idx) with
    | some p => .ok p.2
    | none => .error "KeyError: index not found"
  | .data _ => .error "TypeError: data object is not subscriptable"

/-- The exception classes converted to `None` under `allow_miss`:
`except (AttributeError, KeyError)` (`dyn_utils.py` line 605). -/
def catchable (m : String) : Bool :=
  m == "AttributeError: no such attribute" || m == "KeyError: index not found"

/-- The path-replaying loop of `find_comp_in_block` (`dyn_utils.py`
lines 599-609): each step is a name lookup followed by an index
application; AttributeError and KeyError return `None` when `allow_miss`
and re-raise otherwise. -/
def resolveSteps (allow_miss : Bool) :
    List (String × PyVal) → TObj → Except String (Option TObj)
  | [], lp => .ok (some lp)
  | (n, i) :: rest, lp =>
    match (do
      let c ← getattrT lp n
      getitemT c i : Except String TObj) with
    | .ok lp' => resolveSteps allow_miss rest lp'
    | .error m =>
      if catchable m && allow_miss then .ok none else .error m

/-- Embedding of `find_comp_in_block(tgt_block, src_block, src_comp,
allow_miss)` (`dyn_utils.py` lines 581-633).  The source component is
given by its parent-block chain, the identity of `src_block`, the
component's local name, and (when it has an `index` attribute) its
index. -/
def find_comp_in_block (tgt_block : TObj) (srcChain : List SrcAnc)
    (src_blk : Nat) (srcLocalName : String) (srcHasIndex : Bool)
    (srcIndex : PyVal) (allow_miss : Bool) : Except String (Option TObj) := do
  let r ← resolveSteps allow_miss
    (path_from_block srcChain src_blk false "" none) tgt_block
  match r with
  | none => .ok none
  | some local_parent =>
    match getattrT local_parent srcLocalName with
    | .error m =>
      -- only AttributeError is caught here
      if (m == "AttributeError: no such attribute") && allow_miss then .ok none
      else .error m
    | .ok tgt_comp =>
      if srcHasIndex then
        match getitemT tgt_comp srcIndex with
        | .error m =>
          -- only KeyError is caught here
          if (m == "KeyError: index not found") && allow_miss then .ok none
          else .error m
        | .ok d => .ok (some d)
      else .ok (some tgt_comp)

theorem getattrT_err (o : TObj) (n : String) (m : String)
    (h : getattrT o n = .error m) : m = "AttributeError: no such attribute" := by
  cases o with
  | data attrs =>
    cases hf : attrs.find? (fun p => p.1 == n) with
    | some p =>
      simp only [getattrT, hf] at h
      exact Except.noConfusion h
    | none =>
      simp only [getattrT, hf] at h
      injection h with h
      exact h.symm
  | comp _ => cases h; rfl

theorem getitemT_err (o : TObj) (i : PyVal) (m : String)
    (h : getitemT o i = .error m) :
    m = "KeyError: index not found" ∨
    m = "TypeError: data object is not subscriptable" := by
  cases o with
  | comp datas =>
    cases hf : datas.find? (fun p => p.1 == i) with
    | some p =>
      simp only [getitemT, hf] at h
      exact Except.noConfusion h
    | none =>
      simp only [getitemT, hf] at h
      injection h with h
      exact Or.inl h.symm
  | data _ => cases h; exact Or.inr rfl

theorem fcib_ok_some (tgt_block : TObj) (srcChain : List SrcAnc)
    (src_blk : Nat) (srcLocalName : String) (srcHasIndex : Bool)
    (srcIndex : PyVal) (allow_miss : Bool) (c : TObj)
    (h : resolveSteps allow_miss
        (path_from_block srcChain src_blk false "" none) tgt_block =
      .ok (some c)) :
    find_comp_in_block tgt_block srcChain src_blk srcLocalName
        srcHasIndex srcIndex allow_miss =
      match getattrT c srcLocalName with
      | .error m =>
        if (m == "AttributeError: no such attribute") && allow_miss then .ok none
        else .error m
      | .ok tgt_comp =>
        if srcHasIndex then
          match getitemT tgt_comp srcIndex with
          | .error m =>
            if (m == "KeyError: index not found") && allow_miss then .ok none
            else .error m
          | .ok d => .ok (some d)
        else .ok (some tgt_comp) := by
  unfold find_comp_in_block
  rw [h]
  rfl

theorem fcib_resolve_fail (tgt_block : TObj) (srcChain : List SrcAnc)
    (src_blk : Nat) (srcLocalName : String) (srcHasIndex : Bool)
    (srcIndex : PyVal) (allow_miss : Bool) (r : Except String (Option TObj))
    (h : resolveSteps allow_miss
        (path_from_block srcChain src_blk false "" none) tgt_block = r)
    (hr : (∃ m, r = .error m) ∨ r = .ok none) :
    find_comp_in_block tgt_block srcChain src_blk srcLocalName
        srcHasIndex srcIndex allow_miss = r := by
  unfold find_comp_in_block
  rw [h]
  rcases hr with ⟨m, hm⟩ | hm <;> rw [hm] <;> rfl

theorem resolveSteps_cases : ∀ (steps : List (String × PyVal)) (tgt : TObj),
    (∃ c, resolveSteps false steps tgt = .ok (some c) ∧
          resolveSteps true steps tgt = .ok (some c)) ∨
    (∃ m, resolveSteps false steps tgt = .error m ∧ catchable m = true ∧
          resolveSteps true steps tgt = .ok none) ∨
    (∃ m, resolveSteps false steps tgt = .error m ∧ catchable m = false ∧
          resolveSteps true steps tgt = .error m) := by
  intro steps
  induction steps with
  | nil => intro tgt; exact Or.inl ⟨tgt, rfl, rfl⟩
  | cons s rest ih =>
    intro tgt
    obtain ⟨n, i⟩ := s
    cases hstep : (do
        let c ← getattrT tgt n
        getitemT c i : Except String TObj) with
    | ok lp' =>
      have h1 : resolveSteps false ((n, i) :: rest) tgt =
          resolveSteps false rest lp' := by
        simp only [resolveSteps, hstep]
      have h2 : resolveSteps true ((n, i) :: rest) tgt =
          resolveSteps true rest lp' := by
        simp only [resolveSteps, hstep]
      rcases ih lp' with ⟨c, hc1, hc2⟩ | ⟨m, hm1, hm2, hm3⟩ | ⟨m, hm1, hm2, hm3⟩
      · exact Or.inl ⟨c, by rw [h1]; exact hc1, by rw [h2]; exact hc2⟩
      · exact Or.inr (Or.inl ⟨m, by rw [h1]; exact hm1, hm2, by rw [h2]; exact hm3⟩)
      · exact Or.inr (Or.inr ⟨m, by rw [h1]; exact hm1, hm2, by rw [h2]; exact hm3⟩)
    | error m =>
      by_cases hcm : catchable m = true
      · refine Or.inr (Or.inl ⟨m, ?_, hcm, ?_⟩)
        · simp only [resolveSteps, hstep, hcm]
          simp
        · simp only [resolveSteps, hstep, hcm]
          simp
      · have hcf : catchable m = false := by simpa using hcm
        refine Or.inr (Or.inr ⟨m, ?_, hcf, ?_⟩)
        · simp only [resolveSteps, hstep, hcf]
          simp
        · simp only [resolveSteps, hstep, hcf]
          simp

/-- C9: replaying a source component's path against a target root either
resolves every step and yields the same target entity in both modes, or
hits a missing name / missing index (an AttributeError or KeyError), in
which case `allow_miss = True` yields the absent result `None` while
`allow_miss = False` raises; errors of other kinds (never produced by a
missing name or index) propagate in both modes. -/
theorem find_comp_in_block_claim (tgt_block : TObj) (srcChain : List SrcAnc)
    (src_blk : Nat) (srcLocalName : String) (srcHasIndex : Bool)
    (srcIndex : PyVal) :
    (∃ c, find_comp_in_block tgt_block srcChain src_blk srcLocalName
            srcHasIndex srcIndex false = .ok (some c) ∧
          find_comp_in_block tgt_block srcChain src_blk srcLocalName
            srcHasIndex srcIndex true = .ok (some c)) ∨
    (∃ m, find_comp_in_block tgt_block srcChain src_blk srcLocalName
            srcHasIndex srcIndex false = .error m ∧ catchable m = true ∧
          find_comp_in_block tgt_block srcChain src_blk srcLocalName
            srcHasIndex srcIndex true = .ok none) ∨
    (∃ m, find_comp_in_block tgt_block srcChain src_blk srcLocalName
            srcHasIndex srcIndex false = .error m ∧ catchable m = false ∧
          find_comp_in_block tgt_block srcChain src_blk srcLocalName
            srcHasIndex srcIndex true = .error m) := by
  rcases resolveSteps_cases
      (path_from_block srcChain src_blk false "" none) tgt_block with
    ⟨c, h1, h2⟩ | ⟨m, h1, hcm, h2⟩ | ⟨m, h1, hcm, h2⟩
  · -- every step resolved; examine the final name lookup and index
    have hf0 := fcib_ok_some tgt_block srcChain src_blk srcLocalName
      srcHasIndex srcIndex false c h1
    have hf1 := fcib_ok_some tgt_block srcChain src_blk srcLocalName
      srcHasIndex srcIndex true c h2
    cases hga : getattrT c srcLocalName with
    | error m =>
      have hm := getattrT_err c srcLocalName m hga
      subst hm
      refine Or.inr (Or.inl ⟨"AttributeError: no such attribute",
        ?_, by decide, ?_⟩)
      · rw [hf0]; simp [hga]
      · rw [hf1]; simp [hga]
    | ok tc =>
      cases hhi : srcHasIndex with
      | false =>
        rw [hhi] at hf0 hf1
        refine Or.inl ⟨tc, ?_, ?_⟩
        · rw [hf0]; simp [hga]
        · rw [hf1]; simp [hga]
      | true =>
        rw [hhi] at hf0 hf1
        cases hgi : getitemT tc srcIndex with
        | ok d =>
          refine Or.inl ⟨d, ?_, ?_⟩
          · rw [hf0]; simp [hga, hgi]
          · rw [hf1]; simp [hga, hgi]
        | error m =>
          rcases getitemT_err tc srcIndex m hgi with hm | hm
          · subst hm
            refine Or.inr (Or.inl ⟨"KeyError: index not found",
              ?_, by decide, ?_⟩)
            · rw [hf0]; simp [hga, hgi]
            · rw [hf1]; simp [hga, hgi]
          · subst hm
            refine Or.inr (Or.inr
              ⟨"TypeError: data object is not subscriptable",
              ?_, by decide, ?_⟩)
            · rw [hf0]; simp [hga, hgi]
            · rw [hf1]; simp [hga, hgi]
  · have hf0 := fcib_resolve_fail tgt_block srcChain src_blk srcLocalName
      srcHasIndex srcIndex false _ h1 (Or.inl ⟨m, rfl⟩)
    have hf1 := fcib_resolve_fail tgt_block srcChain src_blk srcLocalName
      srcHasIndex srcIndex true _ h2 (Or.inr rfl)
    exact Or.inr (Or.inl ⟨m, hf0, hcm, hf1⟩)
  · have hf0 := fcib_resolve_fail tgt_block srcChain src_blk srcLocalName
      srcHasIndex srcIndex false _ h1 (Or.inl ⟨m, rfl⟩)
    have hf1 := fcib_resolve_fail tgt_block srcChain src_blk srcLocalName
      srcHasIndex srcIndex true _ h2 (Or.inl ⟨m, rfl⟩)
    exact Or.inr (Or.inr ⟨m, hf0, hcm, hf1⟩)

/-- A fresh one-dimensional set not occurring in the products below. -/
def setU : PyoSet := ⟨3, 1, "U", [.atom (some 5)]⟩

/-- C7 counterexample: the claim says that a subset that does not occur
among the product's factors leads to a raised error, but the code
returns normally with the absent result `None`. -/
theorem get_location_absent_returns_none :
    get_location_of_coordinate_set (.prod [setA, setT]) setU = .ok none := by
  decide

/-- Witness for the amended C7 theorem at concrete inputs. -/
theorem get_location_of_coordinate_set_spec_witness :
    get_location_of_coordinate_set (.prod [setA, setT]) setT = .ok (some 1) ∧
    get_location_of_coordinate_set (.prod [setT, setA]) ⟨9, 2, "W", []⟩ =
      .error "Cannot get the location of W because it is multi-dimensional" := by
  constructor
  · exact (get_location_of_coordinate_set_spec (.prod [setA, setT]) setT).2.1
      (by decide) [setA] setT [] (by decide) (by decide) (by decide) (by decide)
  · exact (get_location_of_coordinate_set_spec (.prod [setT, setA]) ⟨9, 2, "W", []⟩).1
      (by decide)

/-! ## C10: `deactivate_model_at` (`dyn_utils.py` lines 269-321) -/

/-- One component found by
`b.component_objects([Block, Constraint], active=True)`: its identity
(`id(comp)`), its index information, and the `parent_component()`s of the
blocks above it (innermost first), as consulted by
`is_implicitly_indexed_by`. -/
structure TreeComp where
  sid : Nat
  comp : Comp
  ancestors : List Comp
  deriving DecidableEq, Repr

/-- Embedding of `is_implicitly_indexed_by(comp, wrt)` (`dyn_utils.py`
lines 71-107): walk the parent blocks upward and report whether any of
their parent components is explicitly indexed by the set. -/
def is_implicitly_indexed_by (ancestors : List Comp) (wrt : PyoSet) :
    Except String Bool :=
  match ancestors with
  | [] => .ok false
  | a :: rest => do
    let b ← is_explicitly_indexed_by a [wrt]
    if b then .ok true else is_implicitly_indexed_by rest wrt

/-- The active flags of the existing component data objects of the tree,
keyed by (component identity, index): `comp[index].deactivate()` clears
the flag, and a key with no entry raises KeyError. -/
abbrev DAStore := List ((Nat × PyVal) × Bool)

/-- The state threaded through `deactivate_model_at`: the active flags,
the `deactivated` dictionary being built, and the warnings logged for
skipped indices. -/
structure DAState where
  store : DAStore
  deactivated : List (Atom × List (Nat × PyVal))
  logs : List String
  deriving DecidableEq, Repr

/-- `str(pt)` for a scalar index value. -/
def pyStr : Atom → String
  | none => "None"
  | some i => toString i

/-- `str(index)` for a (possibly tuple) index value. -/
def pyValStr : PyVal → String
  | .atom a => pyStr a
  | .tup l => "(" ++ String.intercalate ", " (l.map pyStr) ++ ")"

/-- The `pts` argument: `if not type(pts) is list: pts = [pts]`
(`dyn_utils.py` line 285). -/
inductive PtsArg where
  | one : Atom → PtsArg
  | many : List Atom → PtsArg
  deriving DecidableEq, Repr

def PtsArg.toList : PtsArg → List Atom
  | .one a => [a]
  | .many l => l

/-- The validation loop (`dyn_utils.py` lines 287-290): the first point
not in the ContinuousSet produces the ValueError message. -/
def validatePts (cset : PyoSet) : List Atom → Option String
  | [] => none
  | pt :: rest =>
    if PyVal.atom pt ∈ cset.elems then validatePts cset rest
    else some (pyStr pt ++ " is not in ContinuousSet " ++ cset.sname)

/-- `comp[index].deactivate()`: clear the active flag at the key. -/
def deactAt (st : DAStore) (key : Nat × PyVal) : DAStore :=
  st.map (fun e => if e.1 == key then (e.1, false) else e)

/-- `deactivated[pt].append(comp[index])`. -/
def addDeact (d : List (Atom × List (Nat × PyVal))) (pt : Atom)
    (cd : Nat × PyVal) : List (Atom × List (Nat × PyVal)) :=
  d.map (fun e => if e.1 == pt then (e.1, e.2 ++ [cd]) else e)

/-- The body of the innermost loop (`dyn_utils.py` lines 308-318):
compute `index_getter(non_cset_index, pt)`, then try to deactivate
`comp[index]`, logging and continuing on KeyError.  Errors raised by the
getter escape, carrying the store as it stood. -/
def deactOne (c : TreeComp) (getter : Getter) (pt : Atom) (nci : PyVal)
    (s : DAState) : Except (String × DAStore) DAState :=
  match applyGetter getter nci [.atom pt] with
  | .error m => .error (m, s.store)
  | .ok index =>
    match s.store.find? (fun e => e.1.1 == c.sid && e.1.2 == index) with
    | some _ =>
      .ok ⟨deactAt s.store (c.sid, index),
           addDeact s.deactivated pt (c.sid, index), s.logs⟩
    | none =>
      .ok ⟨s.store, s.deactivated,
           s.logs ++ [c.comp.cname ++ " has no index " ++ pyValStr index]⟩

/-- `for pt in pts:` (`dyn_utils.py` line 308). -/
def deactPts (c : TreeComp) (getter : Getter) (nci : PyVal) :
    List Atom → DAState → Except (String × DAStore) DAState
  | [], s => .ok s
  | pt :: rest, s =>
    match deactOne c getter pt nci s with
    | .error e => .error e
    | .ok s2 => deactPts c getter nci rest s2

/-- `for non_cset_index in non_cset_set:` (`dyn_utils.py` line 307). -/
def deactIndices (c : TreeComp) (getter : Getter) (pts : List Atom) :
    List PyVal → DAState → Except (String × DAStore) DAState
  | [], s => .ok s
  | nci :: rest, s =>
    match deactPts c getter nci pts s with
    | .error e => .error e
    | .ok s2 => deactIndices c getter pts rest s2

/-- Processing one component (`dyn_utils.py` lines 301-318): the
implicit-indexing check runs only when the explicit one succeeded, and
the index machinery runs only for explicitly-but-not-implicitly indexed
components. -/
def deactComp (cset : PyoSet) (pts : List Atom) (c : TreeComp)
    (s : DAState) : Except (String × DAStore) DAState :=
  match is_explicitly_indexed_by c.comp [cset] with
  | .error m => .error (m, s.store)
  | .ok expl =>
    if expl then
      match is_implicitly_indexed_by c.ancestors cset with
      | .error m => .error (m, s.store)
      | .ok impl =>
        if impl then .ok s
        else
          match get_index_set_except c.comp [cset] with
          | .error m => .error (m, s.store)
          | .ok info => deactIndices c info.getter pts info.set_except.elemsList s
    else .ok s

/-- The component loop with its visited set (`dyn_utils.py` lines
293-299): duplicates (due to references) are skipped. -/
def deactLoop (cset : PyoSet) (pts : List Atom) :
    List TreeComp → List Nat → DAState → Except (String × DAStore) DAState
  | [], _, s => .ok s
  | c :: rest, visited, s =>
    if visited.contains c.sid then deactLoop cset pts rest visited s
    else
      match deactComp cset pts c s with
      | .error e => .error e
      | .ok s2 => deactLoop cset pts rest (c.sid :: visited) s2

/-- Embedding of `deactivate_model_at(b, cset, pts)` (`dyn_utils.py`
lines 269-321): normalize `pts`, validate every point against the
ContinuousSet, then initialize `deactivated` and walk the components.
A raise carries the active-flag store as it stood at that moment. -/
def deactivate_model_at (comps : List TreeComp) (cset : PyoSet)
    (pts : PtsArg) (store : DAStore) : Except (String × DAStore) DAState :=
  let ptsL := pts.toList
  match validatePts cset ptsL with
  | some msg => .error (msg, store)
  | none =>
    deactLoop cset ptsL comps [] ⟨store, ptsL.map (fun pt => (pt, [])), []⟩

theorem validatePts_invalid (cset : PyoSet) :
    ∀ l : List Atom, (∃ pt ∈ l, PyVal.atom pt ∉ cset.elems) →
    ∃ pt ∈ l, PyVal.atom pt ∉ cset.elems ∧
      validatePts cset l =
        some (pyStr pt ++ " is not in ContinuousSet " ++ cset.sname) := by
  intro l
  induction l with
  | nil => rintro ⟨pt, h, _⟩; cases h
  | cons a rest ih =>
    rintro ⟨pt, hmem, hnot⟩
    by_cases ha : PyVal.atom a ∈ cset.elems
    · have hptr : pt ∈ rest := by
        rcases List.mem_cons.mp hmem with h | h
        · exact absurd (h ▸ ha) hnot
        · exact h
      rcases ih ⟨pt, hptr, hnot⟩ with ⟨q, hq, hqn, hqe⟩
      exact ⟨q, List.mem_cons_of_mem a hq, hqn,
        by simpa [validatePts, ha] using hqe⟩
    · exact ⟨a, List.mem_cons_self a rest, ha, by simp [validatePts, ha]⟩

/-- C10: `deactivate_model_at` checks every requested point for
membership in the ContinuousSet before touching any component: when some
point is absent from the set it raises the ValueError naming that point,
and the active-flag store carried out by the raise is exactly the input
store — no record's flag has been changed. -/
theorem deactivate_model_at_atomic (comps : List TreeComp) (cset : PyoSet)
    (pts : PtsArg) (store : DAStore)
    (h : ∃ pt ∈ pts.toList, PyVal.atom pt ∉ cset.elems) :
    ∃ pt ∈ pts.toList, PyVal.atom pt ∉ cset.elems ∧
      deactivate_model_at comps cset pts store =
        .error (pyStr pt ++ " is not in ContinuousSet " ++ cset.sname,
                store) := by
  rcases validatePts_invalid cset pts.toList h with ⟨pt, hm, hn, he⟩
  refine ⟨pt, hm, hn, ?_⟩
  unfold deactivate_model_at
  simp only [he]

/-- Witness for the C10 theorem: the point 7 is not in the set T, and
the call raises with the store untouched. -/
theorem deactivate_model_at_atomic_witness :
    (∃ pt ∈ (PtsArg.many [some 7]).toList, PyVal.atom pt ∉ setT.elems) ∧
    ∃ pt ∈ (PtsArg.many [some 7]).toList, PyVal.atom pt ∉ setT.elems ∧
      deactivate_model_at [] setT (.many [some 7])
          [((1, .atom (some 0)), true)] =
        .error (pyStr pt ++ " is not in ContinuousSet " ++ setT.sname,
                [((1, .atom (some 0)), true)]) :=
  ⟨⟨some 7, by decide, by decide⟩,
   deactivate_model_at_atomic [] setT (.many [some 7])
     [((1, .atom (some 0)), true)] ⟨some 7, by decide, by decide⟩⟩

/-! ## C1, C3, C4: `copy_non_time_indexed_values` (lines 748-840) and
`copy_values_at_time` (lines 843-971)

The flowsheets are modelled structurally: a flowsheet has a time set, its
Var components and its Block components; each Block carries the Var
components of its (structurally uniform) data objects.  Variable data
records (value and fixed flag) live in stores keyed by the variable data
identity; components are dense, so `var[index]` for an index of the
index set reads the record at that key (a missing record reads as a
value-less unfixed one).  The source store is a separate read-only input,
so source values are unchanged between invocations by construction.
Raises carry the target store as it stood, and warnings accumulate in a
log list. -/

/-- The identity of one variable data object: a flowsheet-level Var's
name and index, or (block name, block data index, member Var name, member
index) for a Var inside a block data object. -/
inductive VKey where
  | top : String → PyVal → VKey
  | mem : String → PyVal → String → PyVal → VKey
  deriving DecidableEq, Repr

/-- One `VarData`: its value and its fixed flag. -/
structure VRec where
  value : Atom
  fixed : Bool
  deriving DecidableEq, Repr

/-- The variable data records of one flowsheet. -/
abbrev VStore := List (VKey × VRec)

/-- Reading `var[index]` (dense model: an absent key reads as an unfixed
value-less record). -/
def getRec (st : VStore) (k : VKey) : VRec :=
  ((st.find? (fun e => e.1 == k)).map (·.2)).getD ⟨none, false⟩

/-- `var[index].set_value(v)`: overwrite the value, keep the fixed flag. -/
def setVal (st : VStore) (k : VKey) (v : Atom) : VStore :=
  st.map (fun e => if e.1 == k then (e.1, ⟨v, e.2.fixed⟩) else e)

/-- A Var component: its identity (`id`), its (fully qualified) name and
its index structure. -/
structure FVar where
  sid : Nat
  vname : String
  comp : Comp
  deriving DecidableEq, Repr

/-- A Block component: its identity, name, index structure, the Var
components of each of its data objects, and the parent components of the
blocks above it (consulted by `is_implicitly_indexed_by`). -/
structure FBlk where
  sid : Nat
  bname : String
  comp : Comp
  members : List FVar
  ancestors : List Comp
  deriving DecidableEq, Repr

/-- A flowsheet: its time set, name, Vars and Blocks. -/
structure Flowsheet where
  time : PyoSet
  fsname : String
  fvars : List FVar
  fblks : List FBlk
  deriving DecidableEq, Repr

/-- `for index in var:` — the data keys of a component (a scalar
component has the single data key `None`). -/
def compIndices (c : Comp) : List PyVal :=
  match c.indexStructure with
  | none => [.atom none]
  | some istr => istr.elemsList

/-- The running state of a copy operation: the target store and the
warnings logged so far. -/
structure CState where
  store : VStore
  logs : List String
  deriving DecidableEq, Repr

/-- The outcome of a step: a raise carries the store as it stood. -/
abbrev CRes := Except (String × VStore) CState

/-- Raising an exception. -/
def raiseC (m : String) : CState → CRes := fun s => .error (m, s.store)

/-- Logging one warning and continuing. -/
def logC (msg : String) : CState → CRes := fun s => .ok ⟨s.store, s.logs ++ [msg]⟩

/-- `if not copy_fixed and var[k].fixed: continue` guarding
`var[k].set_value(v)`. -/
def guardWriteC (copy_fixed : Bool) (k : VKey) (v : Atom) : CState → CRes :=
  fun s =>
    if !copy_fixed && (getRec s.store k).fixed then .ok s
    else .ok ⟨setVal s.store k v, s.logs⟩

/-- Sequencing two steps (a raise aborts the whole operation). -/
def seqC (f g : CState → CRes) : CState → CRes := fun s =>
  match f s with
  | .error e => .error e
  | .ok s2 => g s2

/-- A `for` loop over store-independent iteration data. -/
def forC (step : α → CState → CRes) : List α → CState → CRes
  | [], s => .ok s
  | a :: rest, s => seqC (step a) (forC step rest) s

/-- A `for` loop over `component_objects` output with the visited-id
set that skips duplicate references. -/
def visitedFold (step : α → CState → CRes) (sidOf : α → Nat) :
    List α → List Nat → CState → CRes
  | [], _, s => .ok s
  | a :: rest, vis, s =>
    if vis.contains (sidOf a) then visitedFold step sidOf rest vis s
    else seqC (step a) (visitedFold step sidOf rest (sidOf a :: vis)) s

/-- One `non_time_index` iteration of the `n >= 2` branch of the Var
loop of `copy_values_at_time` (`dyn_utils.py` lines 895-903): build the
source and target indices with the `index_getter` (errors escape
uncaught), then the guarded write. -/
def cvatVarIdx (srcStore : VStore) (getter : Getter) (t_target t_source : Atom)
    (copy_fixed : Bool) (vname wname : String) (nci : PyVal) :
    CState → CRes := fun s =>
  match applyGetter getter nci [.atom t_source] with
  | .error m => .error (m, s.store)
  | .ok source_index =>
    match applyGetter getter nci [.atom t_target] with
    | .error m => .error (m, s.store)
    | .ok target_index =>
      guardWriteC copy_fixed (VKey.top vname target_index)
        (getRec srcStore (VKey.top wname source_index)).value s

/-- One Var component of the Var loop of `copy_values_at_time`
(`dyn_utils.py` lines 868-903): skip unless explicitly time-indexed,
find the source Var by name (warn and continue when absent), then copy
at the target point (`n == 1`) or across the non-time projection
(`n >= 2`). -/
def cvatVar (src : Flowsheet) (srcStore : VStore) (time : PyoSet)
    (t_target t_source : Atom) (copy_fixed : Bool) (v : FVar) :
    CState → CRes := fun s =>
  match is_explicitly_indexed_by v.comp [time] with
  | .error m => .error (m, s.store)
  | .ok b =>
    if !b then .ok s
    else
      match src.fvars.find? (fun w => w.vname == v.vname) with
      | none =>
        logC ("Warning copying values: " ++ v.vname ++
              " does not exist in source block " ++ src.fsname) s
      | some w =>
        if v.comp.dim == 1 then
          guardWriteC copy_fixed (VKey.top v.vname (.atom t_target))
            (getRec srcStore (VKey.top w.vname (.atom t_source))).value s
        else if 2 ≤ v.comp.dim then
          match get_index_set_except v.comp [time] with
          | .error m => .error (m, s.store)
          | .ok info =>
            forC (cvatVarIdx srcStore info.getter t_target t_source
                copy_fixed v.vname w.vname)
              info.set_except.elemsList s
        else .ok s

/-- `component_data_objects(Var)` of one block data object in the Block
loop of `copy_values_at_time` (lines 934-946 / 959-971): for each member
Var data, the guarded write from the same-named data of the source block
data (path resolution by identical relative names in this dense model).
The guard reads `var_target.fixed` — the target data record itself. -/
def cvatBlkData (srcStore : VStore) (copy_fixed : Bool)
    (bname sname : String) (target_index source_index : PyVal)
    (m : FVar) : CState → CRes :=
  forC (fun mi => guardWriteC copy_fixed
      (VKey.mem bname target_index m.vname mi)
      (getRec srcStore (VKey.mem sname source_index m.vname mi)).value)
    (compIndices m.comp)

/-- One `non_time_index` iteration of the `n >= 2` branch of the Block
loop (lines 951-971). -/
def cvatBlkIdx (srcStore : VStore) (getter : Getter)
    (t_target t_source : Atom) (copy_fixed : Bool) (bname sname : String)
    (members : List FVar) (nci : PyVal) : CState → CRes := fun s =>
  match applyGetter getter nci [.atom t_source] with
  | .error m => .error (m, s.store)
  | .ok source_index =>
    match applyGetter getter nci [.atom t_target] with
    | .error m => .error (m, s.store)
    | .ok target_index =>
      forC (cvatBlkData srcStore copy_fixed bname sname
          target_index source_index) members s

/-- One Block component of the Block loop of `copy_values_at_time`
(`dyn_utils.py` lines 906-971). -/
def cvatBlk (src : Flowsheet) (srcStore : VStore) (time : PyoSet)
    (t_target t_source : Atom) (copy_fixed : Bool) (b : FBlk) :
    CState → CRes := fun s =>
  match is_explicitly_indexed_by b.comp [time] with
  | .error m => .error (m, s.store)
  | .ok expl =>
    if !expl then .ok s
    else
      match src.fblks.find? (fun c => c.bname == b.bname) with
      | none =>
        logC ("Warning copying values: " ++ b.bname ++
              " does not exist in source" ++ src.fsname) s
      | some bs =>
        if b.comp.dim == 1 then
          forC (cvatBlkData srcStore copy_fixed b.bname bs.bname
              (.atom t_target) (.atom t_source)) b.members s
        else if 2 ≤ b.comp.dim then
          match get_index_set_except b.comp [time] with
          | .error m => .error (m, s.store)
          | .ok info =>
            forC (cvatBlkIdx srcStore info.getter t_target t_source
                copy_fixed b.bname bs.bname b.members)
              info.set_except.elemsList s
        else .ok s

/-- Embedding of `copy_values_at_time(fs_tgt, fs_src, t_target, t_source,
copy_fixed)` (`dyn_utils.py` lines 843-971): the Var loop with its
visited set, then the Block loop with its visited set, starting from an
empty log. -/
def copy_values_at_time (tgt src : Flowsheet) (srcStore : VStore)
    (t_target t_source : Atom) (copy_fixed : Bool) (store : VStore) :
    CRes :=
  seqC
    (fun s => visitedFold
      (cvatVar src srcStore tgt.time t_target t_source copy_fixed)
      (·.sid) tgt.fvars [] s)
    (fun s => visitedFold
      (cvatBlk src srcStore tgt.time t_target t_source copy_fixed)
      (·.sid) tgt.fblks [] s)
    ⟨store, []⟩

/-- One Var component of the first loop of
`copy_non_time_indexed_values` (`dyn_utils.py` lines 764-789): skip
time-indexed Vars; when the source lacks the name, the warning branch
(lines 780-784) evaluates the undefined name `varname` and raises
NameError; otherwise copy the source's scalar value to every index. -/
def cntivVar (src : Flowsheet) (srcStore : VStore) (time : PyoSet)
    (copy_fixed : Bool) (v : FVar) : CState → CRes := fun s =>
  match is_explicitly_indexed_by v.comp [time] with
  | .error m => .error (m, s.store)
  | .ok b =>
    if b then .ok s
    else
      match src.fvars.find? (fun w => w.vname == v.vname) with
      | none => .error ("NameError: name varname is not defined", s.store)
      | some w =>
        forC (fun index => guardWriteC copy_fixed (VKey.top v.vname index)
            (getRec srcStore (VKey.top w.vname (.atom none))).value)
          (compIndices v.comp) s

/-- One member Var of one block data in the second loop of
`copy_non_time_indexed_values` (lines 805-840): skip time-indexed
members, then copy index by index from the same-named source data. -/
def cntivBlkVar (srcStore : VStore) (time : PyoSet) (copy_fixed : Bool)
    (bname sname : String) (b_index : PyVal) (m : FVar) :
    CState → CRes := fun s =>
  match is_explicitly_indexed_by m.comp [time] with
  | .error m2 => .error (m2, s.store)
  | .ok b =>
    if b then .ok s
    else
      forC (fun index => guardWriteC copy_fixed
          (VKey.mem bname b_index m.vname index)
          (getRec srcStore (VKey.mem sname b_index m.vname index)).value)
        (compIndices m.comp) s

/-- One Block of the second loop of `copy_non_time_indexed_values`
(lines 792-840): skip blocks implicitly or explicitly indexed by time
(implicit first, short-circuit); resolving the block in the source by
its path — when it is absent, the `except AttributeError` branch (lines
820-825) evaluates the undefined name `outlvl` and raises NameError;
otherwise walk the block data and their member Vars. -/
def cntivBlk (src : Flowsheet) (srcStore : VStore) (time : PyoSet)
    (copy_fixed : Bool) (b : FBlk) : CState → CRes := fun s =>
  match is_implicitly_indexed_by b.ancestors time with
  | .error m => .error (m, s.store)
  | .ok impl =>
    if impl then .ok s
    else
      match is_explicitly_indexed_by b.comp [time] with
      | .error m => .error (m, s.store)
      | .ok expl =>
        if expl then .ok s
        else
          match src.fblks.find? (fun c => c.bname == b.bname) with
          | none => .error ("NameError: name outlvl is not defined", s.store)
          | some bs =>
            forC (fun b_index => fun s2 =>
                forC (cntivBlkVar srcStore time copy_fixed b.bname
                    bs.bname b_index) b.members s2)
              (compIndices b.comp) s

/-- Embedding of `copy_non_time_indexed_values(fs_tgt, fs_src,
copy_fixed)` (`dyn_utils.py` lines 748-840): the top-level Var loop with
its visited set, then the Block loop with its visited set. -/
def copy_non_time_indexed_values (tgt src : Flowsheet) (srcStore : VStore)
    (copy_fixed : Bool) (store : VStore) : CRes :=
  seqC
    (fun s => visitedFold
      (cntivVar src srcStore tgt.time copy_fixed) (·.sid) tgt.fvars [] s)
    (fun s => visitedFold
      (cntivBlk src srcStore tgt.time copy_fixed) (·.sid) tgt.fblks [] s)
    ⟨store, []⟩

/-! ### Store projections and write traces -/

/-- The keys of a store, in order. -/
def keysOf (st : VStore) : List VKey := st.map (·.1)

/-- The keys and fixed flags of a store, in order (set_value never
changes these). -/
def keysFix (st : VStore) : List (VKey × Bool) :=
  st.map (fun e => (e.1, e.2.fixed))

/-- The keys and values of a store, in order. -/
def valsOf (st : VStore) : List (VKey × Atom) :=
  st.map (fun e => (e.1, e.2.value))

/-- A trace of `set_value` writes. -/
abbrev Writes := List (VKey × Atom)

/-- Replaying a trace of writes over a store. -/
def applyWrites (ws : Writes) (st : VStore) : VStore :=
  ws.foldl (fun s w => setVal s w.1 w.2) st

/-- The effect of a write trace on a single record. -/
def recAfter (ws : Writes) (k : VKey) (r : VRec) : VRec :=
  ws.foldl (fun r w => if w.1 == k then ⟨w.2, r.fixed⟩ else r) r

theorem keysFix_setVal (st : VStore) (k : VKey) (v : Atom) :
    keysFix (setVal st k v) = keysFix st := by
  unfold keysFix setVal
  rw [List.map_map]
  apply List.map_congr_left
  intro e _
  by_cases h : (e.1 == k) = true <;> simp [Function.comp, h]

theorem keysOf_setVal (st : VStore) (k : VKey) (v : Atom) :
    keysOf (setVal st k v) = keysOf st := by
  unfold keysOf setVal
  rw [List.map_map]
  apply List.map_congr_left
  intro e _
  by_cases h : (e.1 == k) = true <;> simp [Function.comp, h]

theorem valsOf_setVal (st : VStore) (k : VKey) (v : Atom) :
    valsOf (setVal st k v) =
      (valsOf st).map (fun p => if p.1 == k then (p.1, v) else p) := by
  unfold valsOf setVal
  rw [List.map_map, List.map_map]
  apply List.map_congr_left
  intro e _
  by_cases h : (e.1 == k) = true <;> simp [Function.comp, h]

theorem applyWrites_cons (w : VKey × Atom) (ws : Writes) (st : VStore) :
    applyWrites (w :: ws) st = applyWrites ws (setVal st w.1 w.2) := rfl

theorem keysFix_applyWrites (ws : Writes) :
    ∀ st : VStore, keysFix (applyWrites ws st) = keysFix st := by
  induction ws with
  | nil => intro st; rfl
  | cons w ws ih =>
    intro st
    rw [applyWrites_cons, ih, keysFix_setVal]

theorem keysOf_applyWrites (ws : Writes) :
    ∀ st : VStore, keysOf (applyWrites ws st) = keysOf st := by
  induction ws with
  | nil => intro st; rfl
  | cons w ws ih =>
    intro st
    rw [applyWrites_cons, ih, keysOf_setVal]

theorem valsOf_applyWrites_congr (ws : Writes) :
    ∀ st1 st2 : VStore, valsOf st1 = valsOf st2 →
      valsOf (applyWrites ws st1) = valsOf (applyWrites ws st2) := by
  induction ws with
  | nil => intro st1 st2 h; exact h
  | cons w ws ih =>
    intro st1 st2 h
    rw [applyWrites_cons, applyWrites_cons]
    exact ih _ _ (by rw [valsOf_setVal, valsOf_setVal, h])

theorem applyWrites_append (ws1 ws2 : Writes) (st : VStore) :
    applyWrites (ws1 ++ ws2) st = applyWrites ws2 (applyWrites ws1 st) :=
  List.foldl_append _ _ _ _

theorem getRec_fix_congr :
    ∀ st1 st2 : VStore, keysFix st1 = keysFix st2 →
      ∀ k, (getRec st1 k).fixed = (getRec st2 k).fixed := by
  intro st1
  induction st1 with
  | nil =>
    intro st2 h k
    cases st2 with
    | nil => rfl
    | cons e2 t2 => simp [keysFix] at h
  | cons e t ih =>
    intro st2 h k
    cases st2 with
    | nil => simp [keysFix] at h
    | cons e2 t2 =>
      simp only [keysFix, List.map_cons, List.cons.injEq, Prod.mk.injEq] at h
      obtain ⟨⟨hk, hf⟩, ht⟩ := h
      by_cases hc : (e.1 == k) = true
      · have hc2 : (e2.1 == k) = true := by
          rw [beq_iff_eq] at hc ⊢; rw [← hk]; exact hc
        simp [getRec, List.find?, hc, hc2, hf]
      · have hcf : (e.1 == k) = false := by simpa using hc
        have hc2 : (e2.1 == k) = false := by
          rw [beq_eq_false_iff_ne] at hcf ⊢
          rw [← hk]; exact hcf
        simp only [getRec, List.find?, hcf, hc2]
        exact ih t2 ht k

theorem find?_setVal (k k2 : VKey) (v : Atom) (h : k ≠ k2) :
    ∀ st : VStore,
      (setVal st k2 v).find? (fun e => e.1 == k) =
        st.find? (fun e => e.1 == k) := by
  intro st
  induction st with
  | nil => rfl
  | cons e t ih =>
    by_cases he : (e.1 == k) = true
    · have hne : (e.1 == k2) = false := by
        rw [beq_iff_eq] at he
        rw [beq_eq_false_iff_ne, he]
        exact h
      have hmap : setVal (e :: t) k2 v = e :: setVal t k2 v := by
        simp only [setVal, List.map_cons]
        rw [if_neg (by simpa using hne)]
      rw [hmap]
      simp only [List.find?, he]
    · have hef : (e.1 == k) = false := by simpa using he
      by_cases h2 : (e.1 == k2) = true
      · have hmap : setVal (e :: t) k2 v =
            (e.1, ⟨v, e.2.fixed⟩) :: setVal t k2 v := by
          simp only [setVal, List.map_cons]
          rw [if_pos h2]
        rw [hmap]
        simp only [List.find?, hef]
        exact ih
      · have h2f : (e.1 == k2) = false := by simpa using h2
        have hmap : setVal (e :: t) k2 v = e :: setVal t k2 v := by
          simp only [setVal, List.map_cons]
          rw [if_neg (by simpa using h2f)]
        rw [hmap]
        simp only [List.find?, hef]
        exact ih

theorem getRec_setVal_ne (st : VStore) (k k2 : VKey) (v : Atom)
    (h : k ≠ k2) : getRec (setVal st k2 v) k = getRec st k := by
  unfold getRec
  rw [find?_setVal k k2 v h st]

theorem recAfter_fixed (ws : Writes) (k : VKey) :
    ∀ r : VRec, (recAfter ws k r).fixed = r.fixed := by
  induction ws with
  | nil => intro r; rfl
  | cons w ws ih =>
    intro r
    show (recAfter ws k (if w.1 == k then ⟨w.2, r.fixed⟩ else r)).fixed = r.fixed
    by_cases h : (w.1 == k) = true
    · rw [if_pos h, ih]
    · rw [if_neg h, ih]

theorem recAfter_congr (ws : Writes) (k : VKey) :
    ∀ r1 r2 : VRec, r1.fixed = r2.fixed →
      recAfter ws k r1 = recAfter ws k r2 ∨
      (recAfter ws k r1 = r1 ∧ recAfter ws k r2 = r2) := by
  induction ws with
  | nil => intro r1 r2 _; exact Or.inr ⟨rfl, rfl⟩
  | cons w ws ih =>
    intro r1 r2 hf
    by_cases h : (w.1 == k) = true
    · refine Or.inl ?_
      show recAfter ws k (if w.1 == k then ⟨w.2, r1.fixed⟩ else r1) =
        recAfter ws k (if w.1 == k then ⟨w.2, r2.fixed⟩ else r2)
      rw [if_pos h, if_pos h, hf]
    · have h1 : recAfter (w :: ws) k r1 = recAfter ws k r1 := by
        show recAfter ws k (if w.1 == k then ⟨w.2, r1.fixed⟩ else r1) = _
        rw [if_neg h]
      have h2 : recAfter (w :: ws) k r2 = recAfter ws k r2 := by
        show recAfter ws k (if w.1 == k then ⟨w.2, r2.fixed⟩ else r2) = _
        rw [if_neg h]
      rw [h1, h2]
      exact ih r1 r2 hf

theorem recAfter_idem (ws : Writes) (k : VKey) (r : VRec) :
    recAfter ws k (recAfter ws k r) = recAfter ws k r := by
  rcases recAfter_congr ws k (recAfter ws k r) r (recAfter_fixed ws k r) with
    h | ⟨h1, _⟩
  · exact h
  · exact h1

theorem applyWrites_map_form (ws : Writes) :
    ∀ st : VStore,
      applyWrites ws st = st.map (fun e => (e.1, recAfter ws e.1 e.2)) := by
  induction ws with
  | nil =>
    intro st
    show st = st.map (fun e => (e.1, e.2))
    exact (List.map_id st).symm
  | cons w ws ih =>
    intro st
    rw [applyWrites_cons, ih, setVal, List.map_map]
    apply List.map_congr_left
    intro e _
    show (fun e => (e.1, recAfter ws e.1 e.2))
        (if e.1 == w.1 then (e.1, ⟨w.2, e.2.fixed⟩) else e) =
      (e.1, recAfter (w :: ws) e.1 e.2)
    have hstep : recAfter (w :: ws) e.1 e.2 =
        recAfter ws e.1 (if w.1 == e.1 then ⟨w.2, e.2.fixed⟩ else e.2) := rfl
    by_cases h : e.1 = w.1
    · have hb : (e.1 == w.1) = true := by rw [beq_iff_eq]; exact h
      have hb2 : (w.1 == e.1) = true := by rw [beq_iff_eq]; exact h.symm
      rw [if_pos hb, hstep, if_pos hb2]
    · have hb : (e.1 == w.1) = false := by rw [beq_eq_false_iff_ne]; exact h
      have hb2 : (w.1 == e.1) = false := by
        rw [beq_eq_false_iff_ne]; exact fun hh => h hh.symm
      rw [if_neg (by simp [hb]), hstep, if_neg (by simp [hb2])]

theorem applyWrites_idem (ws : Writes) (st : VStore) :
    applyWrites ws (applyWrites ws st) = applyWrites ws st := by
  rw [applyWrites_map_form, applyWrites_map_form, List.map_map]
  apply List.map_congr_left
  intro e _
  show (e.1, recAfter ws e.1 (recAfter ws e.1 e.2)) = (e.1, recAfter ws e.1 e.2)
  rw [recAfter_idem]

/-! ### Same-trace semantics: two runs from stores with an equal
projection raise at the same point with the same message or perform the
same writes and logs. -/

/-- `f` is tracked by the projection `proj`: runs from stores with equal
projections produce the same write trace and log suffix (or raise the
same message after the same writes). -/
def TracksOn {γ : Type} (proj : VStore → γ) (f : CState → CRes) : Prop :=
  ∀ s1 s2 : CState, proj s1.store = proj s2.store →
    (∃ m ws, f s1 = .error (m, applyWrites ws s1.store) ∧
             f s2 = .error (m, applyWrites ws s2.store)) ∨
    (∃ ws ls, f s1 = .ok ⟨applyWrites ws s1.store, s1.logs ++ ls⟩ ∧
              f s2 = .ok ⟨applyWrites ws s2.store, s2.logs ++ ls⟩)

theorem tracksOn_skip {γ : Type} (proj : VStore → γ) :
    TracksOn proj (fun s => .ok s) := by
  intro s1 s2 _
  exact Or.inr ⟨[], [], by simp [applyWrites], by simp [applyWrites]⟩

theorem tracksOn_raise {γ : Type} (proj : VStore → γ) (m : String) :
    TracksOn proj (raiseC m) := by
  intro s1 s2 _
  exact Or.inl ⟨m, [], rfl, rfl⟩

theorem tracksOn_log {γ : Type} (proj : VStore → γ) (msg : String) :
    TracksOn proj (logC msg) := by
  intro s1 s2 _
  exact Or.inr ⟨[], [msg], rfl, rfl⟩

theorem tracksOn_guardWrite_fix (cf : Bool) (k : VKey) (v : Atom) :
    TracksOn keysFix (guardWriteC cf k v) := by
  intro s1 s2 hp
  have hfx : (getRec s1.store k).fixed = (getRec s2.store k).fixed :=
    getRec_fix_congr s1.store s2.store hp k
  by_cases hg : (!cf && (getRec s1.store k).fixed) = true
  · refine Or.inr ⟨[], [], ?_, ?_⟩
    · show (if !cf && (getRec s1.store k).fixed then _ else _) = _
      rw [if_pos hg]
      simp [applyWrites]
    · show (if !cf && (getRec s2.store k).fixed then _ else _) = _
      rw [if_pos (by rw [← hfx]; exact hg)]
      simp [applyWrites]
  · refine Or.inr ⟨[(k, v)], [], ?_, ?_⟩
    · show (if !cf && (getRec s1.store k).fixed then _ else _) = _
      rw [if_neg hg]
      simp [applyWrites, applyWrites_cons]
    · show (if !cf && (getRec s2.store k).fixed then _ else _) = _
      rw [if_neg (by rw [← hfx]; exact hg)]
      simp [applyWrites, applyWrites_cons]

theorem tracksOn_guardWrite_keys {γ : Type} (proj : VStore → γ)
    (k : VKey) (v : Atom) : TracksOn proj (guardWriteC true k v) := by
  intro s1 s2 _
  refine Or.inr ⟨[(k, v)], [], ?_, ?_⟩ <;>
    simp [guardWriteC, applyWrites, applyWrites_cons]

theorem tracksOn_seq {γ : Type} {proj : VStore → γ} {f g : CState → CRes}
    (hproj : ∀ ws st, proj (applyWrites ws st) = proj st)
    (hf : TracksOn proj f) (hg : TracksOn proj g) :
    TracksOn proj (seqC f g) := by
  intro s1 s2 hp
  rcases hf s1 s2 hp with ⟨m, ws, h1, h2⟩ | ⟨ws, ls, h1, h2⟩
  · exact Or.inl ⟨m, ws, by simp [seqC, h1], by simp [seqC, h2]⟩
  · have hp2 : proj (applyWrites ws s1.store) = proj (applyWrites ws s2.store) := by
      rw [hproj, hproj]; exact hp
    rcases hg ⟨applyWrites ws s1.store, s1.logs ++ ls⟩
        ⟨applyWrites ws s2.store, s2.logs ++ ls⟩ hp2 with
      ⟨m, ws2, h3, h4⟩ | ⟨ws2, ls2, h3, h4⟩
    · refine Or.inl ⟨m, ws ++ ws2, ?_, ?_⟩
      · simp only [seqC, h1, h3, applyWrites_append]
      · simp only [seqC, h2, h4, applyWrites_append]
    · refine Or.inr ⟨ws ++ ws2, ls ++ ls2, ?_, ?_⟩
      · simp only [seqC, h1, h3, applyWrites_append, List.append_assoc]
      · simp only [seqC, h2, h4, applyWrites_append, List.append_assoc]

theorem tracksOn_forC {γ α : Type} {proj : VStore → γ}
    (hproj : ∀ ws st, proj (applyWrites ws st) = proj st)
    (step : α → CState → CRes) :
    ∀ l : List α, (∀ a ∈ l, TracksOn proj (step a)) →
      TracksOn proj (forC step l) := by
  intro l
  induction l with
  | nil => intro _; exact tracksOn_skip proj
  | cons a rest ih =>
    intro hsteps
    have : TracksOn proj (seqC (step a) (forC step rest)) :=
      tracksOn_seq hproj (hsteps a (List.mem_cons_self a rest))
        (ih (fun b hb => hsteps b (List.mem_cons_of_mem a hb)))
    exact this

theorem tracksOn_visitedFold {γ α : Type} {proj : VStore → γ}
    (hproj : ∀ ws st, proj (applyWrites ws st) = proj st)
    (step : α → CState → CRes) (sidOf : α → Nat) :
    ∀ l : List α, (∀ a ∈ l, TracksOn proj (step a)) →
      ∀ vis : List Nat, TracksOn proj (fun s => visitedFold step sidOf l vis s) := by
  intro l
  induction l with
  | nil => intro _ vis; exact tracksOn_skip proj
  | cons a rest ih =>
    intro hsteps vis
    by_cases hv : vis.contains (sidOf a)
    · have heq : (fun s => visitedFold step sidOf (a :: rest) vis s) =
          fun s => visitedFold step sidOf rest vis s := by
        funext s
        show (if vis.contains (sidOf a) then _ else _) = _
        rw [if_pos hv]
      rw [heq]
      exact ih (fun b hb => hsteps b (List.mem_cons_of_mem a hb)) vis
    · have heq : (fun s => visitedFold step sidOf (a :: rest) vis s) =
          seqC (step a) (fun s => visitedFold step sidOf rest (sidOf a :: vis) s) := by
        funext s
        show (if vis.contains (sidOf a) then _ else _) = _
        rw [if_neg hv]
      rw [heq]
      exact tracksOn_seq hproj (hsteps a (List.mem_cons_self a rest))
        (ih (fun b hb => hsteps b (List.mem_cons_of_mem a hb)) (sidOf a :: vis))

theorem tracksOn_cvatVarIdx {γ : Type} {proj : VStore → γ} {cf : Bool}
    (hguard : ∀ k v, TracksOn proj (guardWriteC cf k v))
    (srcStore : VStore) (getter : Getter) (tT tS : Atom)
    (vname wname : String) (nci : PyVal) :
    TracksOn proj (cvatVarIdx srcStore getter tT tS cf vname wname nci) := by
  cases hS : applyGetter getter nci [.atom tS] with
  | error m =>
    have heq : cvatVarIdx srcStore getter tT tS cf vname wname nci = raiseC m := by
      funext s
      unfold cvatVarIdx
      simp only [hS]
      rfl
    rw [heq]
    exact tracksOn_raise proj m
  | ok si =>
    cases hT : applyGetter getter nci [.atom tT] with
    | error m =>
      have heq : cvatVarIdx srcStore getter tT tS cf vname wname nci = raiseC m := by
        funext s
        unfold cvatVarIdx
        simp only [hS, hT]
        rfl
      rw [heq]
      exact tracksOn_raise proj m
    | ok ti =>
      have heq : cvatVarIdx srcStore getter tT tS cf vname wname nci =
          guardWriteC cf (VKey.top vname ti)
            (getRec srcStore (VKey.top wname si)).value := by
        funext s
        unfold cvatVarIdx
        simp only [hS, hT]
      rw [heq]
      exact hguard _ _

theorem tracksOn_cvatVar {γ : Type} {proj : VStore → γ} {cf : Bool}
    (hproj : ∀ ws st, proj (applyWrites ws st) = proj st)
    (hguard : ∀ k v, TracksOn proj (guardWriteC cf k v))
    (src : Flowsheet) (srcStore : VStore) (time : PyoSet) (tT tS : Atom)
    (v : FVar) :
    TracksOn proj (cvatVar src srcStore time tT tS cf v) := by
  cases hE : is_explicitly_indexed_by v.comp [time] with
  | error m =>
    have heq : cvatVar src srcStore time tT tS cf v = raiseC m := by
      funext s
      unfold cvatVar
      simp [hE, raiseC, logC]
    rw [heq]
    exact tracksOn_raise proj m
  | ok b =>
    cases b with
    | false =>
      have heq : cvatVar src srcStore time tT tS cf v = fun s => .ok s := by
        funext s
        unfold cvatVar
        simp [hE, raiseC, logC]
      rw [heq]
      exact tracksOn_skip proj
    | true =>
      cases hF : src.fvars.find? (fun w => w.vname == v.vname) with
      | none =>
        have heq : cvatVar src srcStore time tT tS cf v =
            logC ("Warning copying values: " ++ v.vname ++
              " does not exist in source block " ++ src.fsname) := by
          funext s
          unfold cvatVar
          simp [hE, hF, raiseC, logC]
        rw [heq]
        exact tracksOn_log proj _
      | some w =>
        by_cases h1 : (v.comp.dim == 1) = true
        · have heq : cvatVar src srcStore time tT tS cf v =
              guardWriteC cf (VKey.top v.vname (.atom tT))
                (getRec srcStore (VKey.top w.vname (.atom tS))).value := by
            funext s
            unfold cvatVar
            simp [hE, hF, h1, raiseC, logC]
          rw [heq]
          exact hguard _ _
        · by_cases h2 : 2 ≤ v.comp.dim
          · cases hG : get_index_set_except v.comp [time] with
            | error m =>
              have heq : cvatVar src srcStore time tT tS cf v = raiseC m := by
                funext s
                unfold cvatVar
                simp [hE, hF, hG, h1, h2, raiseC, logC]
              rw [heq]
              exact tracksOn_raise proj m
            | ok info =>
              have heq : cvatVar src srcStore time tT tS cf v =
                  forC (cvatVarIdx srcStore info.getter tT tS cf
                    v.vname w.vname) info.set_except.elemsList := by
                funext s
                unfold cvatVar
                simp [hE, hF, hG, h1, h2, raiseC, logC]
              rw [heq]
              exact tracksOn_forC hproj _ _
                (fun a _ => tracksOn_cvatVarIdx hguard srcStore info.getter
                  tT tS v.vname w.vname a)
          · have heq : cvatVar src srcStore time tT tS cf v = fun s => .ok s := by
              funext s
              unfold cvatVar
              simp [hE, hF, h1, h2, raiseC, logC]
            rw [heq]
            exact tracksOn_skip proj

theorem tracksOn_cvatBlkData {γ : Type} {proj : VStore → γ} {cf : Bool}
    (hproj : ∀ ws st, proj (applyWrites ws st) = proj st)
    (hguard : ∀ k v, TracksOn proj (guardWriteC cf k v))
    (srcStore : VStore) (bname sname : String) (ti si : PyVal) (m : FVar) :
    TracksOn proj (cvatBlkData srcStore cf bname sname ti si m) := by
  unfold cvatBlkData
  exact tracksOn_forC hproj _ _ (fun a _ => hguard _ _)

theorem tracksOn_cvatBlkIdx {γ : Type} {proj : VStore → γ} {cf : Bool}
    (hproj : ∀ ws st, proj (applyWrites ws st) = proj st)
    (hguard : ∀ k v, TracksOn proj (guardWriteC cf k v))
    (srcStore : VStore) (getter : Getter) (tT tS : Atom)
    (bname sname : String) (members : List FVar) (nci : PyVal) :
    TracksOn proj (cvatBlkIdx srcStore getter tT tS cf bname sname members nci) := by
  cases hS : applyGetter getter nci [.atom tS] with
  | error m =>
    have heq : cvatBlkIdx srcStore getter tT tS cf bname sname members nci =
        raiseC m := by
      funext s
      unfold cvatBlkIdx
      simp only [hS]
      rfl
    rw [heq]
    exact tracksOn_raise proj m
  | ok si =>
    cases hT : applyGetter getter nci [.atom tT] with
    | error m =>
      have heq : cvatBlkIdx srcStore getter tT tS cf bname sname members nci =
          raiseC m := by
        funext s
        unfold cvatBlkIdx
        simp only [hS, hT]
        rfl
      rw [heq]
      exact tracksOn_raise proj m
    | ok ti =>
      have heq : cvatBlkIdx srcStore getter tT tS cf bname sname members nci =
          forC (cvatBlkData srcStore cf bname sname ti si) members := by
        funext s
        unfold cvatBlkIdx
        simp only [hS, hT]
      rw [heq]
      exact tracksOn_forC hproj _ _
        (fun a _ => tracksOn_cvatBlkData hproj hguard srcStore bname sname ti si a)

theorem tracksOn_cvatBlk {γ : Type} {proj : VStore → γ} {cf : Bool}
    (hproj : ∀ ws st, proj (applyWrites ws st) = proj st)
    (hguard : ∀ k v, TracksOn proj (guardWriteC cf k v))
    (src : Flowsheet) (srcStore : VStore) (time : PyoSet) (tT tS : Atom)
    (b : FBlk) :
    TracksOn proj (cvatBlk src srcStore time tT tS cf b) := by
  cases hE : is_explicitly_indexed_by b.comp [time] with
  | error m =>
    have heq : cvatBlk src srcStore time tT tS cf b = raiseC m := by
      funext s
      unfold cvatBlk
      simp [hE, raiseC, logC]
    rw [heq]
    exact tracksOn_raise proj m
  | ok expl =>
    cases expl with
    | false =>
      have heq : cvatBlk src srcStore time tT tS cf b = fun s => .ok s := by
        funext s
        unfold cvatBlk
        simp [hE, raiseC, logC]
      rw [heq]
      exact tracksOn_skip proj
    | true =>
      cases hF : src.fblks.find? (fun c => c.bname == b.bname) with
      | none =>
        have heq : cvatBlk src srcStore time tT tS cf b =
            logC ("Warning copying values: " ++ b.bname ++
              " does not exist in source" ++ src.fsname) := by
          funext s
          unfold cvatBlk
          simp [hE, hF, raiseC, logC]
        rw [heq]
        exact tracksOn_log proj _
      | some bs =>
        by_cases h1 : (b.comp.dim == 1) = true
        · have heq : cvatBlk src srcStore time tT tS cf b =
              forC (cvatBlkData srcStore cf b.bname bs.bname
                (.atom tT) (.atom tS)) b.members := by
            funext s
            unfold cvatBlk
            simp [hE, hF, h1, raiseC, logC]
          rw [heq]
          exact tracksOn_forC hproj _ _
            (fun a _ => tracksOn_cvatBlkData hproj hguard srcStore
              b.bname bs.bname (.atom tT) (.atom tS) a)
        · by_cases h2 : 2 ≤ b.comp.dim
          · cases hG : get_index_set_except b.comp [time] with
            | error m =>
              have heq : cvatBlk src srcStore time tT tS cf b = raiseC m := by
                funext s
                unfold cvatBlk
                simp [hE, hF, hG, h1, h2, raiseC, logC]
              rw [heq]
              exact tracksOn_raise proj m
            | ok info =>
              have heq : cvatBlk src srcStore time tT tS cf b =
                  forC (cvatBlkIdx srcStore info.getter tT tS cf
                    b.bname bs.bname b.members) info.set_except.elemsList := by
                funext s
                unfold cvatBlk
                simp [hE, hF, hG, h1, h2, raiseC, logC]
              rw [heq]
              exact tracksOn_forC hproj _ _
                (fun a _ => tracksOn_cvatBlkIdx hproj hguard srcStore
                  info.getter tT tS b.bname bs.bname b.members a)
          · have heq : cvatBlk src srcStore time tT tS cf b = fun s => .ok s := by
              funext s
              unfold cvatBlk
              simp [hE, hF, h1, h2, raiseC, logC]
            rw [heq]
            exact tracksOn_skip proj

theorem tracksOn_cntivVar {γ : Type} {proj : VStore → γ} {cf : Bool}
    (hproj : ∀ ws st, proj (applyWrites ws st) = proj st)
    (hguard : ∀ k v, TracksOn proj (guardWriteC cf k v))
    (src : Flowsheet) (srcStore : VStore) (time : PyoSet) (v : FVar) :
    TracksOn proj (cntivVar src srcStore time cf v) := by
  cases hE : is_explicitly_indexed_by v.comp [time] with
  | error m =>
    have heq : cntivVar src srcStore time cf v = raiseC m := by
      funext s
      unfold cntivVar
      simp [hE, raiseC, logC]
    rw [heq]
    exact tracksOn_raise proj m
  | ok b =>
    cases b with
    | true =>
      have heq : cntivVar src srcStore time cf v = fun s => .ok s := by
        funext s
        unfold cntivVar
        simp [hE, raiseC, logC]
      rw [heq]
      exact tracksOn_skip proj
    | false =>
      cases hF : src.fvars.find? (fun w => w.vname == v.vname) with
      | none =>
        have heq : cntivVar src srcStore time cf v =
            raiseC "NameError: name varname is not defined" := by
          funext s
          unfold cntivVar
          simp [hE, hF, raiseC, logC]
        rw [heq]
        exact tracksOn_raise proj _
      | some w =>
        have heq : cntivVar src srcStore time cf v =
            forC (fun index => guardWriteC cf (VKey.top v.vname index)
              (getRec srcStore (VKey.top w.vname (.atom none))).value)
              (compIndices v.comp) := by
          funext s
          unfold cntivVar
          simp [hE, hF, raiseC, logC]
        rw [heq]
        exact tracksOn_forC hproj _ _ (fun a _ => hguard _ _)

theorem tracksOn_cntivBlkVar {γ : Type} {proj : VStore → γ} {cf : Bool}
    (hproj : ∀ ws st, proj (applyWrites ws st) = proj st)
    (hguard : ∀ k v, TracksOn proj (guardWriteC cf k v))
    (srcStore : VStore) (time : PyoSet) (bname sname : String)
    (b_index : PyVal) (m : FVar) :
    TracksOn proj (cntivBlkVar srcStore time cf bname sname b_index m) := by
  cases hE : is_explicitly_indexed_by m.comp [time] with
  | error m2 =>
    have heq : cntivBlkVar srcStore time cf bname sname b_index m = raiseC m2 := by
      funext s
      unfold cntivBlkVar
      simp [hE, raiseC, logC]
    rw [heq]
    exact tracksOn_raise proj m2
  | ok b =>
    cases b with
    | true =>
      have heq : cntivBlkVar srcStore time cf bname sname b_index m =
          fun s => .ok s := by
        funext s
        unfold cntivBlkVar
        simp [hE, raiseC, logC]
      rw [heq]
      exact tracksOn_skip proj
    | false =>
      have heq : cntivBlkVar srcStore time cf bname sname b_index m =
          forC (fun index => guardWriteC cf
            (VKey.mem bname b_index m.vname index)
            (getRec srcStore (VKey.mem sname b_index m.vname index)).value)
            (compIndices m.comp) := by
        funext s
        unfold cntivBlkVar
        simp [hE, raiseC, logC]
      rw [heq]
      exact tracksOn_forC hproj _ _ (fun a _ => hguard _ _)

theorem tracksOn_cntivBlk {γ : Type} {proj : VStore → γ} {cf : Bool}
    (hproj : ∀ ws st, proj (applyWrites ws st) = proj st)
    (hguard : ∀ k v, TracksOn proj (guardWriteC cf k v))
    (src : Flowsheet) (srcStore : VStore) (time : PyoSet) (b : FBlk) :
    TracksOn proj (cntivBlk src srcStore time cf b) := by
  cases hI : is_implicitly_indexed_by b.ancestors time with
  | error m =>
    have heq : cntivBlk src srcStore time cf b = raiseC m := by
      funext s
      unfold cntivBlk
      simp [hI, raiseC, logC]
    rw [heq]
    exact tracksOn_raise proj m
  | ok impl =>
    cases impl with
    | true =>
      have heq : cntivBlk src srcStore time cf b = fun s => .ok s := by
        funext s
        unfold cntivBlk
        simp [hI, raiseC, logC]
      rw [heq]
      exact tracksOn_skip proj
    | false =>
      cases hE : is_explicitly_indexed_by b.comp [time] with
      | error m =>
        have heq : cntivBlk src srcStore time cf b = raiseC m := by
          funext s
          unfold cntivBlk
          simp [hI, hE, raiseC, logC]
        rw [heq]
        exact tracksOn_raise proj m
      | ok expl =>
        cases expl with
        | true =>
          have heq : cntivBlk src srcStore time cf b = fun s => .ok s := by
            funext s
            unfold cntivBlk
            simp [hI, hE, raiseC, logC]
          rw [heq]
          exact tracksOn_skip proj
        | false =>
          cases hF : src.fblks.find? (fun c => c.bname == b.bname) with
          | none =>
            have heq : cntivBlk src srcStore time cf b =
                raiseC "NameError: name outlvl is not defined" := by
              funext s
              unfold cntivBlk
              simp [hI, hE, hF, raiseC, logC]
            rw [heq]
            exact tracksOn_raise proj _
          | some bs =>
            have heq : cntivBlk src srcStore time cf b =
                forC (fun b_index => fun s2 =>
                  forC (cntivBlkVar srcStore time cf b.bname bs.bname b_index)
                    b.members s2) (compIndices b.comp) := by
              funext s
              unfold cntivBlk
              simp [hI, hE, hF, raiseC, logC]
            rw [heq]
            refine tracksOn_forC hproj _ _ (fun bi _ => ?_)
            have : TracksOn proj
                (forC (cntivBlkVar srcStore time cf b.bname bs.bname bi)
                  b.members) :=
              tracksOn_forC hproj _ _
                (fun mv _ => tracksOn_cntivBlkVar hproj hguard srcStore time
                  b.bname bs.bname bi mv)
            exact this

theorem tracksOn_cvat_main {γ : Type} {proj : VStore → γ} {cf : Bool}
    (hproj : ∀ ws st, proj (applyWrites ws st) = proj st)
    (hguard : ∀ k v, TracksOn proj (guardWriteC cf k v))
    (tgt src : Flowsheet) (srcStore : VStore) (tT tS : Atom) :
    TracksOn proj (seqC
      (fun s => visitedFold (cvatVar src srcStore tgt.time tT tS cf)
        (·.sid) tgt.fvars [] s)
      (fun s => visitedFold (cvatBlk src srcStore tgt.time tT tS cf)
        (·.sid) tgt.fblks [] s)) :=
  tracksOn_seq hproj
    (tracksOn_visitedFold hproj _ _ tgt.fvars
      (fun a _ => tracksOn_cvatVar hproj hguard src srcStore tgt.time tT tS a)
      [])
    (tracksOn_visitedFold hproj _ _ tgt.fblks
      (fun a _ => tracksOn_cvatBlk hproj hguard src srcStore tgt.time tT tS a)
      [])

/-- C4: under the model's read-only source store (so source values are
unchanged between calls), if an invocation of `copy_values_at_time`
succeeds, invoking it again with identical arguments from the target
state it produced succeeds and returns that state unchanged: every write
sets an absolute value drawn from the source, and the guards read only
the fixed flags, which no write changes. -/
theorem copy_values_at_time_idempotent (tgt src : Flowsheet)
    (srcStore : VStore) (t_target t_source : Atom) (copy_fixed : Bool)
    (store : VStore) (s1 : CState)
    (h : copy_values_at_time tgt src srcStore t_target t_source copy_fixed
        store = .ok s1) :
    copy_values_at_time tgt src srcStore t_target t_source copy_fixed
        s1.store = .ok s1 := by
  have hT := tracksOn_cvat_main keysFix_applyWrites
    (fun k v => tracksOn_guardWrite_fix copy_fixed k v)
    tgt src srcStore t_target t_source
  have h1 : (seqC
      (fun s => visitedFold (cvatVar src srcStore tgt.time t_target t_source
        copy_fixed) (·.sid) tgt.fvars [] s)
      (fun s => visitedFold (cvatBlk src srcStore tgt.time t_target t_source
        copy_fixed) (·.sid) tgt.fblks [] s)) ⟨store, []⟩ = .ok s1 := h
  rcases hT ⟨store, []⟩ ⟨store, []⟩ rfl with ⟨m, ws, he1, _⟩ | ⟨ws, ls, ho1, _⟩
  · rw [h1] at he1
    cases he1
  · have hs1 : s1 = ⟨applyWrites ws store, [] ++ ls⟩ :=
      (Except.ok.inj (ho1.symm.trans h1)).symm
    have hkf : keysFix (⟨store, []⟩ : CState).store = keysFix s1.store := by
      rw [hs1]
      exact (keysFix_applyWrites ws store).symm
    rcases hT ⟨store, []⟩ ⟨s1.store, []⟩ hkf with
      ⟨m, ws2, he1, _⟩ | ⟨ws2, ls2, ho1b, ho2b⟩
    · rw [h1] at he1
      cases he1
    · have hs1b : s1 = ⟨applyWrites ws2 store, [] ++ ls2⟩ :=
        (Except.ok.inj (ho1b.symm.trans h1)).symm
      show (seqC
        (fun s => visitedFold (cvatVar src srcStore tgt.time t_target t_source
          copy_fixed) (·.sid) tgt.fvars [] s)
        (fun s => visitedFold (cvatBlk src srcStore tgt.time t_target t_source
          copy_fixed) (·.sid) tgt.fblks [] s)) ⟨s1.store, []⟩ = .ok s1
      rw [ho2b]
      have hstore : applyWrites ws2 s1.store = s1.store := by
        rw [hs1b]
        show applyWrites ws2 (applyWrites ws2 store) = applyWrites ws2 store
        exact applyWrites_idem ws2 store
      rw [hstore]
      have hlogs : ([] : List String) ++ ls2 = s1.logs := by
        rw [hs1b]
      rw [hlogs]

/-- A one-variable target flowsheet for concrete runs. -/
def fsTgtW : Flowsheet := ⟨setT, "fs_tgt", [⟨10, "v", ⟨"v", some (.single setT)⟩⟩], []⟩

/-- The matching source flowsheet. -/
def fsSrcW : Flowsheet := ⟨setT, "fs_src", [⟨11, "v", ⟨"v", some (.single setT)⟩⟩], []⟩

/-- Source values: `v[0] = 42`. -/
def srcStoreW : VStore := [(VKey.top "v" (.atom (some 0)), ⟨some 42, false⟩)]

/-- Initial target store: `v[1] = 0`, unfixed. -/
def stW : VStore := [(VKey.top "v" (.atom (some 1)), ⟨some 0, false⟩)]

/-- Witness for the C4 theorem: a successful copy from time 0 to time 1,
and the theorem applied to it — the second identical invocation returns
the reached state unchanged. -/
theorem copy_values_at_time_idempotent_witness :
    copy_values_at_time fsTgtW fsSrcW srcStoreW (some 1) (some 0) true stW =
      .ok ⟨[(VKey.top "v" (.atom (some 1)), ⟨some 42, false⟩)], []⟩ ∧
    copy_values_at_time fsTgtW fsSrcW srcStoreW (some 1) (some 0) true
        [(VKey.top "v" (.atom (some 1)), ⟨some 42, false⟩)] =
      .ok ⟨[(VKey.top "v" (.atom (some 1)), ⟨some 42, false⟩)], []⟩ :=
  ⟨by decide,
   copy_values_at_time_idempotent fsTgtW fsSrcW srcStoreW (some 1) (some 0)
     true stW ⟨[(VKey.top "v" (.atom (some 1)), ⟨some 42, false⟩)], []⟩
     (by decide)⟩

/-! ### Fixed-record protection: with `copy_fixed=False` no step ever
writes a record whose fixed flag is set. -/

/-- The target store reached by an outcome (a raise carries the store as
it stood). -/
def outStore : CRes → VStore
  | .error e => e.2
  | .ok s => s.store

/-- `f` never changes the record at any key that is fixed on entry. -/
def FixedStable (f : CState → CRes) : Prop :=
  ∀ s : CState, ∀ k, (getRec s.store k).fixed = true →
    getRec (outStore (f s)) k = getRec s.store k

theorem fixedStable_skip : FixedStable (fun s => .ok s) :=
  fun _ _ _ => rfl

theorem fixedStable_raise (m : String) : FixedStable (raiseC m) :=
  fun _ _ _ => rfl

theorem fixedStable_log (msg : String) : FixedStable (logC msg) :=
  fun _ _ _ => rfl

theorem fixedStable_guardWrite (k2 : VKey) (v : Atom) :
    FixedStable (guardWriteC false k2 v) := by
  intro s k hk
  show getRec (outStore
    (if !false && (getRec s.store k2).fixed then .ok s
     else .ok ⟨setVal s.store k2 v, s.logs⟩)) k = getRec s.store k
  by_cases hg : (getRec s.store k2).fixed = true
  · rw [if_pos (by simp [hg])]
    rfl
  · rw [if_neg (by simp [hg])]
    show getRec (setVal s.store k2 v) k = getRec s.store k
    have hne : k ≠ k2 := by
      intro hkk
      rw [hkk] at hk
      exact hg hk
    exact getRec_setVal_ne s.store k k2 v hne

theorem fixedStable_seq {f g : CState → CRes}
    (hf : FixedStable f) (hg : FixedStable g) : FixedStable (seqC f g) := by
  intro s k hk
  cases hfs : f s with
  | error e =>
    have h1 := hf s k hk
    rw [hfs] at h1
    have hseq : seqC f g s = .error e := by simp [seqC, hfs]
    rw [hseq]
    exact h1
  | ok s2 =>
    have h1 : getRec s2.store k = getRec s.store k := by
      have h0 := hf s k hk
      rw [hfs] at h0
      exact h0
    have hk2 : (getRec s2.store k).fixed = true := by rw [h1]; exact hk
    have h2 := hg s2 k hk2
    have hseq : seqC f g s = g s2 := by simp [seqC, hfs]
    rw [hseq, h2, h1]

theorem fixedStable_forC {α : Type} (step : α → CState → CRes) :
    ∀ l : List α, (∀ a ∈ l, FixedStable (step a)) →
      FixedStable (forC step l) := by
  intro l
  induction l with
  | nil => intro _; exact fixedStable_skip
  | cons a rest ih =>
    intro hsteps
    exact fixedStable_seq (hsteps a (List.mem_cons_self a rest))
      (ih (fun b hb => hsteps b (List.mem_cons_of_mem a hb)))

theorem fixedStable_visitedFold {α : Type} (step : α → CState → CRes)
    (sidOf : α → Nat) :
    ∀ l : List α, (∀ a ∈ l, FixedStable (step a)) →
      ∀ vis : List Nat,
        FixedStable (fun s => visitedFold step sidOf l vis s) := by
  intro l
  induction l with
  | nil => intro _ vis; exact fixedStable_skip
  | cons a rest ih =>
    intro hsteps vis
    by_cases hv : vis.contains (sidOf a)
    · have heq : (fun s => visitedFold step sidOf (a :: rest) vis s) =
          fun s => visitedFold step sidOf rest vis s := by
        funext s
        show (if vis.contains (sidOf a) then _ else _) = _
        rw [if_pos hv]
      rw [heq]
      exact ih (fun b hb => hsteps b (List.mem_cons_of_mem a hb)) vis
    · have heq : (fun s => visitedFold step sidOf (a :: rest) vis s) =
          seqC (step a)
            (fun s => visitedFold step sidOf rest (sidOf a :: vis) s) := by
        funext s
        show (if vis.contains (sidOf a) then _ else _) = _
        rw [if_neg hv]
      rw [heq]
      exact fixedStable_seq (hsteps a (List.mem_cons_self a rest))
        (ih (fun b hb => hsteps b (List.mem_cons_of_mem a hb)) (sidOf a :: vis))

theorem fixedStable_cvatVarIdx (srcStore : VStore) (getter : Getter)
    (tT tS : Atom) (vname wname : String) (nci : PyVal) :
    FixedStable (cvatVarIdx srcStore getter tT tS false vname wname nci) := by
  cases hS : applyGetter getter nci [.atom tS] with
  | error m =>
    have heq : cvatVarIdx srcStore getter tT tS false vname wname nci =
        raiseC m := by
      funext s
      unfold cvatVarIdx
      simp only [hS]
      rfl
    rw [heq]
    exact fixedStable_raise m
  | ok si =>
    cases hT : applyGetter getter nci [.atom tT] with
    | error m =>
      have heq : cvatVarIdx srcStore getter tT tS false vname wname nci =
          raiseC m := by
        funext s
        unfold cvatVarIdx
        simp only [hS, hT]
        rfl
      rw [heq]
      exact fixedStable_raise m
    | ok ti =>
      have heq : cvatVarIdx srcStore getter tT tS false vname wname nci =
          guardWriteC false (VKey.top vname ti)
            (getRec srcStore (VKey.top wname si)).value := by
        funext s
        unfold cvatVarIdx
        simp only [hS, hT]
      rw [heq]
      exact fixedStable_guardWrite _ _

theorem fixedStable_cvatVar (src : Flowsheet) (srcStore : VStore)
    (time : PyoSet) (tT tS : Atom) (v : FVar) :
    FixedStable (cvatVar src srcStore time tT tS false v) := by
  cases hE : is_explicitly_indexed_by v.comp [time] with
  | error m =>
    have heq : cvatVar src srcStore time tT tS false v = raiseC m := by
      funext s
      unfold cvatVar
      simp [hE, raiseC, logC]
    rw [heq]
    exact fixedStable_raise m
  | ok b =>
    cases b with
    | false =>
      have heq : cvatVar src srcStore time tT tS false v = fun s => .ok s := by
        funext s
        unfold cvatVar
        simp [hE, raiseC, logC]
      rw [heq]
      exact fixedStable_skip
    | true =>
      cases hF : src.fvars.find? (fun w => w.vname == v.vname) with
      | none =>
        have heq : cvatVar src srcStore time tT tS false v =
            logC ("Warning copying values: " ++ v.vname ++
              " does not exist in source block " ++ src.fsname) := by
          funext s
          unfold cvatVar
          simp [hE, hF, raiseC, logC]
        rw [heq]
        exact fixedStable_log _
      | some w =>
        by_cases h1 : (v.comp.dim == 1) = true
        · have heq : cvatVar src srcStore time tT tS false v =
              guardWriteC false (VKey.top v.vname (.atom tT))
                (getRec srcStore (VKey.top w.vname (.atom tS))).value := by
            funext s
            unfold cvatVar
            simp [hE, hF, h1, raiseC, logC]
          rw [heq]
          exact fixedStable_guardWrite _ _
        · by_cases h2 : 2 ≤ v.comp.dim
          · cases hG : get_index_set_except v.comp [time] with
            | error m =>
              have heq : cvatVar src srcStore time tT tS false v = raiseC m := by
                funext s
                unfold cvatVar
                simp [hE, hF, hG, h1, h2, raiseC, logC]
              rw [heq]
              exact fixedStable_raise m
            | ok info =>
              have heq : cvatVar src srcStore time tT tS false v =
                  forC (cvatVarIdx srcStore info.getter tT tS false
                    v.vname w.vname) info.set_except.elemsList := by
                funext s
                unfold cvatVar
                simp [hE, hF, hG, h1, h2, raiseC, logC]
              rw [heq]
              exact fixedStable_forC _ _
                (fun a _ => fixedStable_cvatVarIdx srcStore info.getter
                  tT tS v.vname w.vname a)
          · have heq : cvatVar src srcStore time tT tS false v =
                fun s => .ok s := by
              funext s
              unfold cvatVar
              simp [hE, hF, h1, h2, raiseC, logC]
            rw [heq]
            exact fixedStable_skip

theorem fixedStable_cvatBlkData (srcStore : VStore) (bname sname : String)
    (ti si : PyVal) (m : FVar) :
    FixedStable (cvatBlkData srcStore false bname sname ti si m) := by
  unfold cvatBlkData
  exact fixedStable_forC _ _ (fun a _ => fixedStable_guardWrite _ _)

theorem fixedStable_cvatBlkIdx (srcStore : VStore) (getter : Getter)
    (tT tS : Atom) (bname sname : String) (members : List FVar)
    (nci : PyVal) :
    FixedStable (cvatBlkIdx srcStore getter tT tS false bname sname
      members nci) := by
  cases hS : applyGetter getter nci [.atom tS] with
  | error m =>
    have heq : cvatBlkIdx srcStore getter tT tS false bname sname members nci =
        raiseC m := by
      funext s
      unfold cvatBlkIdx
      simp only [hS]
      rfl
    rw [heq]
    exact fixedStable_raise m
  | ok si =>
    cases hT : applyGetter getter nci [.atom tT] with
    | error m =>
      have heq : cvatBlkIdx srcStore getter tT tS false bname sname members nci =
          raiseC m := by
        funext s
        unfold cvatBlkIdx
        simp only [hS, hT]
        rfl
      rw [heq]
      exact fixedStable_raise m
    | ok ti =>
      have heq : cvatBlkIdx srcStore getter tT tS false bname sname members nci =
          forC (cvatBlkData srcStore false bname sname ti si) members := by
        funext s
        unfold cvatBlkIdx
        simp only [hS, hT]
      rw [heq]
      exact fixedStable_forC _ _
        (fun a _ => fixedStable_cvatBlkData srcStore bname sname ti si a)

theorem fixedStable_cvatBlk (src : Flowsheet) (srcStore : VStore)
    (time : PyoSet) (tT tS : Atom) (b : FBlk) :
    FixedStable (cvatBlk src srcStore time tT tS false b) := by
  cases hE : is_explicitly_indexed_by b.comp [time] with
  | error m =>
    have heq : cvatBlk src srcStore time tT tS false b = raiseC m := by
      funext s
      unfold cvatBlk
      simp [hE, raiseC, logC]
    rw [heq]
    exact fixedStable_raise m
  | ok expl =>
    cases expl with
    | false =>
      have heq : cvatBlk src srcStore time tT tS false b = fun s => .ok s := by
        funext s
        unfold cvatBlk
        simp [hE, raiseC, logC]
      rw [heq]
      exact fixedStable_skip
    | true =>
      cases hF : src.fblks.find? (fun c => c.bname == b.bname) with
      | none =>
        have heq : cvatBlk src srcStore time tT tS false b =
            logC ("Warning copying values: " ++ b.bname ++
              " does not exist in source" ++ src.fsname) := by
          funext s
          unfold cvatBlk
          simp [hE, hF, raiseC, logC]
        rw [heq]
        exact fixedStable_log _
      | some bs =>
        by_cases h1 : (b.comp.dim == 1) = true
        · have heq : cvatBlk src srcStore time tT tS false b =
              forC (cvatBlkData srcStore false b.bname bs.bname
                (.atom tT) (.atom tS)) b.members := by
            funext s
            unfold cvatBlk
            simp [hE, hF, h1, raiseC, logC]
          rw [heq]
          exact fixedStable_forC _ _
            (fun a _ => fixedStable_cvatBlkData srcStore b.bname bs.bname
              (.atom tT) (.atom tS) a)
        · by_cases h2 : 2 ≤ b.comp.dim
          · cases hG : get_index_set_except b.comp [time] with
            | error m =>
              have heq : cvatBlk src srcStore time tT tS false b = raiseC m := by
                funext s
                unfold cvatBlk
                simp [hE, hF, hG, h1, h2, raiseC, logC]
              rw [heq]
              exact fixedStable_raise m
            | ok info =>
              have heq : cvatBlk src srcStore time tT tS false b =
                  forC (cvatBlkIdx srcStore info.getter tT tS false
                    b.bname bs.bname b.members) info.set_except.elemsList := by
                funext s
                unfold cvatBlk
                simp [hE, hF, hG, h1, h2, raiseC, logC]
              rw [heq]
              exact fixedStable_forC _ _
                (fun a _ => fixedStable_cvatBlkIdx srcStore info.getter
                  tT tS b.bname bs.bname b.members a)
          · have heq : cvatBlk src srcStore time tT tS false b =
                fun s => .ok s := by
              funext s
              unfold cvatBlk
              simp [hE, hF, h1, h2, raiseC, logC]
            rw [heq]
            exact fixedStable_skip

theorem fixedStable_cntivVar (src : Flowsheet) (srcStore : VStore)
    (time : PyoSet) (v : FVar) :
    FixedStable (cntivVar src srcStore time false v) := by
  cases hE : is_explicitly_indexed_by v.comp [time] with
  | error m =>
    have heq : cntivVar src srcStore time false v = raiseC m := by
      funext s
      unfold cntivVar
      simp [hE, raiseC, logC]
    rw [heq]
    exact fixedStable_raise m
  | ok b =>
    cases b with
    | true =>
      have heq : cntivVar src srcStore time false v = fun s => .ok s := by
        funext s
        unfold cntivVar
        simp [hE, raiseC, logC]
      rw [heq]
      exact fixedStable_skip
    | false =>
      cases hF : src.fvars.find? (fun w => w.vname == v.vname) with
      | none =>
        have heq : cntivVar src srcStore time false v =
            raiseC "NameError: name varname is not defined" := by
          funext s
          unfold cntivVar
          simp [hE, hF, raiseC, logC]
        rw [heq]
        exact fixedStable_raise _
      | some w =>
        have heq : cntivVar src srcStore time false v =
            forC (fun index => guardWriteC false (VKey.top v.vname index)
              (getRec srcStore (VKey.top w.vname (.atom none))).value)
              (compIndices v.comp) := by
          funext s
          unfold cntivVar
          simp [hE, hF, raiseC, logC]
        rw [heq]
        exact fixedStable_forC _ _ (fun a _ => fixedStable_guardWrite _ _)

theorem fixedStable_cntivBlkVar (srcStore : VStore) (time : PyoSet)
    (bname sname : String) (b_index : PyVal) (m : FVar) :
    FixedStable (cntivBlkVar srcStore time false bname sname b_index m) := by
  cases hE : is_explicitly_indexed_by m.comp [time] with
  | error m2 =>
    have heq : cntivBlkVar srcStore time false bname sname b_index m =
        raiseC m2 := by
      funext s
      unfold cntivBlkVar
      simp [hE, raiseC, logC]
    rw [heq]
    exact fixedStable_raise m2
  | ok b =>
    cases b with
    | true =>
      have heq : cntivBlkVar srcStore time false bname sname b_index m =
          fun s => .ok s := by
        funext s
        unfold cntivBlkVar
        simp [hE, raiseC, logC]
      rw [heq]
      exact fixedStable_skip
    | false =>
      have heq : cntivBlkVar srcStore time false bname sname b_index m =
          forC (fun index => guardWriteC false
            (VKey.mem bname b_index m.vname index)
            (getRec srcStore (VKey.mem sname b_index m.vname index)).value)
            (compIndices m.comp) := by
        funext s
        unfold cntivBlkVar
        simp [hE, raiseC, logC]
      rw [heq]
      exact fixedStable_forC _ _ (fun a _ => fixedStable_guardWrite _ _)

theorem fixedStable_cntivBlk (src : Flowsheet) (srcStore : VStore)
    (time : PyoSet) (b : FBlk) :
    FixedStable (cntivBlk src srcStore time false b) := by
  cases hI : is_implicitly_indexed_by b.ancestors time with
  | error m =>
    have heq : cntivBlk src srcStore time false b = raiseC m := by
      funext s
      unfold cntivBlk
      simp [hI, raiseC, logC]
    rw [heq]
    exact fixedStable_raise m
  | ok impl =>
    cases impl with
    | true =>
      have heq : cntivBlk src srcStore time false b = fun s => .ok s := by
        funext s
        unfold cntivBlk
        simp [hI, raiseC, logC]
      rw [heq]
      exact fixedStable_skip
    | false =>
      cases hE : is_explicitly_indexed_by b.comp [time] with
      | error m =>
        have heq : cntivBlk src srcStore time false b = raiseC m := by
          funext s
          unfold cntivBlk
          simp [hI, hE, raiseC, logC]
        rw [heq]
        exact fixedStable_raise m
      | ok expl =>
        cases expl with
        | true =>
          have heq : cntivBlk src srcStore time false b = fun s => .ok s := by
            funext s
            unfold cntivBlk
            simp [hI, hE, raiseC, logC]
          rw [heq]
          exact fixedStable_skip
        | false =>
          cases hF : src.fblks.find? (fun c => c.bname == b.bname) with
          | none =>
            have heq : cntivBlk src srcStore time false b =
                raiseC "NameError: name outlvl is not defined" := by
              funext s
              unfold cntivBlk
              simp [hI, hE, hF, raiseC, logC]
            rw [heq]
            exact fixedStable_raise _
          | some bs =>
            have heq : cntivBlk src srcStore time false b =
                forC (fun b_index => fun s2 =>
                  forC (cntivBlkVar srcStore time false b.bname bs.bname
                    b_index) b.members s2) (compIndices b.comp) := by
              funext s
              unfold cntivBlk
              simp [hI, hE, hF, raiseC, logC]
            rw [heq]
            refine fixedStable_forC _ _ (fun bi _ => ?_)
            have hss : FixedStable
                (forC (cntivBlkVar srcStore time false b.bname bs.bname bi)
                  b.members) :=
              fixedStable_forC _ _
                (fun mv _ => fixedStable_cntivBlkVar srcStore time
                  b.bname bs.bname bi mv)
            exact hss

theorem tracksOn_cntiv_main {γ : Type} {proj : VStore → γ} {cf : Bool}
    (hproj : ∀ ws st, proj (applyWrites ws st) = proj st)
    (hguard : ∀ k v, TracksOn proj (guardWriteC cf k v))
    (tgt src : Flowsheet) (srcStore : VStore) :
    TracksOn proj (seqC
      (fun s => visitedFold (cntivVar src srcStore tgt.time cf)
        (·.sid) tgt.fvars [] s)
      (fun s => visitedFold (cntivBlk src srcStore tgt.time cf)
        (·.sid) tgt.fblks [] s)) :=
  tracksOn_seq hproj
    (tracksOn_visitedFold hproj _ _ tgt.fvars
      (fun a _ => tracksOn_cntivVar hproj hguard src srcStore tgt.time a) [])
    (tracksOn_visitedFold hproj _ _ tgt.fblks
      (fun a _ => tracksOn_cntivBlk hproj hguard src srcStore tgt.time a) [])

/-- C3: fixed-record protection, uniform across both copy operations.
With `copy_fixed=False`, a target record whose fixed flag is set on
entry is left entirely unchanged by every outcome (success or raise) of
either operation.  With `copy_fixed=True`, the fixed flags are never
consulted: two runs of either operation from stores with the same keys
and the same values but arbitrary fixed flags raise identically or
succeed with identical logs and identical resulting values — fixed
records are overwritten exactly like unfixed ones. -/
theorem copy_fixed_protection :
    (∀ (tgt src : Flowsheet) (srcStore : VStore) (tT tS : Atom)
        (store : VStore) (k : VKey), (getRec store k).fixed = true →
      getRec (outStore (copy_values_at_time tgt src srcStore tT tS false
        store)) k = getRec store k) ∧
    (∀ (tgt src : Flowsheet) (srcStore : VStore) (store : VStore) (k : VKey),
        (getRec store k).fixed = true →
      getRec (outStore (copy_non_time_indexed_values tgt src srcStore false
        store)) k = getRec store k) ∧
    (∀ (tgt src : Flowsheet) (srcStore : VStore) (tT tS : Atom)
        (st1 st2 : VStore), keysOf st1 = keysOf st2 → valsOf st1 = valsOf st2 →
      (∃ m w1 w2,
        copy_values_at_time tgt src srcStore tT tS true st1 = .error (m, w1) ∧
        copy_values_at_time tgt src srcStore tT tS true st2 = .error (m, w2) ∧
        valsOf w1 = valsOf w2) ∨
      (∃ o1 o2,
        copy_values_at_time tgt src srcStore tT tS true st1 = .ok o1 ∧
        copy_values_at_time tgt src srcStore tT tS true st2 = .ok o2 ∧
        o1.logs = o2.logs ∧ valsOf o1.store = valsOf o2.store)) ∧
    (∀ (tgt src : Flowsheet) (srcStore : VStore) (st1 st2 : VStore),
        keysOf st1 = keysOf st2 → valsOf st1 = valsOf st2 →
      (∃ m w1 w2,
        copy_non_time_indexed_values tgt src srcStore true st1 = .error (m, w1) ∧
        copy_non_time_indexed_values tgt src srcStore true st2 = .error (m, w2) ∧
        valsOf w1 = valsOf w2) ∨
      (∃ o1 o2,
        copy_non_time_indexed_values tgt src srcStore true st1 = .ok o1 ∧
        copy_non_time_indexed_values tgt src srcStore true st2 = .ok o2 ∧
        o1.logs = o2.logs ∧ valsOf o1.store = valsOf o2.store)) := by
  refine ⟨?_, ?_, ?_, ?_⟩
  · intro tgt src srcStore tT tS store k hk
    exact (fixedStable_seq
      (fixedStable_visitedFold _ _ tgt.fvars
        (fun a _ => fixedStable_cvatVar src srcStore tgt.time tT tS a) [])
      (fixedStable_visitedFold _ _ tgt.fblks
        (fun a _ => fixedStable_cvatBlk src srcStore tgt.time tT tS a) []))
      ⟨store, []⟩ k hk
  · intro tgt src srcStore store k hk
    exact (fixedStable_seq
      (fixedStable_visitedFold _ _ tgt.fvars
        (fun a _ => fixedStable_cntivVar src srcStore tgt.time a) [])
      (fixedStable_visitedFold _ _ tgt.fblks
        (fun a _ => fixedStable_cntivBlk src srcStore tgt.time a) []))
      ⟨store, []⟩ k hk
  · intro tgt src srcStore tT tS st1 st2 hkeys hvals
    have hT := tracksOn_cvat_main keysOf_applyWrites
      (fun k v => tracksOn_guardWrite_keys keysOf k v) tgt src srcStore tT tS
    rcases hT ⟨st1, []⟩ ⟨st2, []⟩ hkeys with
      ⟨m, ws, h1, h2⟩ | ⟨ws, ls, h1, h2⟩
    · exact Or.inl ⟨m, applyWrites ws st1, applyWrites ws st2, h1, h2,
        valsOf_applyWrites_congr ws st1 st2 hvals⟩
    · exact Or.inr ⟨⟨applyWrites ws st1, [] ++ ls⟩,
        ⟨applyWrites ws st2, [] ++ ls⟩, h1, h2, rfl,
        valsOf_applyWrites_congr ws st1 st2 hvals⟩
  · intro tgt src srcStore st1 st2 hkeys hvals
    have hT := tracksOn_cntiv_main keysOf_applyWrites
      (fun k v => tracksOn_guardWrite_keys keysOf k v) tgt src srcStore
    rcases hT ⟨st1, []⟩ ⟨st2, []⟩ hkeys with
      ⟨m, ws, h1, h2⟩ | ⟨ws, ls, h1, h2⟩
    · exact Or.inl ⟨m, applyWrites ws st1, applyWrites ws st2, h1, h2,
        valsOf_applyWrites_congr ws st1 st2 hvals⟩
    · exact Or.inr ⟨⟨applyWrites ws st1, [] ++ ls⟩,
        ⟨applyWrites ws st2, [] ++ ls⟩, h1, h2, rfl,
        valsOf_applyWrites_congr ws st1 st2 hvals⟩

/-- A target store whose single record is fixed. -/
def stFixW : VStore := [(VKey.top "v" (.atom (some 1)), ⟨some 7, true⟩)]

/-- Witness for the C3 theorem: with `copy_fixed=False` the fixed record
of the concrete flowsheet is untouched by `copy_values_at_time`. -/
theorem copy_fixed_protection_witness :
    (getRec stFixW (VKey.top "v" (.atom (some 1)))).fixed = true ∧
    getRec (outStore (copy_values_at_time fsTgtW fsSrcW srcStoreW
        (some 1) (some 0) false stFixW)) (VKey.top "v" (.atom (some 1))) =
      getRec stFixW (VKey.top "v" (.atom (some 1))) :=
  ⟨by decide,
   copy_fixed_protection.1 fsTgtW fsSrcW srcStoreW (some 1) (some 0)
     stFixW (VKey.top "v" (.atom (some 1))) (by decide)⟩

/-- Target flowsheet for the C1 run: a scalar Var `a` (absent from the
source) followed by a scalar Var `b` (present in the source). -/
def tgtC1 : Flowsheet :=
  ⟨setT, "fs_tgt1", [⟨20, "a", ⟨"a", none⟩⟩, ⟨21, "b", ⟨"b", none⟩⟩], []⟩

/-- Source flowsheet lacking `a`. -/
def srcC1 : Flowsheet := ⟨setT, "fs_src1", [⟨22, "b", ⟨"b", none⟩⟩], []⟩

/-- Source values: `b = 5`. -/
def srcStoreC1 : VStore := [(VKey.top "b" (.atom none), ⟨some 5, false⟩)]

/-- Initial target store: `a = 0`, `b = 0`. -/
def storeC1 : VStore :=
  [(VKey.top "a" (.atom none), ⟨some 0, false⟩),
   (VKey.top "b" (.atom none), ⟨some 0, false⟩)]

/-- Target flowsheet for the contrasting `copy_values_at_time` run: two
time-indexed Vars, `a` absent from the source. -/
def tgtC1v : Flowsheet :=
  ⟨setT, "fs_tgt2",
   [⟨30, "a", ⟨"a", some (.single setT)⟩⟩,
    ⟨31, "b", ⟨"b", some (.single setT)⟩⟩], []⟩

/-- Source flowsheet lacking `a`. -/
def srcC1v : Flowsheet :=
  ⟨setT, "fs_src2", [⟨32, "b", ⟨"b", some (.single setT)⟩⟩], []⟩

/-- Source values: `b[0] = 9`. -/
def srcStoreC1v : VStore := [(VKey.top "b" (.atom (some 0)), ⟨some 9, false⟩)]

/-- Initial target store: `a[1] = 0`, `b[1] = 0`. -/
def storeC1v : VStore :=
  [(VKey.top "a" (.atom (some 1)), ⟨some 0, false⟩),
   (VKey.top "b" (.atom (some 1)), ⟨some 0, false⟩)]

/-- C1 counterexample: when the source lacks a name-matched entity,
`copy_non_time_indexed_values` does not log a diagnostic and continue —
its warning branch (`dyn_utils.py` lines 780-784) evaluates the
undefined names `varname` and `outlvl`, so a NameError escapes the bulk
operation with the target store untouched (`b` is never copied: it still
holds 0, not the source's 5).  `copy_values_at_time`, whose Var loop
defines `varname` and receives `outlvl` (lines 880-887), behaves as the
claim says on the analogous input: exactly one warning for `a`, `b`
still copied, no exception. -/
theorem copy_non_time_indexed_values_nameerror :
    copy_non_time_indexed_values tgtC1 srcC1 srcStoreC1 true storeC1 =
      .error ("NameError: name varname is not defined", storeC1) ∧
    copy_values_at_time tgtC1v srcC1v srcStoreC1v (some 1) (some 0) true
        storeC1v =
      .ok ⟨[(VKey.top "a" (.atom (some 1)), ⟨some 0, false⟩),
            (VKey.top "b" (.atom (some 1)), ⟨some 9, false⟩)],
           ["Warning copying values: a does not exist in source block " ++
            "fs_src2"]⟩ :=
  ⟨by decide, by decide⟩
